import Mathlib

/-!
Probabilistic label tree: training router, calibrator and searchers

A shallow embedding of `napkinXC/src/models/plt.cpp`.

Conventions of the embedding.

* A `TreeNode*` is represented by the index of the node, which is the position of
  the node in `tree->nodes`; `n->index` is therefore `n` itself and a null pointer
  is `none`.
* `double` values are rationals.
* `UnorderedSet<TreeNode*>` is a duplicate-free list and `insert` keeps an element
  that is already present; the iteration order of the list stands for the
  (unspecified) iteration order of the hash set.
* `std::unordered_map<int, TreeNode*>` (`tree->leaves`) is an association list.
* Loops that follow pointers (`while (n->parent)`, the level loop of the beam
  search, the pop loop of the exact search) take a `fuel` argument and fail when
  it runs out.
* A write `v[i].push_back(x)` into a table of bins outside the table fails
  (`pushBack`), and so does a read of the per-label arrays in the calibrator
  (`vectorAt`). Inside the searchers an unchecked read of `nodesThr` or
  `nodesWeights` outside the table gives the zero entry and a write to a row or
  node that does not exist is dropped.
* The classifier table `bases` and the queue class `TopKQueue` are declared
  outside `plt.cpp`; they are parameters of the searchers.
* Logging, progress output and the counters `nodeEvaluationCount` and
  `dataPointCount` of the searchers are left out.

The definitions come first, then the lemmas and the claims.
-/

namespace NapkinXC

/-! ## Data model -/

/-- One entry `(index, value)` of a sparse feature row (`struct Feature`). A
`Feature*` row is a `List Feature`. -/
structure Feature where
  index : Int
  value : ℚ
  deriving DecidableEq, Repr

/-- A node of the label tree (`struct TreeNode`). `label` is `-1` for an internal
node; `parent` and `children` hold node indices. -/
structure TreeNode where
  label : Int
  parent : Option Nat
  children : List Nat
  subtreeLeaves : Nat
  deriving DecidableEq, Repr

/-- The label tree (`class Tree`): `root`, the arena `nodes`, the map `leaves` from
label to leaf node, the number of leaves `k` and the number of nodes `t`. -/
structure Tree where
  root : Nat
  nodes : List TreeNode
  leaves : List (Int × Nat)
  k : Nat
  t : Nat
  deriving DecidableEq, Repr

namespace Tree

/-- The field `n->parent`. -/
def parent (t : Tree) (n : Nat) : Option Nat :=
  match t.nodes[n]? with
  | some nd => nd.parent
  | none => none

/-- The field `n->children`. -/
def children (t : Tree) (n : Nat) : List Nat :=
  match t.nodes[n]? with
  | some nd => nd.children
  | none => []

/-- The field `n->label`. -/
def label (t : Tree) (n : Nat) : Int :=
  match t.nodes[n]? with
  | some nd => nd.label
  | none => -1

/-- The lookup `tree->leaves.find(l)`; `none` is `tree->leaves.end()`. -/
def findLeaf (t : Tree) (l : Int) : Option Nat :=
  t.leaves.lookup l

/-- The node reached from `n` by following `parent` exactly `k` times, if all
these parents exist. -/
def parentIter (t : Tree) : Nat → Nat → Option Nat
  | 0, n => some n
  | k + 1, n => (t.parent n).bind (parentIter t k)

/-- The tree invariants: the root is the one node without a parent, every other
node has a parent and occurs once among that parent's children, children point
back to their parent, the parent relation has no cycle, a node is a leaf iff it
has no children iff it carries a label, and `leaves` maps exactly the leaf labels,
each to its one leaf. -/
structure WF (t : Tree) : Prop where
  size_t : t.t = t.nodes.length
  size_k : t.k = t.leaves.length
  root_lt : t.root < t.nodes.length
  root_parent : t.parent t.root = none
  parent_of_ne_root : ∀ n < t.nodes.length, n ≠ t.root →
    ∃ p, t.parent n = some p ∧ p < t.nodes.length ∧ (t.children p).count n = 1
  child_parent : ∀ n < t.nodes.length, ∀ c ∈ t.children n,
    c < t.nodes.length ∧ t.parent c = some n
  acyclic : ∀ n < t.nodes.length, t.parentIter t.nodes.length n = none
  leaf_iff : ∀ n < t.nodes.length, (t.children n = [] ↔ 0 ≤ t.label n)
  leaves_sound : ∀ e ∈ t.leaves, e.2 < t.nodes.length ∧ t.label e.2 = e.1
  leaves_complete : ∀ n < t.nodes.length, 0 ≤ t.label n → (t.label n, n) ∈ t.leaves
  leaves_nodup : (t.leaves.map Prod.fst).Nodup

/-- The node `a` is `n` or an ancestor of `n`: it is reached from `n` by following
`parent` some number of times. -/
def AncestorOrSelf (t : Tree) (a n : Nat) : Prop := ∃ k, t.parentIter k n = some a

/-- The node `x` lies in the subtree of `n`: it is reached from `n` by descending
through `children` some number of times. -/
def InSubtree (t : Tree) (n x : Nat) : Prop :=
  Relation.ReflTransGen (fun a b => b ∈ t.children a) n x

end Tree

/-! ## Training router -/

/-- The loop `while (n->parent) { n = n->parent; nPositive.insert(n); }` of
`PLT::getNodesToUpdate`. -/
def insertAncestors (t : Tree) : Nat → Nat → List Nat → Option (List Nat)
  | 0, _, _ => none
  | fuel + 1, n, nPositive =>
    match t.parent n with
    | none => some nPositive
    | some p => insertAncestors t fuel p (nPositive.insert p)

/-- The first loop of `PLT::getNodesToUpdate`: for every row label found in
`tree->leaves` insert its leaf and all ancestors into `nPositive`; a label that is
not in the tree is skipped (`continue`). -/
def positiveLoop (t : Tree) (fuel : Nat) : List Int → List Nat → Option (List Nat)
  | [], nPositive => some nPositive
  | l :: rest, nPositive =>
    match t.findLeaf l with
    | none => positiveLoop t fuel rest nPositive
    | some n =>
      match insertAncestors t fuel n (nPositive.insert n) with
      | none => none
      | some nPositive1 => positiveLoop t fuel rest nPositive1

/-- The last loop of `PLT::getNodesToUpdate`: every child of a positive node that
is not positive itself is inserted into `nNegative`. -/
def negativeLoop (t : Tree) (nPositive : List Nat) (nNegative : List Nat) : List Nat :=
  nPositive.foldl
    (fun acc n => (t.children n).foldl
      (fun acc1 child => if child ∈ nPositive then acc1 else acc1.insert child) acc)
    nNegative

/-- The function `PLT::getNodesToUpdate(nPositive, nNegative, rLabels, rSize)`: returns the two
sets after the call. -/
def getNodesToUpdate (t : Tree) (fuel : Nat) (nPositive nNegative : List Nat)
    (rLabels : List Int) : Option (List Nat × List Nat) :=
  match positiveLoop t fuel rLabels nPositive with
  | none => none
  | some nPositive1 =>
    if nPositive1 = [] then some (nPositive1, nNegative.insert t.root)
    else some (nPositive1, negativeLoop t nPositive1 nNegative)

/-- The node `x` is the leaf of a label of the row that is present in
`tree->leaves`, or an ancestor of such a leaf. -/
def OnLabelPath (t : Tree) (rLabels : List Int) (x : Nat) : Prop :=
  ∃ l ∈ rLabels, ∃ leaf, t.findLeaf l = some leaf ∧ t.AncestorOrSelf x leaf

/-- The statement `bins[i].push_back(x)` on a vector of vectors; `none` when `i`
is not an index of `bins`. -/
def pushBack {α : Type} (bins : List (List α)) (i : Nat) (x : α) : Option (List (List α)) :=
  if i < bins.length then some (List.modify (fun b => b ++ [x]) i bins) else none

/-- One pass of a loop of `PLT::addNodesLabelsAndFeatures`: every node of `ns`
receives the example label `y` in `binLabels` and the row in `binFeatures`. -/
def addExamples (y : ℚ) (features : List Feature) :
    List Nat → List (List ℚ) × List (List (List Feature)) →
    Option (List (List ℚ) × List (List (List Feature)))
  | [], bins => some bins
  | n :: ns, bins =>
    match pushBack bins.1 n y with
    | none => none
    | some binLabels =>
      match pushBack bins.2 n features with
      | none => none
      | some binFeatures => addExamples y features ns (binLabels, binFeatures)

/-- The function `PLT::addNodesLabelsAndFeatures`: label `1.0` for the positive nodes, then
label `0.0` for the negative nodes, each with the feature row of the example. -/
def addNodesLabelsAndFeatures (binLabels : List (List ℚ))
    (binFeatures : List (List (List Feature))) (nPositive nNegative : List Nat)
    (features : List Feature) : Option (List (List ℚ) × List (List (List Feature))) :=
  match addExamples 1 features nPositive (binLabels, binFeatures) with
  | none => none
  | some bins => addExamples 0 features nNegative bins

/-- The variables `PLT::assignDataPoints` writes: the two bin tables and the
counters `nodeUpdateCount` and `dataPointCount`. -/
structure Assignment where
  binLabels : List (List ℚ)
  binFeatures : List (List (List Feature))
  nodeUpdateCount : Nat
  dataPointCount : Nat
  deriving DecidableEq, Repr

/-- The row loop of `PLT::assignDataPoints`. The number of rows is that of
`features`; reading a row of `labels` that does not exist gives `none`. -/
def assignRows (t : Tree) (fuel : Nat) :
    List (List Int) → List (List Feature) → Assignment → Option Assignment
  | _, [], a => some a
  | [], _ :: _, _ => none
  | rLabels :: labels, rFeatures :: features, a =>
    match getNodesToUpdate t fuel [] [] rLabels with
    | none => none
    | some (nPositive, nNegative) =>
      match addNodesLabelsAndFeatures a.binLabels a.binFeatures nPositive nNegative
          rFeatures with
      | none => none
      | some (binLabels, binFeatures) =>
        assignRows t fuel labels features
          { binLabels := binLabels
            binFeatures := binFeatures
            nodeUpdateCount := a.nodeUpdateCount + (nPositive.length + nNegative.length)
            dataPointCount := a.dataPointCount + 1 }

/-- The function `PLT::assignDataPoints`: `a` holds the bins and counters before the call
(`binWeights` and `args` are not used by the function). -/
def assignDataPoints (t : Tree) (fuel : Nat) (a : Assignment) (labels : List (List Int))
    (features : List (List Feature)) : Option Assignment :=
  assignRows t fuel labels features a

/-! ## Model state -/

/-- The entry `TreeNodeThrExt` of `nodesThr`: the node threshold and the label it
comes from. -/
structure TreeNodeThrExt where
  th : ℚ
  label : Int
  deriving DecidableEq, Repr

/-- The entry `TreeNodeWeightsExt` of `nodesWeights`: the node weight and the label
it comes from. -/
structure TreeNodeWeightsExt where
  weight : ℚ
  label : Int
  deriving DecidableEq, Repr

/-- The members of `PLT` (and of its base `Model`) the embedded functions use.
`tree` is `none` for a null pointer, `m` is the number of labels of the model
(`PLT::load` and `PLT::buildTree` set it to `tree->getNumberOfLeaves()`). -/
structure PLT where
  tree : Option Tree
  m : Nat
  thresholds : List ℚ
  labelsWeights : List ℚ
  nodesLabels : List (List Int)
  nodesThr : List TreeNodeThrExt
  nodesWeights : List TreeNodeWeightsExt
  deriving DecidableEq, Repr

/-- How a call can fail: a thrown `std::runtime_error`, a thrown
`std::length_error`, an access outside a vector, or exhausted fuel. -/
inductive Failure where
  | runtimeError
  | lengthError
  | outOfRange
  | outOfFuel
  deriving DecidableEq, Repr

deriving instance DecidableEq for Except

/-- The entry `(first, second)` appended for every node of `ns`, as in
`for (const auto& n : ns) out.emplace_back(n->index, y)`. -/
def nodeEntries (ns : List Nat) (y : ℚ) : List (Nat × ℚ) :=
  ns.map (fun n => (n, y))

/-- The row loop of `PLT::getNodesToUpdate(std::vector<std::vector<Label>>&)`. -/
def rowsToUpdate (t : Tree) (fuel : Nat) :
    List (List Int) → Except Failure (List (List (Nat × ℚ)))
  | [] => .ok []
  | rLabels :: labels =>
    match getNodesToUpdate t fuel [] [] rLabels with
    | none => .error .outOfFuel
    | some (nPositive, nNegative) =>
      match rowsToUpdate t fuel labels with
      | .error e => .error e
      | .ok rest => .ok ((nodeEntries nPositive 1 ++ nodeEntries nNegative 0) :: rest)

/-- The overload `PLT::getNodesToUpdate(std::vector<std::vector<Label>>&)`: for
every row the list of `(node index, 1.0 or 0)` pairs. -/
def getNodesToUpdateRows (s : PLT) (fuel : Nat) (labels : List (List Int)) :
    Except Failure (List (List (Nat × ℚ))) :=
  match s.tree with
  | none => .error .runtimeError
  | some t => rowsToUpdate t fuel labels

/-- The loop `for (const auto& n : ns) nodesDataPoints[n->index].emplace_back(r, y)`
of `PLT::getNodesUpdates`. -/
def addDataPoints (r : Nat) (y : ℚ) :
    List Nat → List (List (Nat × ℚ)) → Option (List (List (Nat × ℚ)))
  | [], table => some table
  | n :: ns, table =>
    match pushBack table n (r, y) with
    | none => none
    | some table1 => addDataPoints r y ns table1

/-- The row loop of `PLT::getNodesUpdates`; `r` is the index of the first row of
`labels`. -/
def nodesUpdatesRows (t : Tree) (fuel : Nat) :
    List (List Int) → Nat → List (List (Nat × ℚ)) → Except Failure (List (List (Nat × ℚ)))
  | [], _, table => .ok table
  | rLabels :: labels, r, table =>
    match getNodesToUpdate t fuel [] [] rLabels with
    | none => .error .outOfFuel
    | some (nPositive, nNegative) =>
      match addDataPoints r 1 nPositive table with
      | none => .error .outOfRange
      | some table1 =>
        match addDataPoints r 0 nNegative table1 with
        | none => .error .outOfRange
        | some table2 => nodesUpdatesRows t fuel labels (r + 1) table2

/-- The function `PLT::getNodesUpdates`: the table `nodesDataPoints`, created with `m` empty
lists, after all rows. -/
def getNodesUpdates (s : PLT) (fuel : Nat) (labels : List (List Int)) :
    Except Failure (List (List (Nat × ℚ))) :=
  match s.tree with
  | none => .error .runtimeError
  | some t => nodesUpdatesRows t fuel labels 0 (List.replicate s.m [])

/-! ## Threshold and weight calibrator -/

/-- The read `v[l]` of a vector at an `int` index; `none` outside the vector. -/
def vectorAt {α : Type} (v : List α) (l : Int) : Option α :=
  if 0 ≤ l then v[l.toNat]? else none

/-- The walk `while (n != nullptr) { nodesLabels[n->index].push_back(l); n = n->parent; }`
of `PLT::calculateNodesLabels`. -/
def pushLabelUp (t : Tree) (l : Int) :
    Nat → Option Nat → List (List Int) → Option (List (List Int))
  | _, none, nodesLabels => some nodesLabels
  | 0, some _, _ => none
  | fuel + 1, some n, nodesLabels =>
    match pushBack nodesLabels n l with
    | none => none
    | some nodesLabels1 => pushLabelUp t l fuel (t.parent n) nodesLabels1

/-- The loop of `PLT::calculateNodesLabels` over the entries of `tree->leaves`. -/
def labelsLoop (t : Tree) (fuel : Nat) :
    List (Int × Nat) → List (List Int) → Option (List (List Int))
  | [], nodesLabels => some nodesLabels
  | e :: rest, nodesLabels =>
    match pushLabelUp t e.1 fuel (some e.2) nodesLabels with
    | none => none
    | some nodesLabels1 => labelsLoop t fuel rest nodesLabels1

/-- The function `PLT::calculateNodesLabels`: the cache is rebuilt only when its size differs
from `tree->t`. -/
def calculateNodesLabels (t : Tree) (fuel : Nat) (s : PLT) : Option PLT :=
  if t.t ≠ s.nodesLabels.length then
    match labelsLoop t fuel t.leaves (List.replicate t.t []) with
    | none => none
    | some nodesLabels => some { s with nodesLabels := nodesLabels }
  else some s

/-- The scan of `PLT::setNodeThreshold` over the labels of a node, started from
the entry `nTh`. -/
def scanThresholds (thresholds : List ℚ) :
    List Int → TreeNodeThrExt → Option TreeNodeThrExt
  | [], nTh => some nTh
  | l :: rest, nTh =>
    match vectorAt thresholds l with
    | none => none
    | some v =>
      if v < nTh.th then scanThresholds thresholds rest { th := v, label := l }
      else scanThresholds thresholds rest nTh

/-- The function `PLT::setNodeThreshold(n)`. -/
def setNodeThreshold (s : PLT) (n : Nat) : Option PLT :=
  match s.nodesThr[n]?, s.nodesLabels[n]? with
  | some nTh, some labels =>
    match scanThresholds s.thresholds labels { nTh with th := 1 } with
    | none => none
    | some nTh1 => some { s with nodesThr := s.nodesThr.set n nTh1 }
  | _, _ => none

/-- The scan of `PLT::setNodeWeight` over the labels of a node, started from the
entry `nW`. -/
def scanWeights (labelsWeights : List ℚ) :
    List Int → TreeNodeWeightsExt → Option TreeNodeWeightsExt
  | [], nW => some nW
  | l :: rest, nW =>
    match vectorAt labelsWeights l with
    | none => none
    | some v =>
      if v > nW.weight then scanWeights labelsWeights rest { weight := v, label := l }
      else scanWeights labelsWeights rest nW

/-- The function `PLT::setNodeWeight(n)`. -/
def setNodeWeight (s : PLT) (n : Nat) : Option PLT :=
  match s.nodesWeights[n]?, s.nodesLabels[n]? with
  | some nW, some labels =>
    match scanWeights s.labelsWeights labels { nW with weight := 0 } with
    | none => none
    | some nW1 => some { s with nodesWeights := s.nodesWeights.set n nW1 }
  | _, _ => none

/-- The call `v.resize(n)` with value-initialised new elements `d`. -/
def resize {α : Type} (v : List α) (n : Nat) (d : α) : List α :=
  v.take n ++ List.replicate (n - v.length) d

/-- The loop `for (auto& n : tree->nodes) setNodeThreshold(n)`. -/
def setNodeThresholds : List Nat → PLT → Option PLT
  | [], s => some s
  | n :: rest, s =>
    match setNodeThreshold s n with
    | none => none
    | some s1 => setNodeThresholds rest s1

/-- Modelled from the spec: `Model::setThresholds` of the base class, which is
declared outside `plt.cpp`; the per-label threshold array is replaced wholesale. -/
def Model.setThresholds (s : PLT) (th : List ℚ) : PLT :=
  { s with thresholds := th }

/-- The function `PLT::setThresholds(th)`. -/
def setThresholds (s : PLT) (fuel : Nat) (th : List ℚ) : Option PLT :=
  let s1 := Model.setThresholds s th
  match s1.tree with
  | none => some s1
  | some t =>
    match calculateNodesLabels t fuel s1 with
    | none => none
    | some s2 =>
      let s3 := if t.t ≠ s2.nodesThr.length then
        { s2 with nodesThr := resize s2.nodesThr t.t { th := 0, label := 0 } } else s2
      setNodeThresholds (List.range t.nodes.length) s3

/-- The first loop of `PLT::updateThresholds`: `thresholds[th.first] = th.second`. -/
def writeThresholds : List (Int × ℚ) → List ℚ → Option (List ℚ)
  | [], thresholds => some thresholds
  | th :: rest, thresholds =>
    match vectorAt thresholds th.1 with
    | none => none
    | some _ => writeThresholds rest (thresholds.set th.1.toNat th.2)

/-- The walk `while (n != tree->root)` of `PLT::updateThresholds` for the update
`th`. The reference `nTh` is bound once, to the entry `nodesThr[leaf]` of the leaf
the walk starts from, and is read and written through at every step. -/
def updateWalk (t : Tree) (th : Int × ℚ) (leaf : Nat) : Nat → Option Nat → PLT → Option PLT
  | 0, _, _ => none
  | _ + 1, none, _ => none
  | fuel + 1, some n, s =>
    if n = t.root then some s
    else
      match s.nodesThr[leaf]? with
      | none => none
      | some nTh =>
        if th.2 < nTh.th then
          updateWalk t th leaf fuel (t.parent n)
            { s with nodesThr := s.nodesThr.set leaf { th := th.2, label := th.1 } }
        else if th.1 = nTh.label ∧ th.2 > nTh.th then
          match setNodeThreshold s n with
          | none => none
          | some s1 => updateWalk t th leaf fuel (t.parent n) s1
        else updateWalk t th leaf fuel (t.parent n) s

/-- The second loop of `PLT::updateThresholds`. -/
def updateLoop (t : Tree) (fuel : Nat) : List (Int × ℚ) → PLT → Option PLT
  | [], s => some s
  | th :: rest, s =>
    match t.findLeaf th.1 with
    | none => none
    | some leaf =>
      match updateWalk t th leaf fuel (some leaf) s with
      | none => none
      | some s1 => updateLoop t fuel rest s1

/-- The function `PLT::updateThresholds(thToUpdate)`; the map `thToUpdate` is an association
list. -/
def updateThresholds (s : PLT) (fuel : Nat) (thToUpdate : List (Int × ℚ)) : Option PLT :=
  match writeThresholds thToUpdate s.thresholds with
  | none => none
  | some thresholds =>
    match s.tree with
    | none => none
    | some t => updateLoop t fuel thToUpdate { s with thresholds := thresholds }

/-! ## Reference semantics of the training router -/

/-- The example row `r` contributes to the bin of node `n`: `(1.0, features)` when
`n` is positive for the row, `(0.0, features)` when it is negative, nothing
otherwise. -/
def rowExample (t : Tree) (fuel : Nat) (rLabels : List Int) (rFeatures : List Feature)
    (n : Nat) : Option (ℚ × List Feature) :=
  match getNodesToUpdate t fuel [] [] rLabels with
  | some (nPositive, nNegative) =>
    if n ∈ nPositive then some (1, rFeatures)
    else if n ∈ nNegative then some (0, rFeatures) else none
  | none => none

/-- The examples the rows contribute to the bin of node `n`, in row order. -/
def binExamples (t : Tree) (fuel : Nat) (labels : List (List Int))
    (features : List (List Feature)) (n : Nat) : List (ℚ × List Feature) :=
  (List.zip labels features).flatMap (fun row => (rowExample t fuel row.1 row.2 n).toList)

/-! ## Searchers -/

/-- A label with its score (`struct Prediction`); the beam search also uses it
for a row index with an incoming path probability. Its `operator<` compares
`value`. -/
structure Prediction where
  label : Int
  value : ℚ
  deriving DecidableEq, Repr

/-- A node with its path probability `prob` and its final score `value`
(`struct TreeNodeValue`). Its `operator<` compares `value`. -/
structure TreeNodeValue where
  node : Nat
  prob : ℚ
  value : ℚ
  deriving DecidableEq, Repr

/-- The fields of `Args` the searchers read. -/
structure Args where
  topK : Int
  threshold : ℚ
  beamSearchWidth : Int
  deriving DecidableEq, Repr

instance : Inhabited TreeNodeThrExt := ⟨{ th := 0, label := 0 }⟩

instance : Inhabited TreeNodeWeightsExt := ⟨{ weight := 0, label := 0 }⟩

/-- The operations of `TopKQueue<TreeNodeValue>`, a class declared outside
`plt.cpp` and taken as a parameter of the exact search: the constructor
`TopKQueue(k)`, `empty()`, `top()` (`none` on an empty queue), `pop()` and
`push(x)`. -/
structure TopKQueue (Q : Type) where
  new : Int → Q
  empty : Q → Bool
  top : Q → Option TreeNodeValue
  pop : Q → Q
  push : Q → TreeNodeValue → Q

/-- The queue built by `TopKQueue(k)` is a max-priority queue ordered by `value`
that, for `k > 0`, may refuse an entry that cannot be among the `k` best final
entries. `Holds q l acc` says that the queue `q` holds the entries of the list
`l` and that `acc` are the final entries it has taken so far; `top` is an entry
of greatest `value` and `pop` removes it; `push` either takes the entry or, for
`k > 0`, refuses it when `k` final entries taken before have a `value` at least
that of the entry. -/
structure TopKQueue.Bounded {Q : Type} (Qi : TopKQueue Q) (k : Int)
    (final : TreeNodeValue → Bool)
    (Holds : Q → List TreeNodeValue → List TreeNodeValue → Prop) : Prop where
  new : Holds (Qi.new k) [] []
  empty : ∀ q l acc, Holds q l acc → (Qi.empty q = true ↔ l = [])
  top : ∀ q l acc, Holds q l acc → l ≠ [] →
    ∃ x, Qi.top q = some x ∧ x ∈ l ∧ (∀ y ∈ l, y.value ≤ x.value) ∧
      Holds (Qi.pop q) (l.erase x) acc
  push : ∀ q l acc x, Holds q l acc →
    Holds (Qi.push q x) (x :: l) (if final x then x :: acc else acc) ∨
    (0 < k ∧ Holds (Qi.push q x) l acc ∧
      ∃ fs : List TreeNodeValue, fs.Subperm acc ∧ fs.length = k.toNat ∧
        ∀ f ∈ fs, x.value ≤ f.value)

/-- An entry of greatest `value` of a list, the first one among equals. -/
def maxEntry : List TreeNodeValue → Option TreeNodeValue
  | [] => none
  | x :: l =>
    match maxEntry l with
    | none => some x
    | some y => if x.value < y.value then some y else some x

/-- A max-priority queue kept as a list, without a bound on its size. -/
def listQueue : TopKQueue (List TreeNodeValue) where
  new := fun _ => []
  empty := fun q => q.isEmpty
  top := maxEntry
  pop := fun q =>
    match maxEntry q with
    | none => q
    | some x => q.erase x
  push := fun q x => x :: q

/-- The admission predicate `ifAddToQueue` that `PLT::predict` selects. An
unchecked read of `nodesThr` outside the table gives the zero entry. -/
def ifAddToQueue (s : PLT) (args : Args) (node : Nat) (prob : ℚ) : Bool :=
  if args.threshold > 0 then decide (prob ≥ args.threshold)
  else if s.thresholds.length ≠ 0 then decide (prob ≥ (s.nodesThr.getD node default).th)
  else true

/-- The score function `calculateValue` that `PLT::predict` selects. An unchecked
read of `nodesWeights` outside the table gives the zero entry. -/
def calculateValue (s : PLT) (node : Nat) (prob : ℚ) : ℚ :=
  if s.labelsWeights ≠ [] then prob * (s.nodesWeights.getD node default).weight else prob

/-- Modelled from the spec: `addToQueue`, declared in `plt.h`: the final score of
the node is computed and, if the admission predicate admits the node, the entry
`(node, prob, value)` is pushed. -/
def addToQueue {Q : Type} (Qi : TopKQueue Q) (s : PLT) (args : Args) (nQueue : Q)
    (node : Nat) (prob : ℚ) : Q :=
  let value := calculateValue s node prob
  if ifAddToQueue s args node prob then Qi.push nQueue { node := node, prob := prob, value := value }
  else nQueue

/-- The function `PLT::predictNextLabel`. The classifier table `bases` is a parameter:
`bases n features` is `predictForNode(n, features)`, the probability the
classifier of node `n` gives for the feature row. The counter
`nodeEvaluationCount` is not part of the result. -/
def predictNextLabel {Q : Type} (Qi : TopKQueue Q) (t : Tree)
    (bases : Nat → List Feature → ℚ) (s : PLT) (args : Args) (features : List Feature) :
    Nat → Q → Option (Prediction × Q)
  | 0, _ => none
  | fuel + 1, nQueue =>
    if Qi.empty nQueue then some ({ label := -1, value := 0 }, nQueue)
    else
      match Qi.top nQueue with
      | none => none
      | some nVal =>
        let nQueue1 := (t.children nVal.node).foldl
          (fun q child => addToQueue Qi s args q child (nVal.prob * bases child features))
          (Qi.pop nQueue)
        if 0 ≤ t.label nVal.node then
          some ({ label := t.label nVal.node, value := nVal.value }, nQueue1)
        else predictNextLabel Qi t bases s args features fuel nQueue1

/-- The comparison `size < topK` of a `size_t` with an `int`: the `int` is
converted to unsigned, so a negative `topK` is above every size. -/
def sizeLtInt (size : Nat) (topK : Int) : Bool :=
  decide (topK < 0) || decide ((size : Int) < topK)

/-- The loop `while ((prediction.size() < topK || topK == 0) && p.label != -1)` of
`PLT::predict`. -/
def predictLoop {Q : Type} (Qi : TopKQueue Q) (t : Tree)
    (bases : Nat → List Feature → ℚ) (s : PLT) (args : Args) (features : List Feature)
    (fuel : Nat) : Nat → List Prediction → Prediction → Q → Option (List Prediction)
  | 0, _, _, _ => none
  | k + 1, prediction, p, nQueue =>
    if (sizeLtInt prediction.length args.topK || decide (args.topK = 0)) && decide (p.label ≠ -1)
    then
      match predictNextLabel Qi t bases s args features fuel nQueue with
      | none => none
      | some (p1, nQueue1) =>
        predictLoop Qi t bases s args features fuel k (prediction ++ [p]) p1 nQueue1
    else some prediction

/-- The function `PLT::predict`: the predictions appended to `prediction`. The tree is the one
`tree` points to; the counters `nodeEvaluationCount` and `dataPointCount` are not
part of the result. -/
def predict {Q : Type} (Qi : TopKQueue Q) (t : Tree) (bases : Nat → List Feature → ℚ)
    (s : PLT) (args : Args) (fuel : Nat) (prediction : List Prediction)
    (features : List Feature) : Option (List Prediction) :=
  let rootProb := bases t.root features
  let nQueue := addToQueue Qi s args (Qi.new args.topK) t.root rootProb
  match predictNextLabel Qi t bases s args features fuel nQueue with
  | none => none
  | some (p, nQueue1) => predictLoop Qi t bases s args features fuel fuel prediction p nQueue1

/-- The call `std::sort(v.rbegin(), v.rend())`: `v` in descending order of the
key the `operator<` of the elements compares; the order of equal elements is not
fixed by `std::sort`, here it is the one of an insertion sort. -/
def sortDescending {α : Type} (key : α → ℚ) (v : List α) : List α :=
  v.insertionSort (fun a b => key a ≥ key b)

/-- The variables of the level loop of `PLT::predictWithBeamSearch`:
`prediction` and `levelPredictions` have one list per row, `nodePredictions` one
list per node. -/
structure BeamState where
  prediction : List (List Prediction)
  levelPredictions : List (List TreeNodeValue)
  nodePredictions : List (List Prediction)
  deriving DecidableEq, Repr

/-- The loop `for (auto& e : nodePredictions[nIdx])` of the beam search: the
classifier of node `n` is evaluated for every pending row; a leaf appends to the
predictions of the row, an internal node to its level candidates. A write to a
row that does not exist is dropped. -/
def evaluateNode (t : Tree) (bases : Nat → List Feature → ℚ) (s : PLT)
    (features : List (List Feature)) (n : Nat) : List Prediction → BeamState → BeamState
  | [], st => st
  | e :: rest, st =>
    let rIdx := e.label.toNat
    let prob := bases n (features.getD rIdx []) * e.value
    let value := if s.labelsWeights ≠ [] then prob * (s.nodesWeights.getD n default).weight
      else prob
    if 0 ≤ t.label n then
      let prediction := List.modify (fun v => v ++ [{ label := t.label n, value := value }])
        rIdx st.prediction
      evaluateNode t bases s features n rest { st with prediction := prediction }
    else
      let levelPredictions := List.modify
        (fun v => v ++ [{ node := n, prob := prob, value := value }]) rIdx st.levelPredictions
      evaluateNode t bases s features n rest { st with levelPredictions := levelPredictions }

/-- The loop `while (!levelQueue->empty())` of the beam search: every node of the
level is evaluated for its pending rows and its children are pushed to
`nextLevelQueue`. -/
def predictLevel (t : Tree) (bases : Nat → List Feature → ℚ) (s : PLT)
    (features : List (List Feature)) :
    List Nat → BeamState → List Nat → BeamState × List Nat
  | [], st, nextLevelQueue => (st, nextLevelQueue)
  | n :: levelQueue, st, nextLevelQueue =>
    let pending := st.nodePredictions.getD n []
    let st1 := evaluateNode t bases s features n pending st
    let st2 := if pending ≠ [] then { st1 with nodePredictions := st1.nodePredictions.set n [] }
      else st
    predictLevel t bases s features levelQueue st2 (nextLevelQueue ++ t.children n)

/-- The call `v.resize(n)` with an `int` argument that is at most `v.size()`: a
negative `n` converts to a size above `max_size()` and `std::length_error` is
thrown; otherwise the first `n` elements are kept. -/
def resizeTo {α : Type} (v : List α) (n : Int) : Except Failure (List α) :=
  if n < 0 then .error .lengthError else .ok (v.take n.toNat)

/-- The loop `while (i < v.size() && v[i++].value > args.threshold);`: the value of
`i` after the loop, started with `i`. -/
def scanAbove (threshold : ℚ) : List TreeNodeValue → Nat → Nat
  | [], i => i
  | e :: rest, i => if e.value > threshold then scanAbove threshold rest (i + 1) else i + 1

/-- The pruning of the level candidates `v` of one row in the beam search. With
per-label thresholds the entries with `value > nodesThr[node].th` are moved to the
front (`v[j++] = v[i]`) and `v` is resized to `j - 1`; otherwise `v` is sorted in
descending order and resized to `i - 1` (global threshold) or to the beam width. -/
def pruneLevel (s : PLT) (args : Args) (v : List TreeNodeValue) :
    Except Failure (List TreeNodeValue) :=
  if s.thresholds ≠ [] then
    let kept := v.filter (fun e => decide (e.value > (s.nodesThr.getD e.node default).th))
    resizeTo (kept ++ v.drop kept.length) ((kept.length : Int) - 1)
  else
    let v1 := sortDescending TreeNodeValue.value v
    if args.threshold > 0 then resizeTo v1 ((scanAbove args.threshold v1 0 : Int) - 1)
    else if args.beamSearchWidth < 0 then .ok v1
    else .ok (v1.take (min v1.length args.beamSearchWidth.toNat))

/-- The loops `for (auto& nv : v) for (auto& c : nv.node->children)
nodePredictions[c->index].emplace_back(rIdx, nv.prob)`. A write to a node that
does not exist is dropped. -/
def scheduleChildren (t : Tree) (rIdx : Nat) (v : List TreeNodeValue)
    (nodePredictions : List (List Prediction)) : List (List Prediction) :=
  v.foldl
    (fun np nv => (t.children nv.node).foldl
      (fun np1 c => List.modify (fun l => l ++ [{ label := rIdx, value := nv.prob }]) c np1)
      np)
    nodePredictions

/-- The loop `for (int rIdx = 0; rIdx < rows; ++rIdx)` that prunes the level
candidates of every row and schedules the children of the survivors; `rIdxs` are
the row indices still to do. -/
def pruneRows (t : Tree) (s : PLT) (args : Args) :
    List Nat → BeamState → Except Failure BeamState
  | [], st => .ok st
  | rIdx :: rIdxs, st =>
    match pruneLevel s args (st.levelPredictions.getD rIdx []) with
    | .error e => .error e
    | .ok v =>
      pruneRows t s args rIdxs
        { st with
          nodePredictions := scheduleChildren t rIdx v st.nodePredictions
          levelPredictions := st.levelPredictions.set rIdx [] }

/-- The loop `while (!nextLevelQueue->empty())` of the beam search, one iteration
per tree level. -/
def beamLevels (t : Tree) (bases : Nat → List Feature → ℚ) (s : PLT) (args : Args)
    (features : List (List Feature)) : Nat → List Nat → BeamState → Except Failure BeamState
  | _, [], st => .ok st
  | 0, _ :: _, _ => .error .outOfFuel
  | fuel + 1, n :: levelQueue, st =>
    match predictLevel t bases s features (n :: levelQueue) st [] with
    | (st1, nextLevelQueue) =>
      match pruneRows t s args (List.range features.length) st1 with
      | .error e => .error e
      | .ok st2 => beamLevels t bases s args features fuel nextLevelQueue st2

/-- The function `PLT::predictWithBeamSearch`: one list of predictions per row of `features`.
The tree is the one `tree` points to; the switch of a classifier between its
sparse and dense form and the counters are not part of the result. -/
def predictWithBeamSearch (t : Tree) (bases : Nat → List Feature → ℚ) (s : PLT)
    (args : Args) (fuel : Nat) (features : List (List Feature)) :
    Except Failure (List (List Prediction)) :=
  let rows := features.length
  let st : BeamState :=
    { prediction := List.replicate rows []
      levelPredictions := List.replicate rows []
      nodePredictions := List.modify
        (fun _ => (List.range rows).map (fun i => { label := (i : Int), value := 1 }))
        t.root (List.replicate t.nodes.length []) }
  match beamLevels t bases s args features fuel [t.root] st with
  | .error e => .error e
  | .ok st1 => .ok (st1.prediction.map (sortDescending Prediction.value))

/-! ## Reference semantics of the searchers -/

/-- The queue entry of the child `c` of a node whose path probability is `p`: the
path probability of `c` is `p` times the probability the classifier of `c` gives. -/
def childEntry (bases : Nat → List Feature → ℚ) (s : PLT) (x : List Feature) (p : ℚ)
    (c : Nat) : TreeNodeValue :=
  { node := c, prob := p * bases c x, value := calculateValue s c (p * bases c x) }

/-- The entries of the children of the node of the entry `e`. -/
def expand (t : Tree) (bases : Nat → List Feature → ℚ) (s : PLT) (x : List Feature)
    (e : TreeNodeValue) : List TreeNodeValue :=
  (t.children e.node).map (childEntry bases s x e.prob)

/-- The entry of the root: its path probability is the probability the root
classifier gives. -/
def rootEntry (t : Tree) (bases : Nat → List Feature → ℚ) (s : PLT) (x : List Feature) :
    TreeNodeValue :=
  { node := t.root, prob := bases t.root x, value := calculateValue s t.root (bases t.root x) }

/-- The entries `d` levels below the entries of `F`. -/
def level (t : Tree) (bases : Nat → List Feature → ℚ) (s : PLT) (x : List Feature) :
    Nat → List TreeNodeValue → List TreeNodeValue
  | 0, F => F
  | d + 1, F => level t bases s x d (F.flatMap (expand t bases s x))

/-- The predictions `(label, value)` of the leaf entries of `F`. -/
def leafPredictions (t : Tree) (F : List TreeNodeValue) : List Prediction :=
  (F.filter (fun e => decide (0 ≤ t.label e.node))).map
    (fun e => { label := t.label e.node, value := e.value })

/-- The nodes `d` levels below the nodes of `Q`. -/
def nodeLevel (t : Tree) : Nat → List Nat → List Nat
  | 0, Q => Q
  | d + 1, Q => nodeLevel t d (Q.flatMap t.children)

/-- The classifier of every node gives a probability for the feature row `x`. -/
def ProbabilityTable (bases : Nat → List Feature → ℚ) (x : List Feature) : Prop :=
  ∀ n, 0 ≤ bases n x ∧ bases n x ≤ 1

/-- Label weights are not set, or the node weights are non-negative and the
weight of a child is at most the weight of its parent. -/
def WeightsMonotone (t : Tree) (s : PLT) : Prop :=
  s.labelsWeights = [] ∨
    ∀ n c, c ∈ t.children n →
      0 ≤ (s.nodesWeights.getD c default).weight ∧
      (s.nodesWeights.getD c default).weight ≤ (s.nodesWeights.getD n default).weight

/-- An entry of a node of the tree with a non-negative path probability and the
final score `calculateValue` gives for it. -/
def GoodEntry (t : Tree) (s : PLT) (e : TreeNodeValue) : Prop :=
  e.node < t.nodes.length ∧ 0 ≤ e.prob ∧ e.value = calculateValue s e.node e.prob

/-- The first label of `labels`, in scan order, whose threshold is `v`. -/
def firstAttaining (thresholds : List ℚ) (labels : List Int) (v : ℚ) : Option Int :=
  (labels.filter (fun l => decide (vectorAt thresholds l = some v))).head?

/-- The last label of `labels`, in scan order, whose threshold is `v`. -/
def lastAttaining (thresholds : List ℚ) (labels : List Int) (v : ℚ) : Option Int :=
  (labels.filter (fun l => decide (vectorAt thresholds l = some v))).getLast?

/-! ## Reference semantics of the exact search with an admission predicate -/

/-- The nodes on the path from the node `n` up to the root, `n` first. -/
def Tree.pathToRoot (t : Tree) (n : Nat) : List Nat :=
  (List.range t.nodes.length).filterMap (fun k => t.parentIter k n)

/-- The path probability of the node `n` for the feature row `x`: the product of
the probabilities the classifiers of the nodes on the path from the root to `n`
give, both ends included. -/
def pathProbability (t : Tree) (bases : Nat → List Feature → ℚ) (x : List Feature)
    (n : Nat) : ℚ :=
  ((t.pathToRoot n).map (fun a => bases a x)).prod

/-- Every node on the path from the root to `n`, both ends included, passes the
admission predicate with its path probability. -/
def admitted (t : Tree) (bases : Nat → List Feature → ℚ) (s : PLT) (args : Args)
    (x : List Feature) (n : Nat) : Bool :=
  (t.pathToRoot n).all (fun a => ifAddToQueue s args a (pathProbability t bases x a))

/-- The queue entry of the node `n`: its path probability and the final score
`calculateValue` gives for it. -/
def nodeEntry (t : Tree) (bases : Nat → List Feature → ℚ) (s : PLT) (x : List Feature)
    (n : Nat) : TreeNodeValue :=
  { node := n
    prob := pathProbability t bases x n
    value := calculateValue s n (pathProbability t bases x n) }

/-- The admitted leaves: the nodes with a label all of whose root-path nodes pass
the admission predicate, in index order. -/
def admittedLeaves (t : Tree) (bases : Nat → List Feature → ℚ) (s : PLT) (args : Args)
    (x : List Feature) : List Nat :=
  (List.range t.nodes.length).filter
    (fun n => decide (0 ≤ t.label n) && admitted t bases s args x n)

/-- The prediction of a leaf: its label with the final score of its path
probability. -/
def leafPrediction (t : Tree) (bases : Nat → List Feature → ℚ) (s : PLT) (x : List Feature)
    (n : Nat) : Prediction :=
  { label := t.label n, value := calculateValue s n (pathProbability t bases x n) }

/-- The predictions of the admitted leaves, in index order of the leaves. -/
def admittedPredictions (t : Tree) (bases : Nat → List Feature → ℚ) (s : PLT) (args : Args)
    (x : List Feature) : List Prediction :=
  (admittedLeaves t bases s args x).map (leafPrediction t bases s x)

/-- The entries of the children of the node of `e` that pass the admission
predicate: the entries `addToQueue` offers to the queue when `e` is expanded. -/
def admittedChildren (t : Tree) (bases : Nat → List Feature → ℚ) (s : PLT) (args : Args)
    (x : List Feature) (e : TreeNodeValue) : List TreeNodeValue :=
  (expand t bases s x e).filter (fun c => ifAddToQueue s args c.node c.prob)

/-- The entry of the root if the root passes the admission predicate: what
`PLT::predict` offers to the empty queue. -/
def admittedRoot (t : Tree) (bases : Nat → List Feature → ℚ) (s : PLT) (args : Args)
    (x : List Feature) : List TreeNodeValue :=
  if ifAddToQueue s args t.root (bases t.root x) then [rootEntry t bases s x] else []

/-- The entries `d` expansion steps below the entries of `F`, for the expansion
`f` of one entry. -/
def levelBy (f : TreeNodeValue → List TreeNodeValue) :
    Nat → List TreeNodeValue → List TreeNodeValue
  | 0, F => F
  | d + 1, F => levelBy f d (F.flatMap f)

/-- The entries of `F` and all entries less than `d` expansion steps below, level
by level, for the expansion `f` of one entry. -/
def closureBy (f : TreeNodeValue → List TreeNodeValue) :
    Nat → List TreeNodeValue → List TreeNodeValue
  | 0, _ => []
  | d + 1, F => F ++ closureBy f d (F.flatMap f)

/-- The entry is that of a node with a label, a final entry of the search. -/
def finalEntry (t : Tree) (e : TreeNodeValue) : Bool :=
  decide (0 ≤ t.label e.node)

/-- The prediction `(label, value)` returned for the entry of a node with a
label. -/
def entryPrediction (t : Tree) (e : TreeNodeValue) : Prediction :=
  { label := t.label e.node, value := e.value }

/-- The entries of `F` and all admitted entries below them. -/
def admittedClosure (t : Tree) (bases : Nat → List Feature → ℚ) (s : PLT) (args : Args)
    (x : List Feature) (F : List TreeNodeValue) : List TreeNodeValue :=
  closureBy (admittedChildren t bases s args x) t.nodes.length F

/-- The final entries among the entries of `F` and the admitted entries below
them. -/
def leavesBelow (t : Tree) (bases : Nat → List Feature → ℚ) (s : PLT) (args : Args)
    (x : List Feature) (F : List TreeNodeValue) : List TreeNodeValue :=
  (admittedClosure t bases s args x F).filter (finalEntry t)

/-- The state of the exact search between two pops: the queue `q` holds the
entries `l`, `acc` are the final entries it has taken, `D` the entries it has
refused and `Em` the final entries popped so far, in pop order. Every admitted
leaf is popped, lies below a held entry or lies below a refused entry; every
refused entry is dominated by `topK` final entries taken; and if the scores do
not grow from a node to its children, the popped entries are in descending order
of score and bound the held entries. -/
structure SearchInv {Q : Type} (Holds : Q → List TreeNodeValue → List TreeNodeValue → Prop)
    (t : Tree) (bases : Nat → List Feature → ℚ) (s : PLT) (args : Args) (x : List Feature)
    (q : Q) (l acc D Em : List TreeNodeValue) : Prop where
  holds : Holds q l acc
  valid : ∀ e ∈ l, e.node < t.nodes.length
  accFinal : ∀ f ∈ acc, finalEntry t f = true
  accCount : ∀ a, acc.count a ≤ Em.count a + l.count a
  dropped : ∀ d ∈ D, 0 < args.topK ∧ ∃ fs : List TreeNodeValue,
    fs.Subperm acc ∧ fs.length = args.topK.toNat ∧ ∀ f ∈ fs, d.value ≤ f.value
  total : (leavesBelow t bases s args x (admittedRoot t bases s args x)).Perm
    (Em ++ leavesBelow t bases s args x l ++ leavesBelow t bases s args x D)
  mono : ProbabilityTable bases x → WeightsMonotone t s →
    (∀ e ∈ l, GoodEntry t s e) ∧ (∀ d ∈ D, GoodEntry t s d) ∧
    Em.Sorted (fun a b => a.value ≥ b.value) ∧ ∀ e ∈ l, ∀ m ∈ Em, e.value ≤ m.value

/-- What the exact search returns: `R` is a part of the predictions of the
admitted leaves, `rest` being the other ones; it has `min(topK, A)` entries for
`topK > 0` and `A` entries otherwise, where `A` is the number of admitted
leaves; and if the scores do not grow from a node to its children, `R` is in
descending order of score and no prediction left out has a greater score than a
returned one. -/
def SearchResult (t : Tree) (bases : Nat → List Feature → ℚ) (s : PLT) (args : Args)
    (x : List Feature) (R rest : List Prediction) : Prop :=
  (R ++ rest).Perm (admittedPredictions t bases s args x) ∧
  R.length = (if 0 < args.topK then
    min args.topK.toNat (admittedPredictions t bases s args x).length
    else (admittedPredictions t bases s args x).length) ∧
  (ProbabilityTable bases x → WeightsMonotone t s →
    R.Sorted (fun a b => a.value ≥ b.value) ∧ ∀ y ∈ rest, ∀ r ∈ R, y.value ≤ r.value)

/-! ## Reference semantics of the label cache -/

/-- The label cache `nodesLabels` covers the tree: the list of every node holds the
label of every leaf below the node, the node itself included. -/
def CacheCovers (t : Tree) (nodesLabels : List (List Int)) : Prop :=
  ∀ e ∈ t.leaves, ∀ a, t.AncestorOrSelf a e.2 → e.1 ∈ nodesLabels.getD a []

/-- The state of a max-priority queue that refuses entries: the bound `k`, the
entries held and the final entries taken so far. -/
structure PruningQueue where
  k : Int
  main : List TreeNodeValue
  finals : List TreeNodeValue
  deriving DecidableEq, Repr

/-- A max-priority queue kept as a list that, for `k > 0`, refuses an entry when
`k` of the final entries it has taken have a `value` at least that of the entry;
the entries of the nodes of `t` with a label are the final ones. -/
def pruningQueue (t : Tree) : TopKQueue PruningQueue where
  new := fun k => { k := k, main := [], finals := [] }
  empty := fun q => q.main.isEmpty
  top := fun q => maxEntry q.main
  pop := fun q =>
    match maxEntry q.main with
    | none => q
    | some x => { q with main := q.main.erase x }
  push := fun q x =>
    if 0 < q.k ∧ q.k.toNat ≤ (q.finals.filter (fun f => decide (x.value ≤ f.value))).length
    then q
    else { q with main := x :: q.main
                  finals := if finalEntry t x then x :: q.finals else q.finals }

/-! ## Single-label prediction -/

/-- The loop `while (n->parent) { n = n->parent; value *= predictForNode(n, features); }`
of `PLT::predictForLabel`. -/
def forLabelWalk (t : Tree) (bases : Nat → List Feature → ℚ) (features : List Feature) :
    Nat → Nat → ℚ → Option ℚ
  | 0, n, value =>
    match t.parent n with
    | none => some value
    | some _ => none
  | fuel + 1, n, value =>
    match t.parent n with
    | none => some value
    | some p => forLabelWalk t bases features fuel p (value * bases p features)

/-- The function `PLT::predictForLabel`: the returned value and the model state after the
call. The statement `value = labelsWeights[label] = value;` assigns `value` to
`labelsWeights[label]`; outside the vector there is no result. The tree is the
one `tree` points to; the counter `nodeEvaluationCount` is not part of the
result. -/
def predictForLabel (t : Tree) (bases : Nat → List Feature → ℚ) (s : PLT) (fuel : Nat)
    (label : Int) (features : List Feature) : Option (ℚ × PLT) :=
  match t.findLeaf label with
  | none => some (0, s)
  | some n =>
    match forLabelWalk t bases features fuel n (bases n features) with
    | none => none
    | some value =>
      if s.labelsWeights ≠ [] then
        if 0 ≤ label ∧ label.toNat < s.labelsWeights.length then
          some (value, { s with labelsWeights := s.labelsWeights.set label.toNat value })
        else none
      else some (value, s)

/-! ## Reference semantics of the path probabilities -/

/-- The entries the queue of the exact search holds carry path probabilities:
each is the entry of its node, a node of the tree. -/
def QueuePaths (t : Tree) (bases : Nat → List Feature → ℚ) (s : PLT) (x : List Feature)
    (l : List TreeNodeValue) : Prop :=
  ∀ e ∈ l, e.node < t.nodes.length ∧ e = nodeEntry t bases s x e.node

/-! ## Model conversion -/

/-- The fields of the cluster matrix `layer_data.C` of a layer of the
hierarchical model (a compressed sparse column matrix of the third-party
library) that `makeTreeFrom` reads: the number of rows `rows` (one row for each
node of the layer), the column pointers `indptr` (one column for each node of
the layer above) and the row indices `indices`. -/
structure CscMatrix where
  rows : Nat
  indptr : List Nat
  indices : List Nat
  deriving DecidableEq, Repr

/-- Modelled from the spec: `Tree::createTreeNode()` with no arguments. The tree
owns all nodes in a single arena; a new node is appended to the arena, without a
parent, without children and without a label (the sentinel `-1`), and its
identity, the position in the arena, is returned. The cached count of the new
node is `0` until `makeTreeFrom` writes it. -/
def Tree.createTreeNode (t : Tree) : Nat × Tree :=
  let node : TreeNode := { label := -1, parent := none, children := [], subtreeLeaves := 0 }
  (t.nodes.length, { t with nodes := t.nodes ++ [node] })

/-- Modelled from the spec: `Tree::setParent(n, parent)`. The back-reference of
`n` becomes `parent`, and `n` is appended to the ordered children of `parent`. -/
def Tree.setParent (t : Tree) (n parent : Nat) : Tree :=
  let nodes1 := List.modify (fun nd => { nd with parent := some parent }) n t.nodes
  let nodes2 := List.modify (fun nd => { nd with children := nd.children ++ [n] }) parent nodes1
  { t with nodes := nodes2 }

/-- Modelled from the spec: `Tree::setLabel(n, label)`. The label of `n` becomes
`label`, and the mapping from label to leaf maps `label` to `n`, replacing an
earlier entry of the label. -/
def Tree.setLabel (t : Tree) (n : Nat) (label : Int) : Tree :=
  let nodes1 := List.modify (fun nd => { nd with label := label }) n t.nodes
  let leaves1 := t.leaves.filter (fun e => decide (e.1 ≠ label)) ++ [(label, n)]
  { t with nodes := nodes1, leaves := leaves1 }

/-- The field `n->subtreeLeaves`. -/
def Tree.subtreeLeaves (t : Tree) (n : Nat) : Nat :=
  match t.nodes[n]? with
  | some nd => nd.subtreeLeaves
  | none => 0

/-- The state of `makeTreeFrom` while it builds the tree: the tree, the field
`index` of the nodes of the arena in arena order, and the counter `base_index`. -/
structure TreeBuild where
  tree : Tree
  index : List Nat
  base_index : Nat
  deriving DecidableEq, Repr

/-- The loop `for (int i = 0; i < nextLayerSize; ++i)` of `makeTreeFrom`, with
the number of iterations left: each iteration creates a node, gives it the index
`base_index++` and appends it to `nextLayer`. -/
def createLayer : Nat → TreeBuild → List Nat → TreeBuild × List Nat
  | 0, b, nextLayer => (b, nextLayer)
  | i + 1, b, nextLayer =>
    let r := b.tree.createTreeNode
    createLayer i
      { tree := r.2, index := b.index ++ [b.base_index], base_index := b.base_index + 1 }
      (nextLayer ++ [r.1])

/-- The loop `for (auto idx = start; idx < end; ++idx)` of `makeTreeFrom` over
the positions `idx` that are left: the node `nextLayer[indices[idx]]` becomes a
child of `parentNode`. The result is `none` when a position is not one of
`indices` or a row index is not one of `nextLayer`. -/
def linkChildren (C : CscMatrix) (nextLayer : List Nat) (parentNode : Nat) :
    List Nat → Tree → Option Tree
  | [], t => some t
  | idx :: rest, t =>
    match C.indices[idx]? with
    | none => none
    | some child_idx =>
      match nextLayer[child_idx]? with
      | none => none
      | some childNode =>
        linkChildren C nextLayer parentNode rest (t.setParent childNode parentNode)

/-- The loop `for (int parent = 0; parent < lastLayer.size(); ++parent)` of
`makeTreeFrom` over the columns `parent` that are left. The result is `none`
when `indptr` has no entry `parent` or `parent + 1`. -/
def linkLayer (C : CscMatrix) (lastLayer nextLayer : List Nat) :
    List Nat → Tree → Option Tree
  | [], t => some t
  | parent :: rest, t =>
    match C.indptr[parent]?, C.indptr[parent + 1]?, lastLayer[parent]? with
    | some start, some stop, some parentNode =>
      match linkChildren C nextLayer parentNode (List.range' start (stop - start)) t with
      | none => none
      | some t1 => linkLayer C lastLayer nextLayer rest t1
    | _, _, _ => none

/-- The loop `for (auto layer : model.get_model_layers())` of `makeTreeFrom`
over the layers that are left: the nodes of the layer are created, every one
listed in a column becomes a child of the node of the column, and the layer
becomes `lastLayer`. -/
def buildLayers : List CscMatrix → TreeBuild → List Nat → Option (TreeBuild × List Nat)
  | [], b, lastLayer => some (b, lastLayer)
  | C :: rest, b, lastLayer =>
    let r := createLayer C.rows b []
    match linkLayer C lastLayer r.2 (List.range lastLayer.length) r.1.tree with
    | none => none
    | some t1 => buildLayers rest { r.1 with tree := t1 } r.2

/-- The loop `for (auto node : lastLayer) tree->setLabel(node, current_label++)`
of `makeTreeFrom`. -/
def labelLayer : List Nat → Nat → Tree → Tree
  | [], _, t => t
  | node :: rest, current_label, t =>
    labelLayer rest (current_label + 1) (t.setLabel node current_label)

/-- The body of the last loop of `makeTreeFrom` for the node `nodeId`: the count
of a node without children is `1`, that of another node the sum of the counts
its children have at that moment. -/
def countNode (t : Tree) (nodeId : Nat) : Tree :=
  let children := t.children nodeId
  let v := if children.length = 0 then 1
    else children.foldl (fun subtreeLeaves child => subtreeLeaves + t.subtreeLeaves child) 0
  let nodes1 := List.modify (fun nd => { nd with subtreeLeaves := v }) nodeId t.nodes
  { t with nodes := nodes1 }

/-- The loop `for (int nodeId = tree->nodes.size() - 1; nodeId >= 0; --nodeId)`
of `makeTreeFrom`, with the number of nodes left: the next node is the one of
index `nodeId`. -/
def countSubtreeLeaves : Nat → Tree → Tree
  | 0, t => t
  | nodeId + 1, t => countSubtreeLeaves nodeId (countNode t nodeId)

/-- The function `makeTreeFrom(model)` of `conv.cpp` on the cluster matrices of
the layers of the model: the tree it returns, with the field `index` of its
nodes in arena order; `none` when a read of a matrix is out of its bounds. The
`int` counters are natural numbers: a model has fewer than `2^31` nodes. -/
def makeTreeFrom (layers : List CscMatrix) : Option (Tree × List Nat) :=
  let tree0 : Tree := { root := 0, nodes := [], leaves := [], k := 0, t := 0 }
  let r := tree0.createTreeNode
  let tree1 : Tree := { r.2 with root := r.1 }
  let nodes1 := List.modify (fun nd => { nd with parent := none }) r.1 tree1.nodes
  let b : TreeBuild := { tree := { tree1 with nodes := nodes1 }, index := [0], base_index := 1 }
  match buildLayers layers b [r.1] with
  | none => none
  | some (b1, lastLayer) =>
    let tree2 := labelLayer lastLayer 0 b1.tree
    let tree3 := countSubtreeLeaves tree2.nodes.length tree2
    some ({ tree3 with k := tree3.leaves.length, t := tree3.nodes.length }, b1.index)

/-! ## Reference semantics of the model conversion -/

/-- The row indices the matrix lists in the column `p`, in the order of the
loop over the column. -/
def CscMatrix.column (C : CscMatrix) (p : Nat) : List Nat :=
  (List.range' (C.indptr.getD p 0) (C.indptr.getD (p + 1) 0 - C.indptr.getD p 0)).map
    (fun idx => C.indices.getD idx 0)

/-- The layers of a model below a layer of `cols` nodes form a layered model:
every layer has a column for each node of the layer above, every column lists
at least one row and lies within `indices`, every node of the layer is listed
exactly once over all columns, and the same holds further down. -/
def LayeredModel : Nat → List CscMatrix → Prop
  | _, [] => True
  | cols, C :: rest =>
    cols + 1 ≤ C.indptr.length ∧
    (∀ p < cols, C.indptr.getD p 0 < C.indptr.getD (p + 1) 0 ∧
      C.indptr.getD (p + 1) 0 ≤ C.indices.length) ∧
    ((List.range cols).flatMap C.column).Perm (List.range C.rows) ∧
    LayeredModel C.rows rest

/-- The tree `t1` has the root, the mapping of labels, the number of nodes and the
label of every node of the tree `t`. -/
def SameFrame (t t1 : Tree) : Prop :=
  t1.root = t.root ∧ t1.leaves = t.leaves ∧ t1.nodes.length = t.nodes.length ∧
    ∀ m, t1.label m = t.label m

/-- The invariant of the loop over the layers in `makeTreeFrom`, for the state
`b` when the last layer is the `n` nodes from index `off` on: these are the last
nodes of the arena, the field `index` of every node is its position in the
arena, no node has a label, the nodes of the last layer have no children and
the nodes above have some, a child has a larger index than its parent, and
every function on nodes that is, above the last layer, the sum of its values at
the children has at the root the sum of its values over the last layer. -/
structure BuildInv (b : TreeBuild) (off n : Nat) : Prop where
  root : b.tree.root = 0
  size : b.tree.nodes.length = off + n
  index : b.index = List.range b.tree.nodes.length
  base : b.base_index = b.tree.nodes.length
  leaves : b.tree.leaves = []
  labels : ∀ m, b.tree.label m = -1
  childless : ∀ m, off ≤ m → b.tree.children m = []
  internal : ∀ m < off, b.tree.children m ≠ []
  child_gt : ∀ m c, c ∈ b.tree.children m → m < c ∧ c < b.tree.nodes.length
  sum : ∀ f : Nat → Nat, (∀ m < off, f m = ((b.tree.children m).map f).sum) →
    f 0 = ((List.range' off n).map f).sum

/-- The cached count of the node `m` is right: `1` when the node has no
children, else the sum of the cached counts of its children. -/
def SubtreeCount (t : Tree) (m : Nat) : Prop :=
  t.subtreeLeaves m =
    if t.children m = [] then 1 else ((t.children m).map t.subtreeLeaves).sum

/-! ## Exact search with the multiplication of doubles and failing reads -/

/-- The tables the calibrator builds cover the tree: when per-label thresholds
are set `nodesThr` has an entry for every node of the tree, and when label
weights are set `nodesWeights` has one. Every read `nodesThr[n->index]` and
`nodesWeights[n->index]` at a node of the tree is then a read within the
table. -/
def TablesCover (t : Tree) (s : PLT) : Prop :=
  (s.thresholds ≠ [] → t.nodes.length ≤ s.nodesThr.length) ∧
  (s.labelsWeights ≠ [] → t.nodes.length ≤ s.nodesWeights.length)

/-- The rational `a` is a double for the multiplication `mul`: the double the
machine computes for the product of `a` and `1` is `a` itself. -/
def IsDouble (mul : ℚ → ℚ → ℚ) (a : ℚ) : Prop := mul a 1 = a

/-- Laws of the multiplication of two doubles, `mul a b` being the double the
machine computes for the product of `a` and `b`: zero times a double is zero;
the product of two non-negative doubles is non-negative; the product is a
double; and the product of a non-negative double `a` with a factor in `[0, 1]`
is at most `a` (the exact product is at most `a`, which is a double, and
rounding does not pass a double). The exact product of rationals obeys them, and
so does the product rounded to the nearest double, `doubleMul`. -/
structure DoubleMul (mul : ℚ → ℚ → ℚ) : Prop where
  zero_left : ∀ b, mul 0 b = 0
  nonneg : ∀ a b, 0 ≤ a → 0 ≤ b → 0 ≤ mul a b
  closed : ∀ a b, IsDouble mul (mul a b)
  le_left : ∀ a b, IsDouble mul a → 0 ≤ a → 0 ≤ b → b ≤ 1 → mul a b ≤ a

/-- The admission predicate `ifAddToQueue` that `PLT::predict` selects; `none`
when `nodesThr[node->index]` is a read outside the table. -/
def Rounded.ifAddToQueue (s : PLT) (args : Args) (node : Nat) (prob : ℚ) : Option Bool :=
  if args.threshold > 0 then some (decide (prob ≥ args.threshold))
  else if s.thresholds.length ≠ 0 then
    match s.nodesThr[node]? with
    | none => none
    | some e => some (decide (prob ≥ e.th))
  else some true

/-- The score function `calculateValue` that `PLT::predict` selects, the product
`prob * nodesWeights[node->index].weight` being the double `mul` gives; `none`
when `nodesWeights[node->index]` is a read outside the table. -/
def Rounded.calculateValue (mul : ℚ → ℚ → ℚ) (s : PLT) (node : Nat) (prob : ℚ) : Option ℚ :=
  if s.labelsWeights ≠ [] then
    match s.nodesWeights[node]? with
    | none => none
    | some e => some (mul prob e.weight)
  else some prob

/-- Modelled from the spec: `addToQueue`, declared in `plt.h`: the final score of
the node is computed and, if the admission predicate admits the node, the entry
`(node, prob, value)` is pushed; `none` when one of the two reads a table
outside its bounds. -/
def Rounded.addToQueue (mul : ℚ → ℚ → ℚ) {Q : Type} (Qi : TopKQueue Q) (s : PLT) (args : Args)
    (nQueue : Q) (node : Nat) (prob : ℚ) : Option Q :=
  match calculateValue mul s node prob with
  | none => none
  | some value =>
    match ifAddToQueue s args node prob with
    | none => none
    | some pass =>
      if pass then some (Qi.push nQueue { node := node, prob := prob, value := value })
      else some nQueue

/-- The loop `for (const auto& child : nVal.node->children)` of
`PLT::predictNextLabel` over the children that are left: the child is offered
to the queue with the double `nVal.prob * predictForNode(child, features)`. -/
def Rounded.addChildren (mul : ℚ → ℚ → ℚ) {Q : Type} (Qi : TopKQueue Q)
    (bases : Nat → List Feature → ℚ) (s : PLT) (args : Args) (features : List Feature)
    (prob : ℚ) : List Nat → Q → Option Q
  | [], nQueue => some nQueue
  | child :: rest, nQueue =>
    match addToQueue mul Qi s args nQueue child (mul prob (bases child features)) with
    | none => none
    | some nQueue1 => addChildren mul Qi bases s args features prob rest nQueue1

/-- The function `PLT::predictNextLabel`, with the multiplication of doubles
`mul` and reads of the tables that fail outside their bounds. The classifier
table `bases` is a parameter: `bases n features` is
`predictForNode(n, features)`. The counter `nodeEvaluationCount` is not part of
the result. -/
def Rounded.predictNextLabel (mul : ℚ → ℚ → ℚ) {Q : Type} (Qi : TopKQueue Q) (t : Tree)
    (bases : Nat → List Feature → ℚ) (s : PLT) (args : Args) (features : List Feature) :
    Nat → Q → Option (Prediction × Q)
  | 0, _ => none
  | fuel + 1, nQueue =>
    if Qi.empty nQueue then some ({ label := -1, value := 0 }, nQueue)
    else
      match Qi.top nQueue with
      | none => none
      | some nVal =>
        match addChildren mul Qi bases s args features nVal.prob (t.children nVal.node)
            (Qi.pop nQueue) with
        | none => none
        | some nQueue1 =>
          if 0 ≤ t.label nVal.node then
            some ({ label := t.label nVal.node, value := nVal.value }, nQueue1)
          else predictNextLabel mul Qi t bases s args features fuel nQueue1

/-- The loop `while ((prediction.size() < topK || topK == 0) && p.label != -1)` of
`PLT::predict`. -/
def Rounded.predictLoop (mul : ℚ → ℚ → ℚ) {Q : Type} (Qi : TopKQueue Q) (t : Tree)
    (bases : Nat → List Feature → ℚ) (s : PLT) (args : Args) (features : List Feature)
    (fuel : Nat) : Nat → List Prediction → Prediction → Q → Option (List Prediction)
  | 0, _, _, _ => none
  | k + 1, prediction, p, nQueue =>
    if (sizeLtInt prediction.length args.topK || decide (args.topK = 0)) && decide (p.label ≠ -1)
    then
      match predictNextLabel mul Qi t bases s args features fuel nQueue with
      | none => none
      | some (p1, nQueue1) =>
        predictLoop mul Qi t bases s args features fuel k (prediction ++ [p]) p1 nQueue1
    else some prediction

/-- The function `PLT::predict`: the vector `prediction` after the call, with
the multiplication of doubles `mul` and reads of the tables that fail outside
their bounds. The tree is the one `tree` points to; the counters
`nodeEvaluationCount` and `dataPointCount` are not part of the result. -/
def Rounded.predict (mul : ℚ → ℚ → ℚ) {Q : Type} (Qi : TopKQueue Q) (t : Tree)
    (bases : Nat → List Feature → ℚ) (s : PLT) (args : Args) (fuel : Nat)
    (prediction : List Prediction) (features : List Feature) : Option (List Prediction) :=
  let rootProb := bases t.root features
  match addToQueue mul Qi s args (Qi.new args.topK) t.root rootProb with
  | none => none
  | some nQueue =>
    match predictNextLabel mul Qi t bases s args features fuel nQueue with
    | none => none
    | some (p, nQueue1) =>
      predictLoop mul Qi t bases s args features fuel fuel prediction p nQueue1

/-! ## Reference semantics of the exact search with the multiplication of doubles -/

/-- The product of the doubles of the list `l`, taken from its last entry to its
first with the multiplication `mul`: no product for a single entry, and
`mul (product of the tail) head` otherwise. -/
def pathProduct (mul : ℚ → ℚ → ℚ) : List ℚ → ℚ
  | [] => 1
  | [a] => a
  | a :: b :: rest => mul (pathProduct mul (b :: rest)) a

/-- The path probability of the node `n` for the feature row `x` as the
searchers compute it: the probability the root classifier gives, multiplied in
turn, with the multiplication of doubles `mul`, by the probability the
classifier of every further node on the path from the root to `n` gives. -/
def Rounded.pathProbability (mul : ℚ → ℚ → ℚ) (t : Tree) (bases : Nat → List Feature → ℚ)
    (x : List Feature) (n : Nat) : ℚ :=
  pathProduct mul ((t.pathToRoot n).map (fun a => bases a x))

/-- Every node on the path from the root to `n`, both ends included, passes the
admission predicate with its path probability. -/
def Rounded.admitted (mul : ℚ → ℚ → ℚ) (t : Tree) (bases : Nat → List Feature → ℚ) (s : PLT)
    (args : Args) (x : List Feature) (n : Nat) : Bool :=
  (t.pathToRoot n).all
    (fun a => decide (ifAddToQueue s args a (pathProbability mul t bases x a) = some true))

/-- The admitted leaves: the nodes with a label all of whose root-path nodes pass
the admission predicate, in index order. -/
def Rounded.admittedLeaves (mul : ℚ → ℚ → ℚ) (t : Tree) (bases : Nat → List Feature → ℚ) (s : PLT)
    (args : Args) (x : List Feature) : List Nat :=
  (List.range t.nodes.length).filter
    (fun n => decide (0 ≤ t.label n) && admitted mul t bases s args x n)

/-- A classifier table whose exact products along the paths of the tree are the
path probabilities computed with `mul`: the root keeps its probability, and
another node gets the quotient of its path probability by that of its parent
(`0` when the latter is `0`). -/
def effectiveBases (mul : ℚ → ℚ → ℚ) (t : Tree) (bases : Nat → List Feature → ℚ)
    (x : List Feature) : Nat → List Feature → ℚ :=
  fun n _ =>
    match t.parent n with
    | none => bases n x
    | some p =>
      if Rounded.pathProbability mul t bases x p = 0 then 0
      else Rounded.pathProbability mul t bases x n / Rounded.pathProbability mul t bases x p

/-- A model whose node weights give, as exact products with the path
probabilities computed with `mul`, the scores computed with `mul`: the weight
of a node is the quotient of its score by its path probability (`0` when the
latter is `0`); everything else is as in `s`. -/
def effectiveState (mul : ℚ → ℚ → ℚ) (t : Tree) (bases : Nat → List Feature → ℚ) (s : PLT)
    (x : List Feature) : PLT :=
  let weights := (List.range t.nodes.length).map (fun n =>
    ({ weight :=
        if Rounded.pathProbability mul t bases x n = 0 then 0
        else mul (Rounded.pathProbability mul t bases x n)
          (s.nodesWeights.getD n default).weight / Rounded.pathProbability mul t bases x n
       label := (s.nodesWeights.getD n default).label } : TreeNodeWeightsExt))
  { s with nodesWeights := weights }

/-! ## Multiplication of doubles -/

/-- The integer nearest to a rational, the even one of the two when the rational
lies half way between two integers. -/
def roundHalfEven (q : ℚ) : ℤ :=
  if q - ⌊q⌋ < 1 / 2 then ⌊q⌋
  else if 1 / 2 < q - ⌊q⌋ then ⌊q⌋ + 1
  else if ⌊q⌋ % 2 = 0 then ⌊q⌋ else ⌊q⌋ + 1

/-- The position of the leading bit of a natural number `n >= 1`, the `k` with
`2^k <= n < 2^(k+1)`, by halving; the fuel `n` is enough. -/
def bitLog : Nat → Nat → Nat
  | 0, _ => 0
  | fuel + 1, n => if n < 2 then 0 else bitLog fuel (n / 2) + 1

/-- The binary exponent of a positive rational `q`, the integer `e` with
`2^e <= q < 2^(e+1)`, from the leading bits of numerator and denominator. -/
def binade (q : ℚ) : ℤ :=
  if (2 : ℚ) ^ ((bitLog q.num.natAbs q.num.natAbs : ℤ) - (bitLog q.den q.den : ℤ)) ≤ q then
    (bitLog q.num.natAbs q.num.natAbs : ℤ) - (bitLog q.den q.den : ℤ)
  else (bitLog q.num.natAbs q.num.natAbs : ℤ) - (bitLog q.den q.den : ℤ) - 1

/-- The exponent of the last place of the doubles around a positive rational
`q`: a double has a significand of 53 bits, so the last place of a double in
`[2^e, 2^(e+1))` is `2^(e-52)`; the last place of the smallest doubles is
`2^(-1074)`. -/
def doubleExp (q : ℚ) : ℤ := max (binade q - 52) (-1074)

/-- The double nearest to a positive rational (IEEE 754 binary64, rounding to
nearest, ties to even); overflow to infinity is left out. -/
def roundDoublePos (q : ℚ) : ℚ := (roundHalfEven (q / 2 ^ doubleExp q) : ℚ) * 2 ^ doubleExp q

/-- The double nearest to a rational. -/
def roundDouble (q : ℚ) : ℚ :=
  if q = 0 then 0 else if 0 < q then roundDoublePos q else -roundDoublePos (-q)

/-- The product `a * b` of two doubles as the machine computes it: the exact
product rounded to the nearest double. -/
def doubleMul (a b : ℚ) : ℚ := roundDouble (a * b)

/-! ## Example trees -/

/-- A tree of seven nodes: root `0`, internal nodes `1` and `2`, leaves `3..6`
with labels `0..3`; node `1` covers the leaves of labels `0` and `1`. -/
def tree7 : Tree where
  root := 0
  nodes := [
    ⟨-1, none, [1, 2], 4⟩,
    ⟨-1, some 0, [3, 4], 2⟩,
    ⟨-1, some 0, [5, 6], 2⟩,
    ⟨0, some 1, [], 1⟩,
    ⟨1, some 1, [], 1⟩,
    ⟨2, some 2, [], 1⟩,
    ⟨3, some 2, [], 1⟩]
  leaves := [(0, 3), (1, 4), (2, 5), (3, 6)]
  k := 4
  t := 7

/-- A tree of three nodes: root `0` and two leaves with labels `5` and `6`. -/
def tree3 : Tree where
  root := 0
  nodes := [⟨-1, none, [1, 2], 2⟩, ⟨5, some 0, [], 1⟩, ⟨6, some 0, [], 1⟩]
  leaves := [(5, 1), (6, 2)]
  k := 2
  t := 3

/-- A model with the tree `tree7`, as `PLT::load` leaves it. -/
def plt7 : PLT where
  tree := some tree7
  m := 4
  thresholds := []
  labelsWeights := []
  nodesLabels := []
  nodesThr := []
  nodesWeights := []

/-- A model with the tree `tree3`, as `PLT::load` leaves it: `m` is the number of
leaves. -/
def plt3 : PLT where
  tree := some tree3
  m := 2
  thresholds := []
  labelsWeights := []
  nodesLabels := []
  nodesThr := []
  nodesWeights := []

/-- The model `plt7` with the label cache of `tree7`, the per-label thresholds
`[0.5, 0.2, 0.8, 0.1]`, the per-label weights `[2, 3, 0, 1]` and node tables of the
size of the tree. -/
def plt7Calibrated : PLT where
  tree := some tree7
  m := 4
  thresholds := [1 / 2, 1 / 5, 4 / 5, 1 / 10]
  labelsWeights := [2, 3, 0, 1]
  nodesLabels := [[0, 1, 2, 3], [0, 1], [2, 3], [0], [1], [2], [3]]
  nodesThr := List.replicate 7 { th := 0, label := 0 }
  nodesWeights := List.replicate 7 { weight := 0, label := 0 }

/-- A classifier table for `tree7`. -/
def bases7 (n : Nat) (_ : List Feature) : ℚ :=
  [1, 1 / 2, 1 / 2, 3 / 4, 1 / 4, 1 / 3, 2 / 3].getD n 0

/-- Search arguments for `tree7`: no global threshold, all predictions, beam width
`4`, the number of leaves. -/
def args7 : Args where
  topK := 0
  threshold := 0
  beamSearchWidth := 4

/-- A model whose node `0` has the labels `0` and `1` in its cache, both with the
threshold `0.2`. -/
def pltTie : PLT where
  tree := none
  m := 2
  thresholds := [1 / 5, 1 / 5]
  labelsWeights := []
  nodesLabels := [[0, 1]]
  nodesThr := [{ th := 0, label := 0 }]
  nodesWeights := []

/-- The model `plt7` after `setThresholds` with the thresholds
`[0.5, 0.2, 0.8, 0.1]`. -/
def plt7Thr : PLT where
  tree := some tree7
  m := 4
  thresholds := [1 / 2, 1 / 5, 4 / 5, 1 / 10]
  labelsWeights := []
  nodesLabels := [[0, 1, 2, 3], [0, 1], [2, 3], [0], [1], [2], [3]]
  nodesThr := [⟨1 / 10, 3⟩, ⟨1 / 5, 1⟩, ⟨1 / 10, 3⟩, ⟨1 / 2, 0⟩, ⟨1 / 5, 1⟩, ⟨4 / 5, 2⟩,
    ⟨1 / 10, 3⟩]
  nodesWeights := []

/-- Search arguments for `tree7` with the global threshold `0.25`. -/
def args7Threshold : Args where
  topK := 0
  threshold := 1 / 4
  beamSearchWidth := 4

/-- Search arguments for `tree7` with `topK = 2`. -/
def args7Top2 : Args where
  topK := 2
  threshold := 0
  beamSearchWidth := 4

/-- Search arguments for `tree7` with a beam of width `1`. -/
def args7Beam1 : Args where
  topK := 0
  threshold := 0
  beamSearchWidth := 1

/-- A state of the level loop on `tree7` for one row after the level of the nodes
`1` and `2`: the row has the candidates of node `1` (path probability `1/3`) and
of node `2` (path probability `2/3`), and no node has pending rows. -/
def exampleBeamState7 : BeamState where
  prediction := [[]]
  levelPredictions := [[⟨1, 1 / 3, 1 / 3⟩, ⟨2, 2 / 3, 2 / 3⟩]]
  nodePredictions := List.replicate 7 []

/-- The model `plt7` after `setLabelsWeights` with the weights `[2, 3, 0, 1]`. -/
def plt7Weighted : PLT where
  tree := some tree7
  m := 4
  thresholds := []
  labelsWeights := [2, 3, 0, 1]
  nodesLabels := [[0, 1, 2, 3], [0, 1], [2, 3], [0], [1], [2], [3]]
  nodesThr := []
  nodesWeights := [⟨3, 1⟩, ⟨3, 1⟩, ⟨1, 3⟩, ⟨2, 0⟩, ⟨3, 1⟩, ⟨0, 0⟩, ⟨1, 3⟩]

/-- A model without a tree, as it is before `PLT::load` or `PLT::buildTree`. -/
def pltNoTree : PLT where
  tree := none
  m := 0
  thresholds := []
  labelsWeights := []
  nodesLabels := []
  nodesThr := []
  nodesWeights := []

/-- A model of two layers: two nodes below the root, and three leaves, the
third below the first node and the first two below the second node. -/
def exampleLayers : List CscMatrix :=
  [{ rows := 2, indptr := [0, 2], indices := [0, 1] },
   { rows := 3, indptr := [0, 1, 3], indices := [2, 0, 1] }]

/-- A classifier table for `tree7` whose outputs are doubles: `0.1` at the root
and at node `2`, `0.7` at node `1`, and `0.85`, `0.25`, `0.5` and `1` at the
leaves `3`, `4`, `5` and `6`. -/
def bases7Double (n : Nat) (_ : List Feature) : ℚ :=
  [3602879701896397 / 36028797018963968, 3152519739159347 / 4503599627370496,
    3602879701896397 / 36028797018963968, 7656119366529843 / 9007199254740992, 1 / 4, 1 / 2,
    1].getD n 0

/-- The model `plt7` after `setThresholds` with the doubles `0.0595`, `1`, `1`
and `0.1 * 0.1`. -/
def plt7DoubleThr : PLT where
  tree := some tree7
  m := 4
  thresholds := [535928355657089 / 9007199254740992, 1, 1,
    1441151880758559 / 144115188075855872]
  labelsWeights := []
  nodesLabels := [[0, 1, 2, 3], [0, 1], [2, 3], [0], [1], [2], [3]]
  nodesThr := [⟨1441151880758559 / 144115188075855872, 3⟩,
    ⟨535928355657089 / 9007199254740992, 0⟩, ⟨1441151880758559 / 144115188075855872, 3⟩,
    ⟨535928355657089 / 9007199254740992, 0⟩, ⟨1, 0⟩, ⟨1, 0⟩,
    ⟨1441151880758559 / 144115188075855872, 3⟩]
  nodesWeights := []

/-! ## The tree and the training router: lemmas -/

namespace Tree

theorem parent_lt {t : Tree} {n p : Nat} (h : t.parent n = some p) : n < t.nodes.length := by
  by_contra hn
  have : t.nodes[n]? = none := List.getElem?_eq_none (by omega)
  simp [parent, this] at h

theorem children_lt {t : Tree} {n c : Nat} (h : c ∈ t.children n) : n < t.nodes.length := by
  by_contra hn
  have : t.nodes[n]? = none := List.getElem?_eq_none (by omega)
  simp [children, this] at h

theorem findLeaf_mem {t : Tree} {l : Int} {n : Nat} (h : t.findLeaf l = some n) :
    (l, n) ∈ t.leaves := by
  unfold findLeaf at h
  generalize t.leaves = L at h
  induction L with
  | nil => simp [List.lookup] at h
  | cons e L ih =>
    obtain ⟨a, b⟩ := e
    by_cases hab : l = a
    · subst hab
      simp [List.lookup] at h
      simp [h]
    · have : (l == a) = false := by simpa using hab
      simp [List.lookup, this] at h
      exact List.mem_cons_of_mem _ (ih h)

theorem WF.findLeaf_lt {t : Tree} (hwf : t.WF) {l : Int} {n : Nat}
    (h : t.findLeaf l = some n) : n < t.nodes.length :=
  (hwf.leaves_sound _ (findLeaf_mem h)).1

theorem WF.parent_valid {t : Tree} (hwf : t.WF) {n p : Nat} (h : t.parent n = some p) :
    p < t.nodes.length ∧ n ∈ t.children p := by
  have hn := parent_lt h
  have hne : n ≠ t.root := by
    rintro rfl
    rw [hwf.root_parent] at h
    cases h
  obtain ⟨q, hq, hql, hc⟩ := hwf.parent_of_ne_root n hn hne
  rw [h] at hq
  cases hq
  refine ⟨hql, ?_⟩
  apply List.count_pos_iff.mp
  omega

theorem WF.mem_children_iff {t : Tree} (hwf : t.WF) {n c : Nat} :
    c ∈ t.children n ↔ t.parent c = some n :=
  ⟨fun h => (hwf.child_parent n (children_lt h) c h).2, fun h => (hwf.parent_valid h).2⟩

theorem parentIter_none_of_le {t : Tree} : ∀ {k j n : Nat}, t.parentIter k n = none → k ≤ j →
    t.parentIter j n = none
  | 0, _, _, h, _ => by simp [parentIter] at h
  | k + 1, 0, _, _, hle => by omega
  | k + 1, j + 1, n, h, hle => by
    simp only [parentIter] at h ⊢
    cases hp : t.parent n with
    | none => simp
    | some p =>
      rw [hp] at h
      simp only [Option.some_bind] at h ⊢
      exact parentIter_none_of_le h (by omega)

theorem WF.ancestor_lt {t : Tree} (hwf : t.WF) : ∀ {k n a : Nat}, n < t.nodes.length →
    t.parentIter k n = some a → a < t.nodes.length
  | 0, n, a, hn, h => by
    simp [parentIter] at h
    omega
  | k + 1, n, a, _, h => by
    simp only [parentIter] at h
    cases hp : t.parent n with
    | none => simp [hp] at h
    | some p =>
      rw [hp] at h
      exact hwf.ancestor_lt (hwf.parent_valid hp).1 h

theorem WF.root_of_parentIter_none {t : Tree} (hwf : t.WF) : ∀ {k n : Nat}, n < t.nodes.length →
    t.parentIter k n = none → ∃ j, j < k ∧ t.parentIter j n = some t.root
  | 0, _, _, h => by simp [parentIter] at h
  | k + 1, n, hn, h => by
    simp only [parentIter] at h
    cases hp : t.parent n with
    | none =>
      refine ⟨0, by omega, ?_⟩
      by_contra hne
      have hne2 : n ≠ t.root := by
        intro h2
        apply hne
        simp [parentIter, h2]
      obtain ⟨q, hq, _⟩ := hwf.parent_of_ne_root n hn hne2
      rw [hp] at hq
      cases hq
    | some p =>
      rw [hp] at h
      obtain ⟨j, hj, hr⟩ := hwf.root_of_parentIter_none (hwf.parent_valid hp).1 h
      exact ⟨j + 1, by omega, by simp [parentIter, hp, hr]⟩

theorem WF.root_ancestor {t : Tree} (hwf : t.WF) {n : Nat} (hn : n < t.nodes.length) :
    t.AncestorOrSelf t.root n := by
  obtain ⟨j, _, hj⟩ := hwf.root_of_parentIter_none hn (hwf.acyclic n hn)
  exact ⟨j, hj⟩

theorem AncestorOrSelf.parent_step {t : Tree} {a n p : Nat} (hp : t.parent n = some p)
    (h : t.AncestorOrSelf a p) : t.AncestorOrSelf a n := by
  obtain ⟨k, hk⟩ := h
  exact ⟨k + 1, by simp [parentIter, hp, hk]⟩

theorem WF.ancestorOrSelf_iff_inSubtree {t : Tree} (hwf : t.WF) {a n : Nat} :
    t.AncestorOrSelf a n ↔ t.InSubtree a n := by
  constructor
  · rintro ⟨k, hk⟩
    induction k generalizing n with
    | zero =>
      simp [parentIter] at hk
      subst hk
      exact Relation.ReflTransGen.refl
    | succ k ih =>
      simp only [parentIter] at hk
      cases hp : t.parent n with
      | none => simp [hp] at hk
      | some p =>
        rw [hp] at hk
        exact Relation.ReflTransGen.tail (ih hk) (hwf.parent_valid hp).2
  · intro h
    induction h with
    | refl => exact ⟨0, rfl⟩
    | tail _ hc ih => exact ih.parent_step (hwf.mem_children_iff.mp hc)

end Tree

open Tree

theorem mem_insertAncestors {t : Tree} : ∀ {fuel n : Nat} {P P1 : List Nat},
    insertAncestors t fuel n P = some P1 →
    ∀ x, x ∈ P1 ↔ x ∈ P ∨ ∃ k, t.parentIter (k + 1) n = some x
  | 0, _, _, _, h => by simp [insertAncestors] at h
  | fuel + 1, n, P, P1, h => by
    intro x
    simp only [insertAncestors] at h
    cases hp : t.parent n with
    | none =>
      simp only [hp] at h
      cases h
      simp [parentIter, hp]
    | some p =>
      simp only [hp] at h
      rw [mem_insertAncestors h x, List.mem_insert_iff]
      constructor
      · rintro ((rfl | hx) | ⟨k, hk⟩)
        · exact Or.inr ⟨0, by simp [parentIter, hp]⟩
        · exact Or.inl hx
        · exact Or.inr ⟨k + 1, by rw [parentIter, hp]; exact hk⟩
      · rintro (hx | ⟨k, hk⟩)
        · exact Or.inl (Or.inr hx)
        · rw [parentIter, hp] at hk
          cases k with
          | zero =>
            simp [parentIter] at hk
            exact Or.inl (Or.inl hk.symm)
          | succ k => exact Or.inr ⟨k, hk⟩

theorem insertAncestors_isSome {t : Tree} : ∀ {fuel k n : Nat} (P : List Nat),
    t.parentIter k n = none → k ≤ fuel → ∃ P1, insertAncestors t fuel n P = some P1
  | 0, k, n, _, h, hle => by
    have : k = 0 := by omega
    subst this
    simp [parentIter] at h
  | fuel + 1, k, n, P, h, hle => by
    simp only [insertAncestors]
    cases hp : t.parent n with
    | none => exact ⟨P, rfl⟩
    | some p =>
      cases k with
      | zero => simp [parentIter] at h
      | succ k =>
        rw [parentIter, hp] at h
        exact insertAncestors_isSome _ h (by omega)

theorem mem_positiveLoop {t : Tree} {fuel : Nat} : ∀ {rLabels : List Int} {P P1 : List Nat},
    positiveLoop t fuel rLabels P = some P1 →
    ∀ x, x ∈ P1 ↔ x ∈ P ∨ OnLabelPath t rLabels x
  | [], P, P1, h => by
    simp only [positiveLoop] at h
    cases h
    simp [OnLabelPath]
  | l :: rest, P, P1, h => by
    intro x
    simp only [positiveLoop] at h
    cases hf : t.findLeaf l with
    | none =>
      simp only [hf] at h
      rw [mem_positiveLoop h x]
      simp [OnLabelPath, hf]
    | some n =>
      simp only [hf] at h
      cases hi : insertAncestors t fuel n (P.insert n) with
      | none => simp [hi] at h
      | some P2 =>
        simp only [hi] at h
        rw [mem_positiveLoop h x, mem_insertAncestors hi x, List.mem_insert_iff]
        have key : t.AncestorOrSelf x n ↔ x = n ∨ ∃ k, t.parentIter (k + 1) n = some x := by
          constructor
          · rintro ⟨k, hk⟩
            cases k with
            | zero =>
              simp [parentIter] at hk
              exact Or.inl hk.symm
            | succ k => exact Or.inr ⟨k, hk⟩
          · rintro (rfl | ⟨k, hk⟩)
            · exact ⟨0, rfl⟩
            · exact ⟨k + 1, hk⟩
        simp only [OnLabelPath, List.mem_cons, exists_eq_or_imp, hf, Option.some.injEq,
          exists_eq_left', key]
        tauto

theorem positiveLoop_isSome {t : Tree} (hwf : t.WF) {fuel : Nat} (hfuel : t.nodes.length ≤ fuel) :
    ∀ (rLabels : List Int) (P : List Nat), ∃ P1, positiveLoop t fuel rLabels P = some P1
  | [], P => ⟨P, rfl⟩
  | l :: rest, P => by
    simp only [positiveLoop]
    cases hf : t.findLeaf l with
    | none => exact positiveLoop_isSome hwf hfuel rest P
    | some n =>
      obtain ⟨P2, h2⟩ := insertAncestors_isSome (P.insert n)
        (hwf.acyclic n (hwf.findLeaf_lt hf)) hfuel
      simp only [h2]
      exact positiveLoop_isSome hwf hfuel rest P2

theorem mem_negativeLoop_inner (P : List Nat) : ∀ (cs acc : List Nat) (x : Nat),
    x ∈ cs.foldl (fun acc1 child => if child ∈ P then acc1 else acc1.insert child) acc ↔
      x ∈ acc ∨ (x ∈ cs ∧ x ∉ P)
  | [], acc, x => by simp
  | c :: cs, acc, x => by
    rw [List.foldl_cons, mem_negativeLoop_inner P cs]
    by_cases hc : c ∈ P
    · simp only [hc, if_true, List.mem_cons]
      constructor
      · rintro (h | ⟨h1, h2⟩)
        · exact Or.inl h
        · exact Or.inr ⟨Or.inr h1, h2⟩
      · rintro (h | ⟨rfl | h1, h2⟩)
        · exact Or.inl h
        · exact absurd hc h2
        · exact Or.inr ⟨h1, h2⟩
    · simp only [hc, if_false, List.mem_insert_iff, List.mem_cons]
      constructor
      · rintro ((rfl | h) | ⟨h1, h2⟩)
        · exact Or.inr ⟨Or.inl rfl, hc⟩
        · exact Or.inl h
        · exact Or.inr ⟨Or.inr h1, h2⟩
      · rintro (h | ⟨rfl | h1, h2⟩)
        · exact Or.inl (Or.inr h)
        · exact Or.inl (Or.inl rfl)
        · exact Or.inr ⟨h1, h2⟩

theorem mem_negativeLoop_outer (t : Tree) (P : List Nat) : ∀ (ps acc : List Nat) (x : Nat),
    x ∈ ps.foldl (fun acc n => (t.children n).foldl
        (fun acc1 child => if child ∈ P then acc1 else acc1.insert child) acc) acc ↔
      x ∈ acc ∨ (x ∉ P ∧ ∃ p ∈ ps, x ∈ t.children p)
  | [], acc, x => by simp
  | p :: ps, acc, x => by
    rw [List.foldl_cons, mem_negativeLoop_outer t P ps, mem_negativeLoop_inner]
    simp only [List.mem_cons, exists_eq_or_imp]
    tauto

theorem mem_negativeLoop (t : Tree) (P N0 : List Nat) (x : Nat) :
    x ∈ negativeLoop t P N0 ↔ x ∈ N0 ∨ (x ∉ P ∧ ∃ p ∈ P, x ∈ t.children p) :=
  mem_negativeLoop_outer t P P N0 x

/-! ## Example trees are well formed -/

theorem tree7_wf : tree7.WF where
  size_t := by decide
  size_k := by decide
  root_lt := by decide
  root_parent := by decide
  parent_of_ne_root := by decide
  child_parent := by decide
  acyclic := by decide
  leaf_iff := by decide
  leaves_sound := by decide
  leaves_complete := by decide
  leaves_nodup := by decide

theorem tree3_wf : tree3.WF where
  size_t := by decide
  size_k := by decide
  root_lt := by decide
  root_parent := by decide
  parent_of_ne_root := by decide
  child_parent := by decide
  acyclic := by decide
  leaf_iff := by decide
  leaves_sound := by decide
  leaves_complete := by decide
  leaves_nodup := by decide


/-! ## The tree and the training router: further lemmas -/

theorem getNodesToUpdate_of_positiveLoop {t : Tree} {fuel : Nat} {P0 N0 P : List Nat}
    {rLabels : List Int} (h : positiveLoop t fuel rLabels P0 = some P) :
    getNodesToUpdate t fuel P0 N0 rLabels =
      some (P, if P = [] then N0.insert t.root else negativeLoop t P N0) := by
  unfold getNodesToUpdate
  rw [h]
  by_cases hP : P = [] <;> simp [hP]

/-- Under the tree invariants and with fuel for the longest parent chain, the
router returns, and its positive set is the set of nodes on the label paths. -/
theorem getNodesToUpdate_spec {t : Tree} (hwf : t.WF) {fuel : Nat}
    (hfuel : t.nodes.length ≤ fuel) (rLabels : List Int) :
    ∃ P, getNodesToUpdate t fuel [] [] rLabels =
        some (P, if P = [] then [t.root] else negativeLoop t P []) ∧
      ∀ x, x ∈ P ↔ OnLabelPath t rLabels x := by
  obtain ⟨P, hP⟩ := positiveLoop_isSome hwf hfuel rLabels []
  refine ⟨P, ?_, fun x => ?_⟩
  · rw [getNodesToUpdate_of_positiveLoop hP]
    rfl
  · rw [mem_positiveLoop hP x]
    simp

theorem Tree.WF.onLabelPath_lt {t : Tree} (hwf : t.WF) {rLabels : List Int} {x : Nat}
    (h : OnLabelPath t rLabels x) : x < t.nodes.length := by
  obtain ⟨l, _, leaf, hf, k, hk⟩ := h
  exact hwf.ancestor_lt (hwf.findLeaf_lt hf) hk

theorem Tree.WF.root_onLabelPath {t : Tree} (hwf : t.WF) {rLabels : List Int} {x : Nat}
    (h : OnLabelPath t rLabels x) : OnLabelPath t rLabels t.root := by
  obtain ⟨l, hl, leaf, hf, _⟩ := h
  exact ⟨l, hl, leaf, hf, hwf.root_ancestor (hwf.findLeaf_lt hf)⟩

theorem positiveLoop_filter (t : Tree) (fuel : Nat) : ∀ (rLabels : List Int) (P : List Nat),
    positiveLoop t fuel (rLabels.filter (fun l => (t.findLeaf l).isSome)) P =
      positiveLoop t fuel rLabels P
  | [], P => rfl
  | l :: rest, P => by
    cases hf : t.findLeaf l with
    | none =>
      simp only [List.filter, hf, Option.isSome_none, positiveLoop]
      exact positiveLoop_filter t fuel rest P
    | some n =>
      simp only [List.filter, hf, Option.isSome_some, positiveLoop]
      cases insertAncestors t fuel n (P.insert n) with
      | none => rfl
      | some P2 => exact positiveLoop_filter t fuel rest P2

/-! ## Training router: claims -/

/-- C3: for a tree with the tree invariants, `PLT::getNodesToUpdate` called with
both sets empty returns, and a node is in `nPositive` afterwards iff it is the leaf
of a row label present in `tree->leaves` or an ancestor of such a leaf;
equivalently, iff the leaf of a row label present in the tree lies in the subtree
of the node. -/
theorem getNodesToUpdate_positive_iff (t : Tree) (hwf : t.WF) (fuel : Nat)
    (hfuel : t.nodes.length ≤ fuel) (rLabels : List Int) :
    ∃ nPositive nNegative,
      getNodesToUpdate t fuel [] [] rLabels = some (nPositive, nNegative) ∧
      ∀ n, (n ∈ nPositive ↔
          ∃ l ∈ rLabels, ∃ leaf, t.findLeaf l = some leaf ∧ t.AncestorOrSelf n leaf) ∧
        (n ∈ nPositive ↔
          ∃ l ∈ rLabels, ∃ leaf, t.findLeaf l = some leaf ∧ t.InSubtree n leaf) := by
  obtain ⟨P, hP, hmem⟩ := getNodesToUpdate_spec hwf hfuel rLabels
  refine ⟨P, _, hP, fun n => ⟨hmem n, ?_⟩⟩
  rw [hmem n]
  unfold OnLabelPath
  simp only [hwf.ancestorOrSelf_iff_inSubtree]

theorem getNodesToUpdate_positive_iff_witness :
    tree7.WF ∧ tree7.nodes.length ≤ 7 ∧
    ∃ nPositive nNegative,
      getNodesToUpdate tree7 7 [] [] [1, 99] = some (nPositive, nNegative) ∧
      ∀ n, (n ∈ nPositive ↔
          ∃ l ∈ [1, 99], ∃ leaf, tree7.findLeaf l = some leaf ∧ tree7.AncestorOrSelf n leaf) ∧
        (n ∈ nPositive ↔
          ∃ l ∈ [1, 99], ∃ leaf, tree7.findLeaf l = some leaf ∧ tree7.InSubtree n leaf) :=
  ⟨tree7_wf, by decide, getNodesToUpdate_positive_iff tree7 tree7_wf 7 (by decide) [1, 99]⟩

/-- C4: for a tree with the tree invariants, after `PLT::getNodesToUpdate` called
with empty sets: if `nPositive` is empty then `nNegative` is the root alone;
otherwise a node is in `nNegative` iff it is not in `nPositive` and its parent is
in `nPositive`. -/
theorem getNodesToUpdate_negative_iff (t : Tree) (hwf : t.WF) (fuel : Nat)
    (hfuel : t.nodes.length ≤ fuel) (rLabels : List Int) :
    ∃ nPositive nNegative,
      getNodesToUpdate t fuel [] [] rLabels = some (nPositive, nNegative) ∧
      (nPositive = [] → nNegative = [t.root]) ∧
      (nPositive ≠ [] → ∀ n, n ∈ nNegative ↔
        n ∉ nPositive ∧ ∃ p ∈ nPositive, t.parent n = some p) := by
  obtain ⟨P, hP, _⟩ := getNodesToUpdate_spec hwf hfuel rLabels
  refine ⟨P, _, hP, fun h => by simp [h], fun h n => ?_⟩
  simp only [h, if_false, mem_negativeLoop, List.not_mem_nil, false_or,
    hwf.mem_children_iff]

theorem getNodesToUpdate_negative_iff_witness :
    tree7.WF ∧ tree7.nodes.length ≤ 7 ∧
    ∃ nPositive nNegative,
      getNodesToUpdate tree7 7 [] [] [1, 3] = some (nPositive, nNegative) ∧
      (nPositive = [] → nNegative = [tree7.root]) ∧
      (nPositive ≠ [] → ∀ n, n ∈ nNegative ↔
        n ∉ nPositive ∧ ∃ p ∈ nPositive, tree7.parent n = some p) :=
  ⟨tree7_wf, by decide, getNodesToUpdate_negative_iff tree7 tree7_wf 7 (by decide) [1, 3]⟩

/-- C5: router completeness. For a tree with the tree invariants and every row
label list (the empty list and lists of absent labels included), after
`PLT::getNodesToUpdate` the root is in `nPositive` or `nNegative`, and every child
of a node of `nPositive` is in `nPositive` or `nNegative`. -/
theorem getNodesToUpdate_complete (t : Tree) (hwf : t.WF) (fuel : Nat)
    (hfuel : t.nodes.length ≤ fuel) (rLabels : List Int) :
    ∃ nPositive nNegative,
      getNodesToUpdate t fuel [] [] rLabels = some (nPositive, nNegative) ∧
      (t.root ∈ nPositive ∨ t.root ∈ nNegative) ∧
      ∀ n ∈ nPositive, ∀ c ∈ t.children n, c ∈ nPositive ∨ c ∈ nNegative := by
  obtain ⟨P, hP, hmem⟩ := getNodesToUpdate_spec hwf hfuel rLabels
  refine ⟨P, _, hP, ?_, ?_⟩
  · by_cases h : P = []
    · right
      simp [h]
    · left
      obtain ⟨x, hx⟩ := List.exists_mem_of_ne_nil P h
      exact (hmem _).mpr (hwf.root_onLabelPath ((hmem x).mp hx))
  · intro n hn c hc
    by_cases hcP : c ∈ P
    · exact Or.inl hcP
    · right
      have h : P ≠ [] := List.ne_nil_of_mem hn
      simp only [h, if_false, mem_negativeLoop]
      exact Or.inr ⟨hcP, n, hn, hc⟩

theorem getNodesToUpdate_complete_witness :
    tree7.WF ∧ tree7.nodes.length ≤ 7 ∧
    ∃ nPositive nNegative,
      getNodesToUpdate tree7 7 [] [] [99] = some (nPositive, nNegative) ∧
      (tree7.root ∈ nPositive ∨ tree7.root ∈ nNegative) ∧
      ∀ n ∈ nPositive, ∀ c ∈ tree7.children n, c ∈ nPositive ∨ c ∈ nNegative :=
  ⟨tree7_wf, by decide, getNodesToUpdate_complete tree7 tree7_wf 7 (by decide) [99]⟩

/-- C6: router skip behaviour. For a tree with the tree invariants,
`PLT::getNodesToUpdate` on a row label list completes (the logged warning is not
part of the result), and gives exactly the `nPositive` and `nNegative` it gives on
the list with every label that is absent from `tree->leaves` removed. -/
theorem getNodesToUpdate_skip_absent (t : Tree) (hwf : t.WF) (fuel : Nat)
    (hfuel : t.nodes.length ≤ fuel) (rLabels : List Int) :
    (∃ nPositive nNegative,
      getNodesToUpdate t fuel [] [] rLabels = some (nPositive, nNegative)) ∧
    getNodesToUpdate t fuel [] [] rLabels =
      getNodesToUpdate t fuel [] [] (rLabels.filter (fun l => (t.findLeaf l).isSome)) := by
  obtain ⟨P, hP, _⟩ := getNodesToUpdate_spec hwf hfuel rLabels
  refine ⟨⟨P, _, hP⟩, ?_⟩
  unfold getNodesToUpdate
  rw [positiveLoop_filter]

theorem getNodesToUpdate_skip_absent_witness :
    tree3.WF ∧ tree3.nodes.length ≤ 3 ∧
    (∃ nPositive nNegative,
      getNodesToUpdate tree3 3 [] [] [5, 99] = some (nPositive, nNegative)) ∧
    getNodesToUpdate tree3 3 [] [] [5, 99] = getNodesToUpdate tree3 3 [] [] [5] :=
  ⟨tree3_wf, by decide, getNodesToUpdate_skip_absent tree3 tree3_wf 3 (by decide) [5, 99]⟩

/-! ## Training router: the bins of assignDataPoints -/

theorem pushBack_eq_some {α : Type} {bins : List (List α)} {i : Nat} (x : α)
    (h : i < bins.length) : pushBack bins i x = some (List.modify (fun b => b ++ [x]) i bins) := by
  simp [pushBack, h]

theorem modify_getD {α : Type} (bins : List (List α)) (i j : Nat) (x : α) :
    (List.modify (fun b => b ++ [x]) i bins).getD j [] =
      bins.getD j [] ++ (if j = i ∧ i < bins.length then [x] else []) := by
  simp only [List.getD_eq_getElem?_getD, List.getElem?_modify]
  by_cases hj : j < bins.length
  · rw [List.getElem?_eq_getElem hj]
    by_cases hji : j = i
    · subst hji
      simp [hj]
    · have : ¬ i = j := fun h => hji h.symm
      simp [hji, this]
  · rw [List.getElem?_eq_none (by omega)]
    have : ¬ (j = i ∧ i < bins.length) := by
      rintro ⟨rfl, h⟩
      exact hj h
    simp [this]

theorem modify_sum_length {α : Type} (x : α) : ∀ (bins : List (List α)) (i : Nat),
    i < bins.length →
    ((List.modify (fun b => b ++ [x]) i bins).map List.length).sum =
      (bins.map List.length).sum + 1
  | [], i, h => by simp at h
  | b :: bins, 0, _ => by
    simp only [List.modify_zero_cons, List.map_cons, List.sum_cons, List.length_append,
      List.length_singleton]
    omega
  | b :: bins, i + 1, h => by
    have := modify_sum_length x bins i (by simpa using h)
    simp only [List.modify_succ_cons, List.map_cons, List.sum_cons, this]
    omega

/-- What one pass of `addExamples` does to the two bin tables. -/
theorem addExamples_spec (y : ℚ) (fs : List Feature) : ∀ (ns : List Nat)
    (bl : List (List ℚ)) (bf : List (List (List Feature))),
    ns.Nodup → (∀ n ∈ ns, n < bl.length) → bl.length = bf.length →
    ∃ bl1 bf1, addExamples y fs ns (bl, bf) = some (bl1, bf1) ∧
      bl1.length = bl.length ∧ bf1.length = bf.length ∧
      (∀ j, bl1.getD j [] = bl.getD j [] ++ (if j ∈ ns then [y] else [])) ∧
      (∀ j, bf1.getD j [] = bf.getD j [] ++ (if j ∈ ns then [fs] else [])) ∧
      (bl1.map List.length).sum = (bl.map List.length).sum + ns.length
  | [], bl, bf, _, _, _ => ⟨bl, bf, rfl, rfl, rfl, by simp, by simp, by simp⟩
  | n :: ns, bl, bf, hnd, hlt, hlen => by
    have hn : n < bl.length := hlt n (List.mem_cons_self _ _)
    have hn2 : n < bf.length := hlen ▸ hn
    obtain ⟨hnns, hnd1⟩ := List.nodup_cons.mp hnd
    obtain ⟨bl1, bf1, h, hl1, hl2, hg1, hg2, hs⟩ :=
      addExamples_spec y fs ns (List.modify (fun b => b ++ [y]) n bl)
        (List.modify (fun b => b ++ [fs]) n bf) hnd1
        (fun m hm => by
          rw [List.length_modify]
          exact hlt m (List.mem_cons_of_mem _ hm))
        (by simp [List.length_modify, hlen])
    refine ⟨bl1, bf1, ?_, ?_, ?_, ?_, ?_, ?_⟩
    · simp only [addExamples, pushBack_eq_some y hn, pushBack_eq_some fs hn2]
      exact h
    · rw [hl1, List.length_modify]
    · rw [hl2, List.length_modify]
    · intro j
      rw [hg1 j, modify_getD]
      by_cases hjn : j = n
      · subst hjn
        simp [hn, hnns]
      · simp [hjn]
    · intro j
      rw [hg2 j, modify_getD]
      by_cases hjn : j = n
      · subst hjn
        simp [hn2, hnns]
      · simp [hjn]
    · rw [hs, modify_sum_length y bl n hn, List.length_cons]
      omega

theorem insertAncestors_nodup {t : Tree} : ∀ {fuel n : Nat} {P P1 : List Nat},
    insertAncestors t fuel n P = some P1 → P.Nodup → P1.Nodup
  | 0, _, _, _, h, _ => by simp [insertAncestors] at h
  | fuel + 1, n, P, P1, h, hP => by
    simp only [insertAncestors] at h
    cases hp : t.parent n with
    | none =>
      simp only [hp] at h
      cases h
      exact hP
    | some p =>
      simp only [hp] at h
      exact insertAncestors_nodup h hP.insert

theorem positiveLoop_nodup {t : Tree} {fuel : Nat} : ∀ {rLabels : List Int} {P P1 : List Nat},
    positiveLoop t fuel rLabels P = some P1 → P.Nodup → P1.Nodup
  | [], P, P1, h, hP => by
    simp only [positiveLoop] at h
    cases h
    exact hP
  | l :: rest, P, P1, h, hP => by
    simp only [positiveLoop] at h
    cases hf : t.findLeaf l with
    | none =>
      simp only [hf] at h
      exact positiveLoop_nodup h hP
    | some n =>
      simp only [hf] at h
      cases hi : insertAncestors t fuel n (P.insert n) with
      | none => simp [hi] at h
      | some P2 =>
        simp only [hi] at h
        exact positiveLoop_nodup h (insertAncestors_nodup hi hP.insert)

theorem negativeLoop_inner_nodup (P : List Nat) : ∀ (cs acc : List Nat), acc.Nodup →
    (cs.foldl (fun acc1 child => if child ∈ P then acc1 else acc1.insert child) acc).Nodup
  | [], _, h => h
  | c :: cs, acc, h => by
    rw [List.foldl_cons]
    apply negativeLoop_inner_nodup P cs
    by_cases hc : c ∈ P
    · simpa [hc] using h
    · simpa [hc] using h.insert

theorem negativeLoop_outer_nodup (t : Tree) (P : List Nat) : ∀ (ps acc : List Nat), acc.Nodup →
    (ps.foldl (fun acc n => (t.children n).foldl
        (fun acc1 child => if child ∈ P then acc1 else acc1.insert child) acc) acc).Nodup
  | [], _, h => h
  | p :: ps, acc, h => by
    rw [List.foldl_cons]
    exact negativeLoop_outer_nodup t P ps _ (negativeLoop_inner_nodup P _ _ h)

/-- The two sets the router returns are duplicate free, disjoint and hold nodes
of the tree only. -/
theorem getNodesToUpdate_sets {t : Tree} (hwf : t.WF) {fuel : Nat}
    (hfuel : t.nodes.length ≤ fuel) (rLabels : List Int) :
    ∃ P N, getNodesToUpdate t fuel [] [] rLabels = some (P, N) ∧ P.Nodup ∧ N.Nodup ∧
      (∀ x ∈ N, x ∉ P) ∧ (∀ x ∈ P, x < t.nodes.length) ∧ (∀ x ∈ N, x < t.nodes.length) := by
  obtain ⟨P, hP⟩ := positiveLoop_isSome hwf hfuel rLabels []
  have hmem := mem_positiveLoop hP
  have hPlt : ∀ x ∈ P, x < t.nodes.length := fun x hx =>
    hwf.onLabelPath_lt (((hmem x).mp hx).resolve_left (List.not_mem_nil x))
  refine ⟨P, _, getNodesToUpdate_of_positiveLoop hP, positiveLoop_nodup hP List.nodup_nil,
    ?_, ?_, hPlt, ?_⟩
  · by_cases h : P = []
    · simp [h]
    · simp only [h, if_false]
      exact negativeLoop_outer_nodup t P P [] List.nodup_nil
  · intro x hx
    by_cases h : P = []
    · simp [h]
    · simp only [h, if_false, mem_negativeLoop] at hx
      exact (hx.resolve_left (List.not_mem_nil x)).1
  · intro x hx
    by_cases h : P = []
    · simp only [h, if_true, List.insert, List.elem_nil, List.mem_singleton] at hx
      rw [List.mem_singleton.mp hx]
      exact hwf.root_lt
    · simp only [h, if_false, mem_negativeLoop] at hx
      obtain ⟨_, p, hp, hc⟩ := hx.resolve_left (List.not_mem_nil x)
      exact (hwf.child_parent p (hPlt p hp) x hc).1

/-- What `addNodesLabelsAndFeatures` does to the two bin tables. -/
theorem addNodesLabelsAndFeatures_spec (fs : List Feature) (P N : List Nat)
    (bl : List (List ℚ)) (bf : List (List (List Feature)))
    (hP : P.Nodup) (hN : N.Nodup) (hdis : ∀ x ∈ N, x ∉ P)
    (hPlt : ∀ x ∈ P, x < bl.length) (hNlt : ∀ x ∈ N, x < bl.length)
    (hlen : bl.length = bf.length) :
    ∃ bl1 bf1, addNodesLabelsAndFeatures bl bf P N fs = some (bl1, bf1) ∧
      bl1.length = bl.length ∧ bf1.length = bf.length ∧
      (∀ j, bl1.getD j [] = bl.getD j [] ++
        (if j ∈ P then [1] else if j ∈ N then [0] else [])) ∧
      (∀ j, bf1.getD j [] = bf.getD j [] ++
        (if j ∈ P then [fs] else if j ∈ N then [fs] else [])) ∧
      (bl1.map List.length).sum = (bl.map List.length).sum + (P.length + N.length) := by
  obtain ⟨bl1, bf1, h1, hl1, hf1, hg1, hh1, hs1⟩ := addExamples_spec 1 fs P bl bf hP hPlt hlen
  obtain ⟨bl2, bf2, h2, hl2, hf2, hg2, hh2, hs2⟩ := addExamples_spec 0 fs N bl1 bf1 hN
    (fun n hn => hl1 ▸ hNlt n hn) (by rw [hl1, hf1, hlen])
  refine ⟨bl2, bf2, ?_, by rw [hl2, hl1], by rw [hf2, hf1], ?_, ?_, by rw [hs2, hs1]; omega⟩
  · simp only [addNodesLabelsAndFeatures, h1]
    exact h2
  · intro j
    rw [hg2 j, hg1 j]
    by_cases hjP : j ∈ P
    · have : j ∉ N := fun h => hdis j h hjP
      simp [hjP, this]
    · simp [hjP]
  · intro j
    rw [hh2 j, hh1 j]
    by_cases hjP : j ∈ P
    · have : j ∉ N := fun h => hdis j h hjP
      simp [hjP, this]
    · simp [hjP]

theorem rowExample_fst {t : Tree} {fuel : Nat} {rLabels : List Int} {P N : List Nat}
    (h : getNodesToUpdate t fuel [] [] rLabels = some (P, N)) (fs : List Feature) (j : Nat) :
    (if j ∈ P then [(1 : ℚ)] else if j ∈ N then [0] else []) =
      ((rowExample t fuel rLabels fs j).map Prod.fst).toList := by
  unfold rowExample
  rw [h]
  by_cases hP : j ∈ P
  · simp [hP]
  · by_cases hN : j ∈ N <;> simp [hP, hN]

theorem rowExample_snd {t : Tree} {fuel : Nat} {rLabels : List Int} {P N : List Nat}
    (h : getNodesToUpdate t fuel [] [] rLabels = some (P, N)) (fs : List Feature) (j : Nat) :
    (if j ∈ P then [fs] else if j ∈ N then [fs] else []) =
      ((rowExample t fuel rLabels fs j).map Prod.snd).toList := by
  unfold rowExample
  rw [h]
  by_cases hP : j ∈ P
  · simp [hP]
  · by_cases hN : j ∈ N <;> simp [hP, hN]

theorem assignRows_spec {t : Tree} (hwf : t.WF) {fuel : Nat} (hfuel : t.nodes.length ≤ fuel) :
    ∀ (labels : List (List Int)) (features : List (List Feature)) (a : Assignment),
    features.length ≤ labels.length → a.binLabels.length = t.nodes.length →
    a.binFeatures.length = t.nodes.length →
    ∃ a1, assignRows t fuel labels features a = some a1 ∧
      a1.binLabels.length = t.nodes.length ∧ a1.binFeatures.length = t.nodes.length ∧
      (∀ j, a1.binLabels.getD j [] =
        a.binLabels.getD j [] ++ (binExamples t fuel labels features j).map Prod.fst) ∧
      (∀ j, a1.binFeatures.getD j [] =
        a.binFeatures.getD j [] ++ (binExamples t fuel labels features j).map Prod.snd) ∧
      a1.nodeUpdateCount + (a.binLabels.map List.length).sum =
        a.nodeUpdateCount + (a1.binLabels.map List.length).sum ∧
      a1.dataPointCount = a.dataPointCount + features.length
  | labels, [], a, _, hl, hf => by
    refine ⟨a, ?_, hl, hf, ?_, ?_, rfl, rfl⟩
    · cases labels <;> rfl
    · simp [binExamples]
    · simp [binExamples]
  | [], _ :: _, _, h, _, _ => by simp at h
  | rLabels :: labels, rFeatures :: features, a, h, hl, hf => by
    obtain ⟨P, N, hPN, hP, hN, hdis, hPlt, hNlt⟩ := getNodesToUpdate_sets hwf hfuel rLabels
    obtain ⟨bl1, bf1, hadd, hl1, hf1, hg1, hh1, hs1⟩ :=
      addNodesLabelsAndFeatures_spec rFeatures P N a.binLabels a.binFeatures hP hN hdis
        (hl ▸ hPlt) (hl ▸ hNlt) (by rw [hl, hf])
    obtain ⟨a1, hrec, hl2, hf2, hg2, hh2, hs2, hd2⟩ :=
      assignRows_spec hwf hfuel labels features
        { binLabels := bl1
          binFeatures := bf1
          nodeUpdateCount := a.nodeUpdateCount + (P.length + N.length)
          dataPointCount := a.dataPointCount + 1 }
        (by simpa using h) (by rw [hl1, hl]) (by rw [hf1, hf])
    refine ⟨a1, ?_, hl2, hf2, ?_, ?_, ?_, ?_⟩
    · simp only [assignRows, hPN, hadd]
      exact hrec
    · intro j
      rw [hg2 j]
      simp only [hg1 j, rowExample_fst hPN rFeatures j, binExamples, List.zip_cons_cons,
        List.flatMap_cons, List.map_append, List.append_assoc]
      cases rowExample t fuel rLabels rFeatures j <;> simp
    · intro j
      rw [hh2 j]
      simp only [hh1 j, rowExample_snd hPN rFeatures j, binExamples, List.zip_cons_cons,
        List.flatMap_cons, List.map_append, List.append_assoc]
      cases rowExample t fuel rLabels rFeatures j <;> simp
    · simp only at hs2
      omega
    · simp only [List.length_cons] at hd2 ⊢
      omega

theorem zip_map_fst_map_snd {α β : Type} : ∀ (l : List (α × β)),
    List.zip (l.map Prod.fst) (l.map Prod.snd) = l
  | [] => rfl
  | x :: l => by
    simp only [List.map_cons, List.zip_cons_cons, zip_map_fst_map_snd l]

theorem getD_replicate_nil {α : Type} (k j : Nat) :
    (List.replicate k ([] : List α)).getD j [] = [] := by
  simp only [List.getD_eq_getElem?_getD, List.getElem?_replicate]
  split <;> rfl

/-- C7: for a tree with the tree invariants and a data set with a label row for
every feature row, `PLT::assignDataPoints` started with one empty bin per tree node
returns, and for every node `n`: `binLabels[n]` and `binFeatures[n]` have the same
length; paired up they are, in row order, one entry `(1.0, features[r])` for each
row `r` with `n` in its positive set, one entry `(0.0, features[r])` for each row
with `n` in its negative set and nothing for the other rows; and the number of
entries over all bins is the amount added to `nodeUpdateCount`. -/
theorem assignDataPoints_bins (t : Tree) (hwf : t.WF) (fuel : Nat)
    (hfuel : t.nodes.length ≤ fuel) (labels : List (List Int))
    (features : List (List Feature)) (hrows : features.length ≤ labels.length)
    (nodeUpdateCount dataPointCount : Nat) :
    ∃ a, assignDataPoints t fuel
        { binLabels := List.replicate t.nodes.length []
          binFeatures := List.replicate t.nodes.length []
          nodeUpdateCount := nodeUpdateCount
          dataPointCount := dataPointCount } labels features = some a ∧
      a.binLabels.length = t.nodes.length ∧ a.binFeatures.length = t.nodes.length ∧
      (∀ n, (a.binLabels.getD n []).length = (a.binFeatures.getD n []).length ∧
        List.zip (a.binLabels.getD n []) (a.binFeatures.getD n []) =
          (List.zip labels features).flatMap
            (fun row => (rowExample t fuel row.1 row.2 n).toList)) ∧
      a.nodeUpdateCount = nodeUpdateCount + (a.binLabels.map List.length).sum := by
  obtain ⟨a, h, hl, hf, hg, hh, hs, _⟩ := assignRows_spec hwf hfuel labels features
    { binLabels := List.replicate t.nodes.length []
      binFeatures := List.replicate t.nodes.length []
      nodeUpdateCount := nodeUpdateCount
      dataPointCount := dataPointCount } hrows (by simp) (by simp)
  refine ⟨a, h, hl, hf, fun n => ?_, ?_⟩
  · rw [hg n, hh n, getD_replicate_nil, getD_replicate_nil]
    simp only [List.nil_append, List.length_map, zip_map_fst_map_snd, true_and]
    rfl
  · have : ((List.replicate t.nodes.length ([] : List ℚ)).map List.length).sum = 0 := by
      simp
    simp only [this] at hs
    omega

theorem assignDataPoints_bins_witness :
    tree3.WF ∧ tree3.nodes.length ≤ 3 ∧
    [[(⟨1, 1⟩ : Feature)], [⟨2, 1⟩], []].length ≤ [[(5 : Int)], [6, 99], []].length ∧
    ∃ a, assignDataPoints tree3 3
        { binLabels := List.replicate tree3.nodes.length []
          binFeatures := List.replicate tree3.nodes.length []
          nodeUpdateCount := 0
          dataPointCount := 0 } [[5], [6, 99], []] [[⟨1, 1⟩], [⟨2, 1⟩], []] = some a ∧
      a.binLabels.length = tree3.nodes.length ∧ a.binFeatures.length = tree3.nodes.length ∧
      (∀ n, (a.binLabels.getD n []).length = (a.binFeatures.getD n []).length ∧
        List.zip (a.binLabels.getD n []) (a.binFeatures.getD n []) =
          (List.zip [[5], [6, 99], []] [[⟨1, 1⟩], [⟨2, 1⟩], []]).flatMap
            (fun row => (rowExample tree3 3 row.1 row.2 n).toList)) ∧
      a.nodeUpdateCount = 0 + (a.binLabels.map List.length).sum :=
  ⟨tree3_wf, by decide, by decide,
    assignDataPoints_bins tree3 tree3_wf 3 (by decide) [[5], [6, 99], []]
      [[⟨1, 1⟩], [⟨2, 1⟩], []] (by decide) 0 0⟩

/-! ## Calibrator: node thresholds and node weights -/

theorem foldl_min_le_init : ∀ (vs : List ℚ) (a : ℚ), vs.foldl min a ≤ a
  | [], _ => le_refl _
  | v :: vs, a => (foldl_min_le_init vs (min a v)).trans (min_le_left a v)

theorem foldl_min_le_mem : ∀ (vs : List ℚ) (a : ℚ), ∀ v ∈ vs, vs.foldl min a ≤ v
  | [], _, _, h => by simp at h
  | w :: vs, a, v, h => by
    rcases List.mem_cons.mp h with rfl | h
    · exact (foldl_min_le_init vs (min a v)).trans (min_le_right a v)
    · exact foldl_min_le_mem vs (min a w) v h

theorem foldl_max_ge_init : ∀ (vs : List ℚ) (a : ℚ), a ≤ vs.foldl max a
  | [], _ => le_refl _
  | v :: vs, a => (le_max_left a v).trans (foldl_max_ge_init vs (max a v))

theorem foldl_max_ge_mem : ∀ (vs : List ℚ) (a : ℚ), ∀ v ∈ vs, v ≤ vs.foldl max a
  | [], _, _, h => by simp at h
  | w :: vs, a, v, h => by
    rcases List.mem_cons.mp h with rfl | h
    · exact (le_max_right a v).trans (foldl_max_ge_init vs (max a v))
    · exact foldl_max_ge_mem vs (max a w) v h

/-- The result of the scan of `setNodeThreshold`: the running minimum, and a label
that produced it when the minimum went below the start value. -/
theorem scanThresholds_spec (thresholds : List ℚ) : ∀ (labels : List Int) (nTh : TreeNodeThrExt),
    (∀ l ∈ labels, (vectorAt thresholds l).isSome) →
    ∃ r, scanThresholds thresholds labels nTh = some r ∧
      r.th = (labels.filterMap (vectorAt thresholds)).foldl min nTh.th ∧
      ((r.th = nTh.th ∧ r.label = nTh.label) ∨
        (r.th < nTh.th ∧ r.label ∈ labels ∧ vectorAt thresholds r.label = some r.th))
  | [], nTh, _ => ⟨nTh, rfl, rfl, Or.inl ⟨rfl, rfl⟩⟩
  | l :: rest, nTh, h => by
    obtain ⟨v, hv⟩ := Option.isSome_iff_exists.mp (h l (List.mem_cons_self _ _))
    have hrest : ∀ l1 ∈ rest, (vectorAt thresholds l1).isSome :=
      fun l1 h1 => h l1 (List.mem_cons_of_mem _ h1)
    simp only [scanThresholds, hv, List.filterMap_cons, List.foldl_cons]
    by_cases hlt : v < nTh.th
    · obtain ⟨r, hr, hth, hsrc⟩ := scanThresholds_spec thresholds rest ⟨v, l⟩ hrest
      refine ⟨r, by simp only [hlt, if_true, hr], ?_, Or.inr ?_⟩
      · rw [hth, min_eq_right (le_of_lt hlt)]
      · rcases hsrc with ⟨h1, h2⟩ | ⟨h1, h2, h3⟩
        · simp only at h1 h2
          exact ⟨h1 ▸ hlt, h2 ▸ List.mem_cons_self _ _, by rw [h2, h1]; exact hv⟩
        · simp only at h1
          exact ⟨h1.trans hlt, List.mem_cons_of_mem _ h2, h3⟩
    · obtain ⟨r, hr, hth, hsrc⟩ := scanThresholds_spec thresholds rest nTh hrest
      refine ⟨r, by simp only [hlt, if_false, hr], ?_, ?_⟩
      · rw [hth, min_eq_left (not_lt.mp hlt)]
      · rcases hsrc with h1 | ⟨h1, h2, h3⟩
        · exact Or.inl h1
        · exact Or.inr ⟨h1, List.mem_cons_of_mem _ h2, h3⟩

/-- The result of the scan of `setNodeWeight`: the running maximum, and a label
that produced it when the maximum went above the start value. -/
theorem scanWeights_spec (weights : List ℚ) : ∀ (labels : List Int) (nW : TreeNodeWeightsExt),
    (∀ l ∈ labels, (vectorAt weights l).isSome) →
    ∃ r, scanWeights weights labels nW = some r ∧
      r.weight = (labels.filterMap (vectorAt weights)).foldl max nW.weight ∧
      ((r.weight = nW.weight ∧ r.label = nW.label) ∨
        (nW.weight < r.weight ∧ r.label ∈ labels ∧ vectorAt weights r.label = some r.weight))
  | [], nW, _ => ⟨nW, rfl, rfl, Or.inl ⟨rfl, rfl⟩⟩
  | l :: rest, nW, h => by
    obtain ⟨v, hv⟩ := Option.isSome_iff_exists.mp (h l (List.mem_cons_self _ _))
    have hrest : ∀ l1 ∈ rest, (vectorAt weights l1).isSome :=
      fun l1 h1 => h l1 (List.mem_cons_of_mem _ h1)
    simp only [scanWeights, hv, List.filterMap_cons, List.foldl_cons]
    by_cases hlt : v > nW.weight
    · obtain ⟨r, hr, hth, hsrc⟩ := scanWeights_spec weights rest ⟨v, l⟩ hrest
      refine ⟨r, by simp only [hlt, if_true, hr], ?_, Or.inr ?_⟩
      · rw [hth, max_eq_right (le_of_lt hlt)]
      · rcases hsrc with ⟨h1, h2⟩ | ⟨h1, h2, h3⟩
        · simp only at h1 h2
          exact ⟨h1 ▸ hlt, h2 ▸ List.mem_cons_self _ _, by rw [h2, h1]; exact hv⟩
        · simp only at h1
          exact ⟨lt_trans hlt h1, List.mem_cons_of_mem _ h2, h3⟩
    · obtain ⟨r, hr, hth, hsrc⟩ := scanWeights_spec weights rest nW hrest
      refine ⟨r, by simp only [hlt, if_false, hr], ?_, ?_⟩
      · rw [hth, max_eq_left (not_lt.mp hlt)]
      · rcases hsrc with h1 | ⟨h1, h2, h3⟩
        · exact Or.inl h1
        · exact Or.inr ⟨h1, List.mem_cons_of_mem _ h2, h3⟩

/-- C9: when `n` is an index of `nodesThr` and `nodesLabels` and every label of
`nodesLabels[n]` is an index of `thresholds`, `PLT::setNodeThreshold(n)` returns
and `nodesThr[n].th` is afterwards the minimum of `1.0` and the thresholds of the
labels in `nodesLabels[n]`: it is at most `1`, at most the threshold of each such
label, and it is `1` or the threshold of one of them; so it is `1` when none of
these thresholds is below `1`. -/
theorem setNodeThreshold_min (s : PLT) (n : Nat) (nTh : TreeNodeThrExt) (labels : List Int)
    (hThr : s.nodesThr[n]? = some nTh) (hLabels : s.nodesLabels[n]? = some labels)
    (hRange : ∀ l ∈ labels, (vectorAt s.thresholds l).isSome) :
    ∃ s1 nTh1, setNodeThreshold s n = some s1 ∧ s1.nodesThr[n]? = some nTh1 ∧
      nTh1.th = (labels.filterMap (vectorAt s.thresholds)).foldl min 1 ∧
      nTh1.th ≤ 1 ∧
      (∀ l ∈ labels, ∀ v, vectorAt s.thresholds l = some v → nTh1.th ≤ v) ∧
      (nTh1.th = 1 ∨ ∃ l ∈ labels, vectorAt s.thresholds l = some nTh1.th) ∧
      ((∀ l ∈ labels, ∀ v, vectorAt s.thresholds l = some v → 1 ≤ v) → nTh1.th = 1) := by
  obtain ⟨r, hr, hth, hsrc⟩ := scanThresholds_spec s.thresholds labels { nTh with th := 1 } hRange
  have hn : n < s.nodesThr.length := by
    by_contra hcon
    rw [List.getElem?_eq_none (by omega)] at hThr
    cases hThr
  have hle : ∀ l ∈ labels, ∀ v, vectorAt s.thresholds l = some v → r.th ≤ v := by
    intro l hl v hv
    rw [hth]
    exact foldl_min_le_mem _ _ v (List.mem_filterMap.mpr ⟨l, hl, hv⟩)
  have hone : r.th = 1 ∨ ∃ l ∈ labels, vectorAt s.thresholds l = some r.th := by
    rcases hsrc with ⟨h1, _⟩ | ⟨_, h2, h3⟩
    · exact Or.inl h1
    · exact Or.inr ⟨r.label, h2, h3⟩
  refine ⟨{ s with nodesThr := s.nodesThr.set n r }, r, ?_, ?_, hth, ?_, hle, hone, ?_⟩
  · simp only [setNodeThreshold, hThr, hLabels, hr]
  · simp [List.getElem?_set, hn]
  · rw [hth]
    exact foldl_min_le_init _ _
  · intro hall
    rcases hone with h1 | ⟨l, hl, hv⟩
    · exact h1
    · exact le_antisymm (by rw [hth]; exact foldl_min_le_init _ _) (hall l hl _ hv)

/-- C10: when `n` is an index of `nodesWeights` and `nodesLabels` and every label
of `nodesLabels[n]` is an index of `labelsWeights`, `PLT::setNodeWeight(n)` returns
and `nodesWeights[n].weight` is afterwards the maximum of `0` and the weights of
the labels in `nodesLabels[n]`; when it is positive, `nodesWeights[n].label` is one
of these labels and its weight is that maximum. -/
theorem setNodeWeight_max (s : PLT) (n : Nat) (nW : TreeNodeWeightsExt) (labels : List Int)
    (hW : s.nodesWeights[n]? = some nW) (hLabels : s.nodesLabels[n]? = some labels)
    (hRange : ∀ l ∈ labels, (vectorAt s.labelsWeights l).isSome) :
    ∃ s1 nW1, setNodeWeight s n = some s1 ∧ s1.nodesWeights[n]? = some nW1 ∧
      nW1.weight = (labels.filterMap (vectorAt s.labelsWeights)).foldl max 0 ∧
      0 ≤ nW1.weight ∧
      (∀ l ∈ labels, ∀ v, vectorAt s.labelsWeights l = some v → v ≤ nW1.weight) ∧
      (nW1.weight = 0 ∨ ∃ l ∈ labels, vectorAt s.labelsWeights l = some nW1.weight) ∧
      (0 < nW1.weight →
        nW1.label ∈ labels ∧ vectorAt s.labelsWeights nW1.label = some nW1.weight) := by
  obtain ⟨r, hr, hth, hsrc⟩ := scanWeights_spec s.labelsWeights labels { nW with weight := 0 }
    hRange
  have hn : n < s.nodesWeights.length := by
    by_contra hcon
    rw [List.getElem?_eq_none (by omega)] at hW
    cases hW
  have hpos : 0 < r.weight → r.label ∈ labels ∧ vectorAt s.labelsWeights r.label = some r.weight := by
    intro h0
    rcases hsrc with ⟨h1, _⟩ | ⟨_, h2, h3⟩
    · simp only at h1
      rw [h1] at h0
      exact absurd h0 (lt_irrefl _)
    · exact ⟨h2, h3⟩
  refine ⟨{ s with nodesWeights := s.nodesWeights.set n r }, r, ?_, ?_, hth, ?_, ?_, ?_, hpos⟩
  · simp only [setNodeWeight, hW, hLabels, hr]
  · simp [List.getElem?_set, hn]
  · rw [hth]
    exact foldl_max_ge_init _ _
  · intro l hl v hv
    rw [hth]
    exact foldl_max_ge_mem _ _ v (List.mem_filterMap.mpr ⟨l, hl, hv⟩)
  · rcases hsrc with ⟨h1, _⟩ | ⟨_, h2, h3⟩
    · exact Or.inl h1
    · exact Or.inr ⟨r.label, h2, h3⟩

theorem setNodeThreshold_min_witness :
    plt7Calibrated.nodesThr[1]? = some { th := 0, label := 0 } ∧
    plt7Calibrated.nodesLabels[1]? = some [0, 1] ∧
    (∀ l ∈ [(0 : Int), 1], (vectorAt plt7Calibrated.thresholds l).isSome) ∧
    (∃ s1 nTh1, setNodeThreshold plt7Calibrated 1 = some s1 ∧ s1.nodesThr[1]? = some nTh1 ∧
      nTh1.th = ([(0 : Int), 1].filterMap (vectorAt plt7Calibrated.thresholds)).foldl min 1 ∧
      nTh1.th ≤ 1 ∧
      (∀ l ∈ [(0 : Int), 1], ∀ v, vectorAt plt7Calibrated.thresholds l = some v → nTh1.th ≤ v) ∧
      (nTh1.th = 1 ∨ ∃ l ∈ [(0 : Int), 1], vectorAt plt7Calibrated.thresholds l = some nTh1.th) ∧
      ((∀ l ∈ [(0 : Int), 1], ∀ v, vectorAt plt7Calibrated.thresholds l = some v → 1 ≤ v) →
        nTh1.th = 1)) ∧
    (setNodeThreshold plt7Calibrated 1).map (fun s => s.nodesThr[1]?) =
      some (some { th := 1 / 5, label := 1 }) ∧
    (setNodeThreshold plt7Calibrated 0).map (fun s => s.nodesThr[0]?) =
      some (some { th := 1 / 10, label := 3 }) :=
  ⟨rfl, rfl, by decide,
    setNodeThreshold_min plt7Calibrated 1 { th := 0, label := 0 } [0, 1] rfl rfl (by decide),
    by decide!, by decide!⟩

theorem setNodeWeight_max_witness :
    plt7Calibrated.nodesWeights[1]? = some { weight := 0, label := 0 } ∧
    plt7Calibrated.nodesLabels[1]? = some [0, 1] ∧
    (∀ l ∈ [(0 : Int), 1], (vectorAt plt7Calibrated.labelsWeights l).isSome) ∧
    (∃ s1 nW1, setNodeWeight plt7Calibrated 1 = some s1 ∧ s1.nodesWeights[1]? = some nW1 ∧
      nW1.weight = ([(0 : Int), 1].filterMap (vectorAt plt7Calibrated.labelsWeights)).foldl max 0 ∧
      0 ≤ nW1.weight ∧
      (∀ l ∈ [(0 : Int), 1], ∀ v,
        vectorAt plt7Calibrated.labelsWeights l = some v → v ≤ nW1.weight) ∧
      (nW1.weight = 0 ∨
        ∃ l ∈ [(0 : Int), 1], vectorAt plt7Calibrated.labelsWeights l = some nW1.weight) ∧
      (0 < nW1.weight → nW1.label ∈ [(0 : Int), 1] ∧
        vectorAt plt7Calibrated.labelsWeights nW1.label = some nW1.weight)) ∧
    (setNodeWeight plt7Calibrated 1).map (fun s => s.nodesWeights[1]?) =
      some (some { weight := 3, label := 1 }) :=
  ⟨rfl, rfl, by decide,
    setNodeWeight_max plt7Calibrated 1 { weight := 0, label := 0 } [0, 1] rfl rfl (by decide),
    by decide!⟩

/-- C2 (failing input): on the tree of seven nodes with thresholds
`[0.5, 0.2, 0.8, 0.1]`, `setThresholds` gives node `1` (covering labels `0` and `1`)
the threshold `0.2` from label `1`; after `updateThresholds` with label `1` set to
`0.9` node `1` still has `0.2` from label `1`, whereas `setThresholds` on
`[0.5, 0.9, 0.8, 0.1]` gives it `0.5` from label `0`. -/
theorem updateThresholds_stale_ancestor :
    (setThresholds plt7 7 [1 / 2, 1 / 5, 4 / 5, 1 / 10]).map (fun s => s.nodesThr[1]?) =
      some (some { th := 1 / 5, label := 1 }) ∧
    ((setThresholds plt7 7 [1 / 2, 1 / 5, 4 / 5, 1 / 10]).bind
        (fun s => updateThresholds s 7 [(1, 9 / 10)])).map (fun s => s.nodesThr[1]?) =
      some (some { th := 1 / 5, label := 1 }) ∧
    (setThresholds plt7 7 [1 / 2, 9 / 10, 4 / 5, 1 / 10]).map (fun s => s.nodesThr[1]?) =
      some (some { th := 1 / 2, label := 0 }) ∧
    ((setThresholds plt7 7 [1 / 2, 1 / 5, 4 / 5, 1 / 10]).bind
        (fun s => updateThresholds s 7 [(1, 9 / 10)])).map (fun s => s.thresholds) =
      some [1 / 2, 9 / 10, 4 / 5, 1 / 10] := by
  decide!

/-- C8 (failing input): for the tree of three nodes, with `m` the number of its
leaves, and the one row with label `5`, `PLT::getNodesUpdates` writes
`nodesDataPoints[2]` in a table of `m = 2` lists, while the row-major result has
an entry for node `2`. -/
theorem getNodesUpdates_out_of_range :
    plt3.m = tree3.leaves.length ∧
    getNodesUpdates plt3 3 [[5]] = .error .outOfRange ∧
    getNodesToUpdateRows plt3 3 [[5]] = .ok [[(0, 1), (1, 1), (2, 0)]] :=
  ⟨rfl, rfl, rfl⟩



/-! ## Searchers: levels and closures of queue entries -/

section Closure

variable (t : Tree) (bases : Nat → List Feature → ℚ) (s : PLT) (x : List Feature)

theorem level_nil : ∀ d, level t bases s x d [] = []
  | 0 => rfl
  | d + 1 => by simp [level, level_nil d]

theorem leafPredictions_perm {F G : List TreeNodeValue} (h : F.Perm G) :
    (leafPredictions t F).Perm (leafPredictions t G) :=
  (h.filter _).map _

end Closure

/-! ## The levels of a tree -/

section Levels

variable {t : Tree}

theorem nodeLevel_nil : ∀ d, nodeLevel t d [] = []
  | 0 => rfl
  | d + 1 => by simp [nodeLevel, nodeLevel_nil d]

theorem nodeLevel_succ_eq : ∀ (d : Nat) (Q : List Nat),
    nodeLevel t (d + 1) Q = (nodeLevel t d Q).flatMap t.children
  | 0, _ => rfl
  | d + 1, Q => by
    rw [nodeLevel, nodeLevel_succ_eq d]
    rfl

theorem parentIter_succ_eq : ∀ (k n : Nat),
    t.parentIter (k + 1) n = (t.parentIter k n).bind t.parent
  | 0, n => by
    simp only [parentIter, Option.some_bind]
    cases t.parent n <;> rfl
  | k + 1, n => by
    rw [parentIter]
    cases hp : t.parent n with
    | none => simp [parentIter, hp]
    | some p =>
      simp only [Option.some_bind]
      rw [parentIter_succ_eq k p]
      simp [parentIter, hp]

/-- A node `d` levels below the nodes of `Q` is a node of the tree and has a node
of `Q` as its `d`-th ancestor. -/
theorem Tree.WF.mem_nodeLevel (hwf : t.WF) {Q : List Nat} (hQ : ∀ n ∈ Q, n < t.nodes.length) :
    ∀ (d : Nat) {x : Nat}, x ∈ nodeLevel t d Q →
      x < t.nodes.length ∧ ∃ n ∈ Q, t.parentIter d x = some n
  | 0, x, h => ⟨hQ x h, x, h, rfl⟩
  | d + 1, x, h => by
    rw [nodeLevel_succ_eq, List.mem_flatMap] at h
    obtain ⟨y, hy, hxy⟩ := h
    obtain ⟨hylt, n, hn, hpn⟩ := hwf.mem_nodeLevel hQ d hy
    obtain ⟨hxlt, hpx⟩ := hwf.child_parent y hylt x hxy
    exact ⟨hxlt, n, hn, by simp [parentIter, hpx, hpn]⟩

/-- No node lies as many levels below a node as the tree has nodes. -/
theorem Tree.WF.nodeLevel_length_eq_nil (hwf : t.WF) {Q : List Nat}
    (hQ : ∀ n ∈ Q, n < t.nodes.length) : nodeLevel t t.nodes.length Q = [] := by
  apply List.eq_nil_iff_forall_not_mem.mpr
  intro x hx
  obtain ⟨hxlt, n, _, hpn⟩ := hwf.mem_nodeLevel hQ _ hx
  rw [hwf.acyclic x hxlt] at hpn
  cases hpn

theorem Tree.WF.children_nodup (hwf : t.WF) (n : Nat) : (t.children n).Nodup := by
  rw [List.nodup_iff_count_le_one]
  intro c
  by_cases hc : c ∈ t.children n
  · have hn := children_lt hc
    obtain ⟨hclt, hpc⟩ := hwf.child_parent n hn c hc
    have hne : c ≠ t.root := by
      rintro rfl
      rw [hwf.root_parent] at hpc
      cases hpc
    obtain ⟨p, hp, _, hcount⟩ := hwf.parent_of_ne_root c hclt hne
    rw [hpc] at hp
    cases hp
    omega
  · rw [List.count_eq_zero_of_not_mem hc]
    omega

theorem Tree.WF.children_disjoint (hwf : t.WF) {a b : Nat} (hab : a ≠ b) :
    List.Disjoint (t.children a) (t.children b) := by
  intro c hca hcb
  have h1 := (hwf.child_parent a (children_lt hca) c hca).2
  have h2 := (hwf.child_parent b (children_lt hcb) c hcb).2
  rw [h1] at h2
  exact hab (Option.some.inj h2)

theorem Tree.WF.flatMap_children_nodup (hwf : t.WF) {Q : List Nat} (hQ : Q.Nodup) :
    (Q.flatMap t.children).Nodup := by
  rw [List.nodup_flatMap]
  refine ⟨fun n _ => hwf.children_nodup n, ?_⟩
  exact List.Pairwise.imp (fun hab => hwf.children_disjoint hab) hQ

/-- Every level of the tree is duplicate free. -/
theorem Tree.WF.nodeLevel_nodup (hwf : t.WF) : ∀ (d : Nat) {Q : List Nat}, Q.Nodup →
    (nodeLevel t d Q).Nodup
  | 0, _, h => h
  | d + 1, _, h => by
    rw [nodeLevel]
    exact hwf.nodeLevel_nodup d (hwf.flatMap_children_nodup h)

theorem Tree.WF.root_valid (hwf : t.WF) : ∀ n ∈ [t.root], n < t.nodes.length := by
  intro n hn
  rw [List.mem_singleton.mp hn]
  exact hwf.root_lt

/-- Two different levels below the root share no node. -/
theorem Tree.WF.nodeLevel_disjoint (hwf : t.WF) {d e : Nat} (hde : d ≠ e) :
    List.Disjoint (nodeLevel t d [t.root]) (nodeLevel t e [t.root]) := by
  have key : ∀ {a b : Nat}, a < b → ∀ x, x ∈ nodeLevel t a [t.root] →
      x ∈ nodeLevel t b [t.root] → False := by
    intro a b hab x hxa hxb
    obtain ⟨_, n, hn, hpa⟩ := hwf.mem_nodeLevel hwf.root_valid a hxa
    obtain ⟨_, m, hm, hpb⟩ := hwf.mem_nodeLevel hwf.root_valid b hxb
    rw [List.mem_singleton.mp hn] at hpa
    have h1 : t.parentIter (a + 1) x = none := by
      rw [parentIter_succ_eq, hpa]
      exact hwf.root_parent
    rw [parentIter_none_of_le h1 (by omega)] at hpb
    cases hpb
  intro x hxd hxe
  rcases Nat.lt_or_gt_of_ne hde with h | h
  · exact key h x hxd hxe
  · exact key h x hxe hxd

end Levels

/-! ## Counting the internal nodes of a level -/

section Counting

variable {t : Tree}

end Counting

/-! ## Closures of queue entries in a tree -/

section EntryLevels

variable {t : Tree} {bases : Nat → List Feature → ℚ} {s : PLT} {x : List Feature}

theorem expand_map_node (e : TreeNodeValue) :
    (expand t bases s x e).map TreeNodeValue.node = t.children e.node := by
  simp only [expand, List.map_map]
  exact List.map_id _

theorem flatMap_map_succ {α : Type} (f : Nat → List α) : ∀ (l : List Nat),
    (l.map Nat.succ).flatMap f = l.flatMap (fun j => f (j + 1))
  | [] => rfl
  | a :: l => by
    simp only [List.map_cons, List.flatMap_cons, flatMap_map_succ f l]

end EntryLevels

/-! ## Exact search without thresholds -/

section Exact

variable {Q : Type} {Qi : TopKQueue Q} {Holds : Q → List TreeNodeValue → Prop}
variable {t : Tree} {bases : Nat → List Feature → ℚ} {s : PLT} {args : Args}
variable {x : List Feature}

theorem expand_good (hwf : t.WF) (hb : ProbabilityTable bases x) (hW : WeightsMonotone t s)
    {e : TreeNodeValue} (he : GoodEntry t s e) :
    ∀ e1 ∈ expand t bases s x e, GoodEntry t s e1 ∧ e1.value ≤ e.value := by
  intro e1 he1
  obtain ⟨c, hc, rfl⟩ := List.mem_map.mp he1
  obtain ⟨hn, hp, hv⟩ := he
  obtain ⟨hb0, hb1⟩ := hb c
  have hprob : 0 ≤ e.prob * bases c x := mul_nonneg hp hb0
  have hle : e.prob * bases c x ≤ e.prob := mul_le_of_le_one_right hp hb1
  refine ⟨⟨(hwf.child_parent e.node hn c hc).1, hprob, rfl⟩, ?_⟩
  rw [hv]
  simp only [childEntry, calculateValue]
  by_cases hlw : s.labelsWeights = []
  · simp only [hlw, ne_eq, not_true_eq_false, if_false]
    exact hle
  · simp only [hlw, ne_eq, not_false_eq_true, if_true]
    rcases hW with h | h
    · exact absurd h hlw
    · obtain ⟨h0, h1⟩ := h e.node c hc
      exact mul_le_mul hle h1 h0 hp

theorem rootEntry_good (hwf : t.WF) (hb : ProbabilityTable bases x) :
    ∀ e ∈ [rootEntry t bases s x], GoodEntry t s e := by
  intro e he
  rw [List.mem_singleton.mp he]
  exact ⟨hwf.root_lt, (hb t.root).1, rfl⟩

end Exact

/-! ## Beam search on a batch of one row: one level -/

section Beam

variable {t : Tree} {bases : Nat → List Feature → ℚ} {s : PLT} {args : Args}
variable {x : List Feature}

end Beam

/-! ## Beam search on a batch of one row: pruning and scheduling -/

section Beam2

variable {t : Tree} {bases : Nat → List Feature → ℚ} {s : PLT} {args : Args}
variable {x : List Feature}

theorem sortDescending_perm {α : Type} (key : α → ℚ) (v : List α) :
    (sortDescending key v).Perm v :=
  List.perm_insertionSort _ v

theorem sortDescending_sorted {α : Type} (key : α → ℚ) (v : List α) :
    (sortDescending key v).Sorted (fun a b => key a ≥ key b) := by
  have : IsTotal α (fun a b => key a ≥ key b) := ⟨fun a b => le_total (key b) (key a)⟩
  have : IsTrans α (fun a b => key a ≥ key b) :=
    ⟨fun a b c hab hbc => le_trans hbc hab⟩
  exact List.sorted_insertionSort _ v

end Beam2

/-! ## Beam search on a batch of one row: the level loop -/

section Beam3

variable {t : Tree} {bases : Nat → List Feature → ℚ} {s : PLT} {args : Args}
variable {x : List Feature}

end Beam3

/-! ## Beam search and exact search return the same ranking -/

section Final

variable {t : Tree} {bases : Nat → List Feature → ℚ} {s : PLT} {args : Args}
variable {x : List Feature}

end Final

theorem maxEntry_spec : ∀ (l : List TreeNodeValue), l ≠ [] →
    ∃ e, maxEntry l = some e ∧ e ∈ l ∧ ∀ y ∈ l, y.value ≤ e.value
  | [], h => absurd rfl h
  | a :: l, _ => by
    by_cases hl : l = []
    · subst hl
      exact ⟨a, rfl, List.mem_singleton.mpr rfl, fun y hy => by
        rw [List.mem_singleton.mp hy]⟩
    · obtain ⟨e, he, hmem, hmax⟩ := maxEntry_spec l hl
      by_cases hlt : a.value < e.value
      · refine ⟨e, by simp [maxEntry, he, hlt], List.mem_cons_of_mem _ hmem, ?_⟩
        intro y hy
        rcases List.mem_cons.mp hy with rfl | hy
        · exact le_of_lt hlt
        · exact hmax y hy
      · refine ⟨a, by simp [maxEntry, he, hlt], List.mem_cons_self _ _, ?_⟩
        intro y hy
        rcases List.mem_cons.mp hy with rfl | hy
        · exact le_refl _
        · exact (hmax y hy).trans (not_lt.mp hlt)

/-- The label cache of `plt7Calibrated` is the one `calculateNodesLabels` builds
for `tree7`, and its node tables have the size `setThresholds` and
`setLabelsWeights` give them. -/
theorem plt7Calibrated_cache :
    (calculateNodesLabels tree7 7 plt7).map (fun s => s.nodesLabels) =
      some plt7Calibrated.nodesLabels ∧
    plt7Calibrated.nodesThr.length = tree7.t ∧
    plt7Calibrated.nodesWeights.length = tree7.t := by
  decide

/-! ## Calibrator: the source label of a node threshold -/

/-- The scan of `setNodeThreshold` keeps the first label that reaches the
minimum: either no threshold is below the start value and the entry is unchanged,
or the result is below the start value and its label is the first label of the
scan with that threshold. -/
theorem scanThresholds_first (thresholds : List ℚ) :
    ∀ (labels : List Int) (nTh r : TreeNodeThrExt),
    scanThresholds thresholds labels nTh = some r →
    (r = nTh ∧ ∀ l ∈ labels, ∀ v, vectorAt thresholds l = some v → nTh.th ≤ v) ∨
      (r.th < nTh.th ∧ firstAttaining thresholds labels r.th = some r.label)
  | [], nTh, r, h => by
    simp only [scanThresholds, Option.some.injEq] at h
    exact Or.inl ⟨h.symm, by simp⟩
  | l :: rest, nTh, r, h => by
    simp only [scanThresholds] at h
    cases hv : vectorAt thresholds l with
    | none => simp [hv] at h
    | some v =>
      simp only [hv] at h
      by_cases hlt : v < nTh.th
      · simp only [hlt, if_true] at h
        right
        rcases scanThresholds_first thresholds rest _ r h with ⟨h1, _⟩ | ⟨h1, h2⟩
        · subst h1
          exact ⟨hlt, by simp [firstAttaining, List.filter_cons, hv]⟩
        · simp only at h1
          refine ⟨h1.trans hlt, ?_⟩
          have hne : ¬ v = r.th := fun h3 => absurd h1 (by rw [h3]; exact lt_irrefl _)
          simpa [firstAttaining, List.filter_cons, hv, hne] using h2
      · simp only [hlt, if_false] at h
        rcases scanThresholds_first thresholds rest _ r h with ⟨h1, h2⟩ | ⟨h1, h2⟩
        · left
          refine ⟨h1, ?_⟩
          intro l1 hl1 v1 hv1
          rcases List.mem_cons.mp hl1 with rfl | hl1
          · rw [hv] at hv1
            cases hv1
            exact not_lt.mp hlt
          · exact h2 l1 hl1 v1 hv1
        · right
          refine ⟨h1, ?_⟩
          have hne : ¬ v = r.th := fun h3 => hlt (h3 ▸ h1)
          simpa [firstAttaining, List.filter_cons, hv, hne] using h2

/-- C11 (counterexample): the labels `0` and `1` of node `0` share the minimal
threshold `0.2` and label `1` is scanned last, but `setNodeThreshold` records
label `0`: the recorded label is not the last label of the scan with the minimum. -/
theorem setNodeThreshold_tie_not_last :
    ∃ nTh1, (setNodeThreshold pltTie 0).bind (fun s => s.nodesThr[0]?) = some nTh1 ∧
      nTh1 = { th := 1 / 5, label := 0 } ∧
      lastAttaining pltTie.thresholds [0, 1] nTh1.th = some 1 ∧
      lastAttaining pltTie.thresholds [0, 1] nTh1.th ≠ some nTh1.label :=
  ⟨{ th := 1 / 5, label := 0 }, by decide!, rfl, by decide!, by decide!⟩

/-- C11 (amended): for a node `n` with a label in `nodesLabels[n]` whose threshold
is below `1.0`, after `PLT::setNodeThreshold(n)` the recorded `nodesThr[n].label`
is a label of `nodesLabels[n]` whose threshold is the minimum `nodesThr[n].th`,
and among the labels that share this minimum it is the one scanned first in
`nodesLabels[n]` (the comparison is strict, so a later equal value does not
replace it). -/
theorem setNodeThreshold_source_first (s : PLT) (n : Nat) (nTh : TreeNodeThrExt)
    (labels : List Int) (hThr : s.nodesThr[n]? = some nTh)
    (hLabels : s.nodesLabels[n]? = some labels)
    (hRange : ∀ l ∈ labels, (vectorAt s.thresholds l).isSome)
    (hBelow : ∃ l ∈ labels, ∃ v, vectorAt s.thresholds l = some v ∧ v < 1) :
    ∃ s1 nTh1, setNodeThreshold s n = some s1 ∧ s1.nodesThr[n]? = some nTh1 ∧
      nTh1.label ∈ labels ∧ vectorAt s.thresholds nTh1.label = some nTh1.th ∧
      (∀ l ∈ labels, ∀ v, vectorAt s.thresholds l = some v → nTh1.th ≤ v) ∧
      firstAttaining s.thresholds labels nTh1.th = some nTh1.label := by
  obtain ⟨r, hr, hth, hsrc⟩ := scanThresholds_spec s.thresholds labels { nTh with th := 1 } hRange
  have hn : n < s.nodesThr.length := by
    by_contra hcon
    rw [List.getElem?_eq_none (by omega)] at hThr
    cases hThr
  have hle : ∀ l ∈ labels, ∀ v, vectorAt s.thresholds l = some v → r.th ≤ v := by
    intro l hl v hv
    rw [hth]
    exact foldl_min_le_mem _ _ v (List.mem_filterMap.mpr ⟨l, hl, hv⟩)
  obtain ⟨l0, hl0, v0, hv0, hlt0⟩ := hBelow
  have hrlt : r.th < 1 := lt_of_le_of_lt (hle l0 hl0 v0 hv0) hlt0
  have hmem : r.label ∈ labels ∧ vectorAt s.thresholds r.label = some r.th := by
    rcases hsrc with ⟨h1, _⟩ | ⟨_, h2, h3⟩
    · simp only at h1
      rw [h1] at hrlt
      exact absurd hrlt (lt_irrefl _)
    · exact ⟨h2, h3⟩
  have hfirst : firstAttaining s.thresholds labels r.th = some r.label := by
    rcases scanThresholds_first s.thresholds labels _ r hr with ⟨h1, _⟩ | ⟨_, h2⟩
    · rw [h1] at hrlt
      exact absurd hrlt (lt_irrefl _)
    · exact h2
  refine ⟨{ s with nodesThr := s.nodesThr.set n r }, r, ?_, ?_, hmem.1, hmem.2, hle, hfirst⟩
  · simp only [setNodeThreshold, hThr, hLabels, hr]
  · simp [List.getElem?_set, hn]

theorem setNodeThreshold_source_first_witness :
    pltTie.nodesThr[0]? = some { th := 0, label := 0 } ∧
    pltTie.nodesLabels[0]? = some [0, 1] ∧
    (∀ l ∈ [(0 : Int), 1], (vectorAt pltTie.thresholds l).isSome) ∧
    (∃ l ∈ [(0 : Int), 1], ∃ v, vectorAt pltTie.thresholds l = some v ∧ v < 1) ∧
    ∃ s1 nTh1, setNodeThreshold pltTie 0 = some s1 ∧ s1.nodesThr[0]? = some nTh1 ∧
      nTh1.label ∈ [(0 : Int), 1] ∧ vectorAt pltTie.thresholds nTh1.label = some nTh1.th ∧
      (∀ l ∈ [(0 : Int), 1], ∀ v, vectorAt pltTie.thresholds l = some v → nTh1.th ≤ v) ∧
      firstAttaining pltTie.thresholds [0, 1] nTh1.th = some nTh1.label :=
  ⟨rfl, rfl, by decide, ⟨0, by decide, 1 / 5, by decide!, by decide!⟩,
    setNodeThreshold_source_first pltTie 0 { th := 0, label := 0 } [0, 1] rfl rfl (by decide)
      ⟨0, by decide, 1 / 5, by decide!, by decide!⟩⟩

/-! ## Beam search: pruning with thresholds and the top-K post-pass -/

/-- The model `plt7Thr` is what `setThresholds` installs on `plt7`. -/
theorem plt7Thr_eq : setThresholds plt7 7 [1 / 2, 1 / 5, 4 / 5, 1 / 10] = some plt7Thr := by
  decide!

/-- C17 (failing input): with the node thresholds of `plt7Thr` (node `1` has `0.2`,
node `2` has `0.1`) the pruning of the two candidates of nodes `1` and `2`, both
with score `0.5`, keeps the first only; a candidate whose score is equal to the
threshold of its node does not survive; for the empty candidate list, and for a
list in which no entry qualifies, the step raises `std::length_error`, and so
does the whole beam search on one row, where the exact search returns label `3`. -/
theorem pruneLevel_thresholds_failure :
    pruneLevel plt7Thr args7 [⟨1, 1 / 2, 1 / 2⟩, ⟨2, 1 / 2, 1 / 2⟩] = .ok [⟨1, 1 / 2, 1 / 2⟩] ∧
    pruneLevel plt7Thr args7 [⟨1, 1 / 5, 1 / 5⟩, ⟨2, 1 / 2, 1 / 2⟩] = .ok [] ∧
    pruneLevel plt7Thr args7 [⟨1, 1 / 10, 1 / 10⟩] = .error .lengthError ∧
    pruneLevel plt7Thr args7 [] = .error .lengthError ∧
    predictWithBeamSearch tree7 bases7 plt7Thr args7 8 [[]] = .error .lengthError ∧
    predict listQueue tree7 bases7 plt7Thr args7 8 [] [] = some [⟨3, 1 / 3⟩] := by
  decide!

/-- C18 (failing input): with no per-label thresholds and `args.threshold = 0.25`
the pruning of two candidates with scores `0.5` and `1/3`, both above the
threshold, keeps the first only; for the empty candidate list the step raises
`std::length_error`, and so does the whole beam search on one row. -/
theorem pruneLevel_threshold_failure :
    plt7.thresholds = [] ∧ args7Threshold.threshold > 0 ∧
    pruneLevel plt7 args7Threshold [⟨1, 1 / 2, 1 / 2⟩, ⟨2, 1 / 3, 1 / 3⟩] =
      .ok [⟨1, 1 / 2, 1 / 2⟩] ∧
    pruneLevel plt7 args7Threshold [⟨1, 1 / 2, 1 / 2⟩, ⟨2, 1 / 5, 1 / 5⟩] =
      .ok [⟨1, 1 / 2, 1 / 2⟩] ∧
    pruneLevel plt7 args7Threshold [] = .error .lengthError ∧
    predictWithBeamSearch tree7 bases7 plt7 args7Threshold 8 [[]] = .error .lengthError := by
  decide!

/-- C20 (failing input): on the tree of seven nodes with `args.topK = 2` the beam
search returns all four leaf predictions of the row, where the exact search
returns the two with the highest scores. -/
theorem predictWithBeamSearch_topK_ignored :
    args7Top2.topK = 2 ∧
    predictWithBeamSearch tree7 bases7 plt7 args7Top2 8 [[]] =
      .ok [[⟨0, 3 / 8⟩, ⟨3, 1 / 3⟩, ⟨2, 1 / 6⟩, ⟨1, 1 / 8⟩]] ∧
    predict listQueue tree7 bases7 plt7 args7Top2 8 [] [] = some [⟨0, 3 / 8⟩, ⟨3, 1 / 3⟩] := by
  decide!

/-! ## Beam search: pruning to the beam width -/

theorem foldl_modify_length {α : Type} (x : α) : ∀ (cs : List Nat) (T : List (List α)),
    (cs.foldl (fun np1 c => List.modify (fun l => l ++ [x]) c np1) T).length = T.length
  | [], _ => rfl
  | c :: cs, T => by
    rw [List.foldl_cons, foldl_modify_length x cs, List.length_modify]

theorem foldl_modify_getD {α : Type} (x : α) (c : Nat) : ∀ (cs : List Nat) (T : List (List α)),
    c < T.length →
    (cs.foldl (fun np1 c1 => List.modify (fun l => l ++ [x]) c1 np1) T).getD c [] =
      T.getD c [] ++ (cs.filter (fun c1 => decide (c1 = c))).map (fun _ => x)
  | [], T, _ => by simp
  | c1 :: cs, T, hc => by
    rw [List.foldl_cons, foldl_modify_getD x c cs _ (by rw [List.length_modify]; exact hc),
      modify_getD]
    by_cases h : c1 = c
    · subst h
      simp [hc]
    · have h1 : ¬ c = c1 := fun h1 => h h1.symm
      simp [h, h1]

theorem scheduleChildren_length (t : Tree) (rIdx : Nat) : ∀ (v : List TreeNodeValue)
    (T : List (List Prediction)), (scheduleChildren t rIdx v T).length = T.length
  | [], _ => rfl
  | nv :: v, T => by
    have h := scheduleChildren_length t rIdx v
      ((t.children nv.node).foldl
        (fun np1 c => List.modify (fun l => l ++ [{ label := rIdx, value := nv.prob }]) c np1) T)
    simp only [scheduleChildren, List.foldl_cons] at h ⊢
    rw [h, foldl_modify_length]

/-- After the scheduling loop the pending list of the node `c` has gained, in the
order of the survivors, one entry `(rIdx, nv.prob)` for every survivor `nv` and
every occurrence of `c` among the children of `nv.node`. -/
theorem scheduleChildren_getD (t : Tree) (rIdx : Nat) (c : Nat) : ∀ (v : List TreeNodeValue)
    (T : List (List Prediction)), c < T.length →
    (scheduleChildren t rIdx v T).getD c [] =
      T.getD c [] ++ v.flatMap (fun nv =>
        ((t.children nv.node).filter (fun c1 => decide (c1 = c))).map
          (fun _ => ({ label := rIdx, value := nv.prob } : Prediction)))
  | [], T, _ => by simp [scheduleChildren]
  | nv :: v, T, hc => by
    have h := scheduleChildren_getD t rIdx c v
      ((t.children nv.node).foldl
        (fun np1 c => List.modify (fun l => l ++ [{ label := rIdx, value := nv.prob }]) c np1) T)
      (by rw [foldl_modify_length]; exact hc)
    simp only [scheduleChildren, List.foldl_cons] at h ⊢
    rw [h, foldl_modify_getD _ c _ T hc, List.flatMap_cons, List.append_assoc]

theorem sorted_take_ge_drop {α : Type} (key : α → ℚ) (v : List α) (n : Nat) :
    ∀ a ∈ (sortDescending key v).take n, ∀ b ∈ (sortDescending key v).drop n, key b ≤ key a := by
  have h := sortDescending_sorted key v
  rw [← List.take_append_drop n (sortDescending key v)] at h
  exact (List.pairwise_append.mp h).2.2

/-- C19: in `PLT::predictWithBeamSearch` with no per-label thresholds,
`args.threshold <= 0` and a beam width `w >= 0`, the step of the row loop for the
row `rIdx` with the `n` level candidates `v` of that row does not fail and goes
on with a list `kept` of survivors such that: `kept` has `min(n, w)` entries;
`kept` and the discarded candidates together are the candidates `v`, and every
survivor has a score (`value`) at least that of every discarded candidate; the
pending list of every node `c` for the next level is the old one followed by one
entry `(rIdx, prob)` for each survivor `nv` that has `c` as a child, with `prob`
the path probability `nv.prob` of the survivor, so that a node that is not a
child of a survivor receives nothing. -/
theorem pruneRows_beam_width (t : Tree) (s : PLT) (args : Args) (hthr : s.thresholds = [])
    (hargs : args.threshold ≤ 0) (hw : 0 ≤ args.beamSearchWidth) (rIdx : Nat)
    (rIdxs : List Nat) (st : BeamState) :
    ∃ kept dropped : List TreeNodeValue,
      pruneLevel s args (st.levelPredictions.getD rIdx []) = .ok kept ∧
      pruneRows t s args (rIdx :: rIdxs) st =
        pruneRows t s args rIdxs
          { st with
            nodePredictions := scheduleChildren t rIdx kept st.nodePredictions
            levelPredictions := st.levelPredictions.set rIdx [] } ∧
      (kept.length : Int) =
        min ((st.levelPredictions.getD rIdx []).length : Int) args.beamSearchWidth ∧
      (kept ++ dropped).Perm (st.levelPredictions.getD rIdx []) ∧
      (∀ a ∈ kept, ∀ b ∈ dropped, b.value ≤ a.value) ∧
      (scheduleChildren t rIdx kept st.nodePredictions).length = st.nodePredictions.length ∧
      ∀ c, c < st.nodePredictions.length →
        (scheduleChildren t rIdx kept st.nodePredictions).getD c [] =
          st.nodePredictions.getD c [] ++ kept.flatMap (fun nv =>
            ((t.children nv.node).filter (fun c1 => decide (c1 = c))).map
              (fun _ => ({ label := rIdx, value := nv.prob } : Prediction))) := by
  have hlen : (sortDescending TreeNodeValue.value (st.levelPredictions.getD rIdx [])).length =
      (st.levelPredictions.getD rIdx []).length := (sortDescending_perm _ _).length_eq
  have hp : pruneLevel s args (st.levelPredictions.getD rIdx []) =
      .ok ((sortDescending TreeNodeValue.value (st.levelPredictions.getD rIdx [])).take
        (min (st.levelPredictions.getD rIdx []).length args.beamSearchWidth.toNat)) := by
    simp only [pruneLevel, hthr, ne_eq, not_true_eq_false, if_false, not_lt.mpr hargs,
      not_lt.mpr hw, hlen]
  refine ⟨_, (sortDescending TreeNodeValue.value (st.levelPredictions.getD rIdx [])).drop
    (min (st.levelPredictions.getD rIdx []).length args.beamSearchWidth.toNat), hp, ?_, ?_, ?_,
    sorted_take_ge_drop _ _ _, scheduleChildren_length _ _ _ _,
    fun c hc => scheduleChildren_getD t rIdx c _ _ hc⟩
  · simp only [pruneRows, hp]
  · rw [List.length_take, hlen]
    omega
  · rw [List.take_append_drop]
    exact sortDescending_perm _ _

theorem pruneRows_beam_width_witness :
    (plt7.thresholds = [] ∧ args7Beam1.threshold ≤ 0 ∧ 0 ≤ args7Beam1.beamSearchWidth) ∧
    (∃ kept dropped : List TreeNodeValue,
      pruneLevel plt7 args7Beam1 (exampleBeamState7.levelPredictions.getD 0 []) = .ok kept ∧
      pruneRows tree7 plt7 args7Beam1 (0 :: []) exampleBeamState7 =
        pruneRows tree7 plt7 args7Beam1 []
          { exampleBeamState7 with
            nodePredictions := scheduleChildren tree7 0 kept exampleBeamState7.nodePredictions
            levelPredictions := exampleBeamState7.levelPredictions.set 0 [] } ∧
      (kept.length : Int) =
        min ((exampleBeamState7.levelPredictions.getD 0 []).length : Int)
          args7Beam1.beamSearchWidth ∧
      (kept ++ dropped).Perm (exampleBeamState7.levelPredictions.getD 0 []) ∧
      (∀ a ∈ kept, ∀ b ∈ dropped, b.value ≤ a.value) ∧
      (scheduleChildren tree7 0 kept exampleBeamState7.nodePredictions).length =
        exampleBeamState7.nodePredictions.length ∧
      ∀ c, c < exampleBeamState7.nodePredictions.length →
        (scheduleChildren tree7 0 kept exampleBeamState7.nodePredictions).getD c [] =
          exampleBeamState7.nodePredictions.getD c [] ++ kept.flatMap (fun nv =>
            ((tree7.children nv.node).filter (fun c1 => decide (c1 = c))).map
              (fun _ => ({ label := ((0 : Nat) : Int), value := nv.prob } : Prediction)))) ∧
    pruneLevel plt7 args7Beam1 (exampleBeamState7.levelPredictions.getD 0 []) =
      .ok [⟨2, 2 / 3, 2 / 3⟩] ∧
    pruneRows tree7 plt7 args7Beam1 [0] exampleBeamState7 =
      .ok { prediction := [[]]
            levelPredictions := [[]]
            nodePredictions := [[], [], [], [], [], [⟨0, 2 / 3⟩], [⟨0, 2 / 3⟩]] } :=
  ⟨⟨rfl, by decide!, by decide⟩,
    pruneRows_beam_width tree7 plt7 args7Beam1 rfl (by decide!) (by decide) 0 []
      exampleBeamState7,
    by decide!, by decide!⟩

/-! ## Exact search with an admission predicate: closures -/

section ClosureBy

variable (f : TreeNodeValue → List TreeNodeValue)

theorem closureBy_nil : ∀ d, closureBy f d [] = []
  | 0 => rfl
  | d + 1 => by simp [closureBy, closureBy_nil d]

theorem levelBy_nil : ∀ d, levelBy f d [] = []
  | 0 => rfl
  | d + 1 => by simp [levelBy, levelBy_nil d]

theorem closureBy_perm : ∀ (d : Nat) {F G : List TreeNodeValue}, F.Perm G →
    (closureBy f d F).Perm (closureBy f d G)
  | 0, _, _, _ => List.Perm.refl _
  | d + 1, _, _, h => by
    simp only [closureBy]
    exact h.append (closureBy_perm d (h.flatMap_right _))

theorem closureBy_append : ∀ (d : Nat) (F G : List TreeNodeValue),
    (closureBy f d (F ++ G)).Perm (closureBy f d F ++ closureBy f d G)
  | 0, _, _ => List.Perm.refl _
  | d + 1, F, G => by
    simp only [closureBy, List.flatMap_append]
    refine ((closureBy_append d _ _).append_left (F ++ G)).trans ?_
    simp only [List.append_assoc]
    refine List.Perm.append_left F ?_
    simp only [← List.append_assoc]
    exact List.Perm.append_right _ List.perm_append_comm

theorem levelBy_succ_eq : ∀ (d : Nat) (F : List TreeNodeValue),
    levelBy f (d + 1) F = (levelBy f d F).flatMap f
  | 0, _ => rfl
  | d + 1, F => by
    rw [levelBy, levelBy_succ_eq d]
    rfl

theorem closureBy_succ_of_level_nil : ∀ (d : Nat) (F : List TreeNodeValue),
    levelBy f d F = [] → closureBy f (d + 1) F = closureBy f d F
  | 0, F, h => by
    simp only [levelBy] at h
    subst h
    rfl
  | d + 1, F, h => by
    rw [closureBy, closureBy_succ_of_level_nil d _ h]
    rfl

theorem closureBy_singleton (d : Nat) (e : TreeNodeValue) :
    closureBy f (d + 1) [e] = e :: closureBy f d (f e) := by
  simp [closureBy]

theorem closureBy_eq_flatMap : ∀ (d : Nat) (F : List TreeNodeValue),
    closureBy f d F = (List.range d).flatMap (fun j => levelBy f j F)
  | 0, _ => rfl
  | d + 1, F => by
    rw [closureBy, closureBy_eq_flatMap d, List.range_succ_eq_map, List.flatMap_cons,
      flatMap_map_succ]
    rfl

theorem mem_closureBy_of_mem {d : Nat} {F : List TreeNodeValue} {e : TreeNodeValue}
    (h : e ∈ F) : e ∈ closureBy f (d + 1) F := by
  rw [closureBy]
  exact List.mem_append_left _ h

end ClosureBy

/-! ## Exact search with an admission predicate: the admitted nodes -/

section Paths

variable {t : Tree} {bases : Nat → List Feature → ℚ} {s : PLT} {args : Args}
variable {x : List Feature}

theorem Tree.WF.pathToRoot_root (hwf : t.WF) : t.pathToRoot t.root = [t.root] := by
  obtain ⟨m, hm⟩ : ∃ m, t.nodes.length = m + 1 := ⟨t.nodes.length - 1, by
    have := hwf.root_lt
    omega⟩
  have h : ∀ k, t.parentIter (k + 1) t.root = none := by
    intro k
    simp [parentIter, hwf.root_parent]
  rw [Tree.pathToRoot, hm, List.range_succ_eq_map, List.filterMap_cons]
  simp only [parentIter, List.filterMap_map]
  congr 1
  apply List.filterMap_eq_nil_iff.mpr
  intro k _
  exact h k

theorem Tree.WF.pathToRoot_child (hwf : t.WF) {p c : Nat} (hc : c ∈ t.children p) :
    t.pathToRoot c = c :: t.pathToRoot p := by
  have hp := children_lt hc
  obtain ⟨hclt, hpar⟩ := hwf.child_parent p hp c hc
  obtain ⟨m, hm⟩ : ∃ m, t.nodes.length = m + 1 := ⟨t.nodes.length - 1, by omega⟩
  have hstep : ∀ k, t.parentIter (k + 1) c = t.parentIter k p := by
    intro k
    simp [parentIter, hpar]
  have hlast : t.parentIter m p = none := by
    rw [← hstep, ← hm]
    exact hwf.acyclic c hclt
  have h1 : t.pathToRoot c = c :: (List.range m).filterMap (fun k => t.parentIter k p) := by
    rw [Tree.pathToRoot, hm, List.range_succ_eq_map, List.filterMap_cons]
    simp only [parentIter, List.filterMap_map]
    congr 1
    apply List.filterMap_congr
    intro k _
    exact hstep k
  have h2 : t.pathToRoot p = (List.range m).filterMap (fun k => t.parentIter k p) := by
    rw [Tree.pathToRoot, hm, List.range_succ, List.filterMap_append]
    simp [hlast]
  rw [h1, h2]

theorem Tree.WF.mem_pathToRoot (hwf : t.WF) {n a : Nat} (hn : n < t.nodes.length) :
    a ∈ t.pathToRoot n ↔ t.AncestorOrSelf a n := by
  constructor
  · intro h
    obtain ⟨k, _, hk⟩ := List.mem_filterMap.mp h
    exact ⟨k, hk⟩
  · rintro ⟨k, hk⟩
    refine List.mem_filterMap.mpr ⟨k, List.mem_range.mpr ?_, hk⟩
    by_contra hge
    rw [parentIter_none_of_le (hwf.acyclic n hn) (by omega)] at hk
    cases hk

theorem Tree.WF.pathProbability_root (hwf : t.WF) :
    pathProbability t bases x t.root = bases t.root x := by
  simp [pathProbability, hwf.pathToRoot_root]

theorem Tree.WF.pathProbability_child (hwf : t.WF) {p c : Nat} (hc : c ∈ t.children p) :
    pathProbability t bases x c = pathProbability t bases x p * bases c x := by
  simp [pathProbability, hwf.pathToRoot_child hc, mul_comm]

theorem Tree.WF.admitted_root (hwf : t.WF) :
    admitted t bases s args x t.root = ifAddToQueue s args t.root (bases t.root x) := by
  simp [admitted, hwf.pathToRoot_root, hwf.pathProbability_root]

theorem Tree.WF.admitted_child (hwf : t.WF) {p c : Nat} (hc : c ∈ t.children p) :
    admitted t bases s args x c =
      (ifAddToQueue s args c (pathProbability t bases x p * bases c x) &&
        admitted t bases s args x p) := by
  simp [admitted, hwf.pathToRoot_child hc, hwf.pathProbability_child hc]

theorem Tree.WF.childEntry_eq (hwf : t.WF) {p c : Nat} (hc : c ∈ t.children p) :
    childEntry bases s x (pathProbability t bases x p) c = nodeEntry t bases s x c := by
  simp [childEntry, nodeEntry, hwf.pathProbability_child hc]

theorem Tree.WF.rootEntry_eq (hwf : t.WF) : rootEntry t bases s x = nodeEntry t bases s x t.root := by
  simp [rootEntry, nodeEntry, hwf.pathProbability_root]

/-- The admitted children of the entry of an admitted node are the entries of
its admitted children. -/
theorem Tree.WF.admittedChildren_nodeEntry (hwf : t.WF) {p : Nat}
    (hp : admitted t bases s args x p = true) :
    admittedChildren t bases s args x (nodeEntry t bases s x p) =
      ((t.children p).filter (admitted t bases s args x)).map (nodeEntry t bases s x) := by
  have h1 : expand t bases s x (nodeEntry t bases s x p) =
      (t.children p).map (nodeEntry t bases s x) := by
    simp only [expand, nodeEntry]
    apply List.map_congr_left
    intro c hc
    exact hwf.childEntry_eq hc
  rw [admittedChildren, h1, List.filter_map]
  congr 1
  apply List.filter_congr
  intro c hc
  simp only [Function.comp, nodeEntry]
  rw [hwf.admitted_child hc, hp, Bool.and_true, hwf.pathProbability_child hc]

theorem Tree.WF.filter_admitted_children (hwf : t.WF) {p : Nat}
    (hp : admitted t bases s args x p = false) :
    (t.children p).filter (admitted t bases s args x) = [] := by
  apply List.filter_eq_nil_iff.mpr
  intro c hc
  rw [hwf.admitted_child hc, hp]
  simp

theorem Tree.WF.admitted_flatMap (hwf : t.WF) : ∀ (L : List Nat),
    ((L.filter (admitted t bases s args x)).map (nodeEntry t bases s x)).flatMap
        (admittedChildren t bases s args x) =
      ((L.flatMap t.children).filter (admitted t bases s args x)).map (nodeEntry t bases s x)
  | [] => rfl
  | p :: L => by
    rw [List.flatMap_cons, List.filter_append, List.map_append, ← hwf.admitted_flatMap L]
    cases hp : admitted t bases s args x p with
    | true =>
      rw [List.filter_cons_of_pos hp, List.map_cons, List.flatMap_cons,
        hwf.admittedChildren_nodeEntry hp]
    | false =>
      rw [List.filter_cons_of_neg (by simp [hp]), hwf.filter_admitted_children hp]
      rfl

/-- The admitted entries `j` levels below the root are the entries of the
admitted nodes of level `j` of the tree. -/
theorem Tree.WF.levelBy_admittedRoot (hwf : t.WF) : ∀ (j : Nat),
    levelBy (admittedChildren t bases s args x) j (admittedRoot t bases s args x) =
      ((nodeLevel t j [t.root]).filter (admitted t bases s args x)).map
        (nodeEntry t bases s x)
  | 0 => by
    simp only [levelBy, nodeLevel, admittedRoot]
    cases h : ifAddToQueue s args t.root (bases t.root x) with
    | true =>
      have : admitted t bases s args x t.root = true := by rw [hwf.admitted_root, h]
      simp [this, hwf.rootEntry_eq]
    | false =>
      have : admitted t bases s args x t.root = false := by rw [hwf.admitted_root, h]
      simp [this]
  | j + 1 => by
    rw [levelBy_succ_eq, hwf.levelBy_admittedRoot j, hwf.admitted_flatMap, nodeLevel_succ_eq]

end Paths

section Paths2

variable {t : Tree} {bases : Nat → List Feature → ℚ} {s : PLT} {args : Args}
variable {x : List Feature}

theorem Tree.WF.mem_nodeLevel_root (hwf : t.WF) : ∀ (d : Nat) {n : Nat},
    t.parentIter d n = some t.root → n ∈ nodeLevel t d [t.root]
  | 0, n, h => by
    simp only [parentIter, Option.some.injEq] at h
    simp [nodeLevel, h]
  | d + 1, n, h => by
    simp only [parentIter] at h
    cases hp : t.parent n with
    | none => simp [hp] at h
    | some p =>
      rw [hp] at h
      rw [nodeLevel_succ_eq, List.mem_flatMap]
      exact ⟨p, hwf.mem_nodeLevel_root d h, (hwf.parent_valid hp).2⟩

/-- The levels of the tree below the root hold every node once. -/
theorem Tree.WF.levels_perm_range (hwf : t.WF) :
    ((List.range t.nodes.length).flatMap (fun j => nodeLevel t j [t.root])).Perm
      (List.range t.nodes.length) := by
  have hnd : ((List.range t.nodes.length).flatMap (fun j => nodeLevel t j [t.root])).Nodup := by
    rw [List.nodup_flatMap]
    refine ⟨fun j _ => hwf.nodeLevel_nodup j (List.nodup_singleton _), ?_⟩
    exact List.Pairwise.imp (fun hab => hwf.nodeLevel_disjoint hab) (List.nodup_range _)
  refine (List.perm_ext_iff_of_nodup hnd (List.nodup_range _)).mpr ?_
  intro n
  constructor
  · intro hn
    obtain ⟨j, _, hj⟩ := List.mem_flatMap.mp hn
    exact List.mem_range.mpr (hwf.mem_nodeLevel hwf.root_valid j hj).1
  · intro hn
    have hlt := List.mem_range.mp hn
    obtain ⟨j, hj, hr⟩ := hwf.root_of_parentIter_none hlt (hwf.acyclic n hlt)
    exact List.mem_flatMap.mpr ⟨j, List.mem_range.mpr hj, hwf.mem_nodeLevel_root j hr⟩

theorem flatMap_filter_map {α β : Type} (g : Nat → List α) (P : α → Bool) (h : α → β) :
    ∀ (L : List Nat), L.flatMap (fun j => ((g j).filter P).map h) =
      ((L.flatMap g).filter P).map h
  | [] => rfl
  | j :: L => by
    rw [List.flatMap_cons, List.flatMap_cons, List.filter_append, List.map_append,
      flatMap_filter_map g P h L]

/-- The admitted closure of the root holds the entries of the admitted nodes,
each once. -/
theorem Tree.WF.closureBy_admittedRoot (hwf : t.WF) :
    (closureBy (admittedChildren t bases s args x) t.nodes.length
      (admittedRoot t bases s args x)).Perm
      (((List.range t.nodes.length).filter (admitted t bases s args x)).map
        (nodeEntry t bases s x)) := by
  rw [closureBy_eq_flatMap]
  have h : (fun j => levelBy (admittedChildren t bases s args x) j
      (admittedRoot t bases s args x)) =
      fun j => ((nodeLevel t j [t.root]).filter (admitted t bases s args x)).map
        (nodeEntry t bases s x) := by
    funext j
    exact hwf.levelBy_admittedRoot j
  rw [h, flatMap_filter_map]
  exact (hwf.levels_perm_range.filter _).map _

/-- The leaf predictions of the admitted closure of the root are the predictions
of the admitted leaves. -/
theorem Tree.WF.leafPredictions_admittedRoot (hwf : t.WF) :
    (leafPredictions t (closureBy (admittedChildren t bases s args x) t.nodes.length
      (admittedRoot t bases s args x))).Perm (admittedPredictions t bases s args x) := by
  refine (leafPredictions_perm t hwf.closureBy_admittedRoot).trans ?_
  rw [leafPredictions, admittedPredictions, admittedLeaves, List.filter_map, List.map_map,
    List.filter_filter]
  apply List.Perm.of_eq
  congr 1

theorem Tree.WF.closureBy_admittedRoot_length (hwf : t.WF) :
    (closureBy (admittedChildren t bases s args x) t.nodes.length
      (admittedRoot t bases s args x)).length ≤ t.nodes.length := by
  rw [hwf.closureBy_admittedRoot.length_eq, List.length_map]
  exact (List.length_filter_le _ _).trans (by simp)

theorem nodeLevel_subset : ∀ (d : Nat) {Q1 Q2 : List Nat}, Q1 ⊆ Q2 →
    nodeLevel t d Q1 ⊆ nodeLevel t d Q2
  | 0, _, _, h => h
  | d + 1, Q1, Q2, h => by
    rw [nodeLevel, nodeLevel]
    apply nodeLevel_subset d
    intro c hc
    obtain ⟨n, hn, hcn⟩ := List.mem_flatMap.mp hc
    exact List.mem_flatMap.mpr ⟨n, h hn, hcn⟩

theorem mem_admittedChildren {e c : TreeNodeValue}
    (h : c ∈ admittedChildren t bases s args x e) :
    c ∈ expand t bases s x e ∧ ifAddToQueue s args c.node c.prob = true :=
  List.mem_filter.mp h

theorem levelBy_admitted_node : ∀ (d : Nat) (F : List TreeNodeValue) {e : TreeNodeValue},
    e ∈ levelBy (admittedChildren t bases s args x) d F →
    e.node ∈ nodeLevel t d (F.map TreeNodeValue.node)
  | 0, F, e, h => List.mem_map_of_mem _ h
  | d + 1, F, e, h => by
    rw [levelBy] at h
    have h1 := levelBy_admitted_node d _ h
    rw [nodeLevel]
    refine nodeLevel_subset d ?_ h1
    intro n hn
    obtain ⟨c, hc, rfl⟩ := List.mem_map.mp hn
    obtain ⟨e1, he1, hc1⟩ := List.mem_flatMap.mp hc
    have h2 := (mem_admittedChildren hc1).1
    refine List.mem_flatMap.mpr ⟨e1.node, List.mem_map_of_mem _ he1, ?_⟩
    rw [← @expand_map_node t bases s x e1]
    exact List.mem_map_of_mem _ h2

theorem Tree.WF.levelBy_admitted_length_eq_nil (hwf : t.WF) {F : List TreeNodeValue}
    (hF : ∀ e ∈ F, e.node < t.nodes.length) :
    levelBy (admittedChildren t bases s args x) t.nodes.length F = [] := by
  apply List.eq_nil_iff_forall_not_mem.mpr
  intro e he
  have h := levelBy_admitted_node _ _ he
  rw [hwf.nodeLevel_length_eq_nil (Q := F.map TreeNodeValue.node)
    (by
      intro n hn
      obtain ⟨e1, he1, rfl⟩ := List.mem_map.mp hn
      exact hF e1 he1)] at h
  cases h

/-- The admitted closure of one entry is the entry followed by the admitted
closure of the entries of its admitted children. -/
theorem Tree.WF.closureBy_cons_perm (hwf : t.WF) {e : TreeNodeValue}
    (he : e.node < t.nodes.length) (F : List TreeNodeValue) :
    (closureBy (admittedChildren t bases s args x) t.nodes.length (e :: F)).Perm
      (e :: closureBy (admittedChildren t bases s args x) t.nodes.length
        (admittedChildren t bases s args x e ++ F)) := by
  obtain ⟨m, hm⟩ : ∃ m, t.nodes.length = m + 1 := ⟨t.nodes.length - 1, by omega⟩
  have hnil : levelBy (admittedChildren t bases s args x) (m + 1) [e] = [] := by
    rw [← hm]
    exact hwf.levelBy_admitted_length_eq_nil (by simpa using he)
  have hnil2 : levelBy (admittedChildren t bases s args x) m
      (admittedChildren t bases s args x e) = [] := by
    simpa [levelBy] using hnil
  have h1 := closureBy_append (admittedChildren t bases s args x) (m + 1) [e] F
  have h2 : closureBy (admittedChildren t bases s args x) (m + 1) [e] =
      e :: closureBy (admittedChildren t bases s args x) (m + 1)
        (admittedChildren t bases s args x e) := by
    rw [closureBy_singleton, closureBy_succ_of_level_nil _ m _ hnil2]
  rw [hm]
  refine h1.trans ?_
  rw [h2, List.cons_append]
  exact List.Perm.cons e (closureBy_append _ (m + 1) _ F).symm

end Paths2

/-! ## Exact search with an admission predicate: the bounded queue -/

section Below

variable {Q : Type} {Qi : TopKQueue Q}
variable {Holds : Q → List TreeNodeValue → List TreeNodeValue → Prop}
variable {t : Tree} {bases : Nat → List Feature → ℚ} {s : PLT} {args : Args}
variable {x : List Feature}

theorem admittedClosure_nil : admittedClosure t bases s args x [] = [] :=
  closureBy_nil _ _

theorem admittedClosure_perm {F G : List TreeNodeValue} (h : F.Perm G) :
    (admittedClosure t bases s args x F).Perm (admittedClosure t bases s args x G) :=
  closureBy_perm _ _ h

theorem admittedClosure_append (F G : List TreeNodeValue) :
    (admittedClosure t bases s args x (F ++ G)).Perm
      (admittedClosure t bases s args x F ++ admittedClosure t bases s args x G) :=
  closureBy_append _ _ F G

theorem Tree.WF.admittedClosure_cons (hwf : t.WF) {e : TreeNodeValue}
    (he : e.node < t.nodes.length) (F : List TreeNodeValue) :
    (admittedClosure t bases s args x (e :: F)).Perm
      (e :: admittedClosure t bases s args x (admittedChildren t bases s args x e ++ F)) :=
  hwf.closureBy_cons_perm he F

theorem leavesBelow_nil : leavesBelow t bases s args x [] = [] := by
  rw [leavesBelow, admittedClosure_nil]
  rfl

theorem leavesBelow_perm {F G : List TreeNodeValue} (h : F.Perm G) :
    (leavesBelow t bases s args x F).Perm (leavesBelow t bases s args x G) :=
  (admittedClosure_perm h).filter _

theorem leavesBelow_append (F G : List TreeNodeValue) :
    (leavesBelow t bases s args x (F ++ G)).Perm
      (leavesBelow t bases s args x F ++ leavesBelow t bases s args x G) := by
  have h := (@admittedClosure_append t bases s args x F G).filter (finalEntry t)
  rwa [List.filter_append] at h

theorem Tree.WF.leavesBelow_cons (hwf : t.WF) {e : TreeNodeValue}
    (he : e.node < t.nodes.length) (F : List TreeNodeValue) :
    (leavesBelow t bases s args x (e :: F)).Perm
      ((if finalEntry t e then [e] else []) ++
        leavesBelow t bases s args x (admittedChildren t bases s args x e ++ F)) := by
  have h := (@Tree.WF.admittedClosure_cons t bases s args x hwf e he F).filter (finalEntry t)
  rw [leavesBelow]
  refine h.trans ?_
  cases hf : finalEntry t e with
  | true => simp [List.filter_cons, hf, leavesBelow]
  | false => simp [List.filter_cons, hf, leavesBelow]

theorem leafPredictions_eq (F : List TreeNodeValue) :
    leafPredictions t F = (F.filter (finalEntry t)).map (entryPrediction t) := rfl

theorem Tree.WF.admittedChildren_valid (hwf : t.WF) {e : TreeNodeValue}
    (he : e.node < t.nodes.length) :
    ∀ c ∈ admittedChildren t bases s args x e, c.node < t.nodes.length := by
  intro c hc
  obtain ⟨n, hn, rfl⟩ := List.mem_map.mp (mem_admittedChildren hc).1
  exact (hwf.child_parent e.node he n hn).1

theorem admittedChildren_good (hwf : t.WF) (hb : ProbabilityTable bases x)
    (hW : WeightsMonotone t s) {e : TreeNodeValue} (he : GoodEntry t s e) :
    ∀ c ∈ admittedChildren t bases s args x e, GoodEntry t s c ∧ c.value ≤ e.value :=
  fun c hc => expand_good hwf hb hW he c (mem_admittedChildren hc).1

/-- The loop over the children of a popped entry: the admitted child entries are
split into the entries `A` the queue takes and the entries `Dn` it refuses. -/
theorem fold_addToQueue_bounded (hQ : Qi.Bounded args.topK (finalEntry t) Holds) (p : ℚ) :
    ∀ (cs : List Nat) (q : Q) (l acc : List TreeNodeValue), Holds q l acc →
    ∃ A Dn : List TreeNodeValue,
      Holds (cs.foldl (fun q c => addToQueue Qi s args q c (p * bases c x)) q) (A ++ l)
        (A.filter (finalEntry t) ++ acc) ∧
      (A ++ Dn).Perm ((cs.map (childEntry bases s x p)).filter
        (fun c => ifAddToQueue s args c.node c.prob)) ∧
      ∀ d ∈ Dn, 0 < args.topK ∧ ∃ fs : List TreeNodeValue,
        fs.Subperm (A.filter (finalEntry t) ++ acc) ∧ fs.length = args.topK.toNat ∧
        ∀ f ∈ fs, d.value ≤ f.value
  | [], q, l, acc, h => ⟨[], [], by simpa using h, by simp, by simp⟩
  | c :: cs, q, l, acc, h => by
    rw [List.foldl_cons, List.map_cons]
    cases hadm : ifAddToQueue s args c (p * bases c x) with
    | false =>
      have h1 : addToQueue Qi s args q c (p * bases c x) = q := by
        simp [addToQueue, hadm]
      obtain ⟨A, Dn, hA, hperm, hD⟩ := fold_addToQueue_bounded hQ p cs q l acc h
      refine ⟨A, Dn, by rw [h1]; exact hA, ?_, hD⟩
      rw [List.filter_cons_of_neg (by simp [childEntry, hadm])]
      exact hperm
    | true =>
      have h1 : addToQueue Qi s args q c (p * bases c x) =
          Qi.push q (childEntry bases s x p c) := by
        simp [addToQueue, hadm, childEntry]
      rw [h1, List.filter_cons_of_pos (by simp [childEntry, hadm])]
      rcases hQ.push q l acc (childEntry bases s x p c) h with hacc | ⟨hk, hdrop, fs, hfs, hlen, hle⟩
      · obtain ⟨A, Dn, hA, hperm, hD⟩ := fold_addToQueue_bounded hQ p cs _ _ _ hacc
        have hacc2 : List.filter (finalEntry t) (A ++ [childEntry bases s x p c]) ++ acc =
            List.filter (finalEntry t) A ++
              (if finalEntry t (childEntry bases s x p c) then
                childEntry bases s x p c :: acc else acc) := by
          rw [List.filter_append, List.append_assoc]
          congr 1
          cases hf : finalEntry t (childEntry bases s x p c) <;> simp [List.filter_cons, hf]
        refine ⟨A ++ [childEntry bases s x p c], Dn, ?_, ?_, ?_⟩
        · rw [hacc2]
          simpa using hA
        · refine (List.Perm.trans ?_ (List.Perm.cons _ hperm))
          rw [List.append_assoc]
          exact (List.perm_middle).trans (List.Perm.refl _)
        · rw [hacc2]
          exact hD
      · obtain ⟨A, Dn, hA, hperm, hD⟩ := fold_addToQueue_bounded hQ p cs _ _ _ hdrop
        refine ⟨A, childEntry bases s x p c :: Dn, hA, ?_, ?_⟩
        · exact List.perm_middle.trans (List.Perm.cons _ hperm)
        · intro d hd
          rcases List.mem_cons.mp hd with rfl | hd
          · exact ⟨hk, fs, hfs.trans (List.sublist_append_right _ _).subperm, hlen, hle⟩
          · exact hD d hd

end Below

/-! ## Exact search with an admission predicate: one pop -/

section Search

variable {Q : Type} {Qi : TopKQueue Q}
variable {Holds : Q → List TreeNodeValue → List TreeNodeValue → Prop}
variable {t : Tree} {bases : Nat → List Feature → ℚ} {s : PLT} {args : Args}
variable {x : List Feature}

/-- One pop of the exact search with the expansion of the popped entry keeps the
search invariant and makes the admitted closure of the queue smaller. -/
theorem SearchInv.step (hQ : Qi.Bounded args.topK (finalEntry t) Holds) (hwf : t.WF)
    {q : Q} {l acc D Em : List TreeNodeValue}
    (h : SearchInv Holds t bases s args x q l acc D Em) (hne : l ≠ []) :
    ∃ (e : TreeNodeValue) (l1 acc1 D1 : List TreeNodeValue), Qi.top q = some e ∧
      SearchInv Holds t bases s args x
        ((t.children e.node).foldl
          (fun q c => addToQueue Qi s args q c (e.prob * bases c x)) (Qi.pop q))
        l1 acc1 D1 (if finalEntry t e then Em ++ [e] else Em) ∧
      (admittedClosure t bases s args x l1).length <
        (admittedClosure t bases s args x l).length := by
  obtain ⟨e, htop, hel, hmax, hpop⟩ := hQ.top q l acc h.holds hne
  obtain ⟨A, Dn, hA, hperm, hD⟩ :=
    @fold_addToQueue_bounded Q Qi Holds t bases s args x hQ e.prob (t.children e.node)
      (Qi.pop q) (l.erase e) acc hpop
  have hperm2 : (A ++ Dn).Perm (admittedChildren t bases s args x e) := hperm
  have hev := h.valid e hel
  have hAmem : ∀ c ∈ A, c ∈ admittedChildren t bases s args x e :=
    fun c hc => hperm2.subset (List.mem_append_left _ hc)
  have hDmem : ∀ c ∈ Dn, c ∈ admittedChildren t bases s args x e :=
    fun c hc => hperm2.subset (List.mem_append_right _ hc)
  have hsplit : (admittedChildren t bases s args x e ++ l.erase e).Perm
      ((A ++ l.erase e) ++ Dn) := by
    refine (hperm2.symm.append_right _).trans ?_
    rw [List.append_assoc, List.append_assoc]
    exact List.Perm.append_left A List.perm_append_comm
  refine ⟨e, A ++ l.erase e, A.filter (finalEntry t) ++ acc, Dn ++ D, htop, ?_, ?_⟩
  · refine ⟨hA, ?_, ?_, ?_, ?_, ?_, ?_⟩
    · intro c hc
      rcases List.mem_append.mp hc with hc | hc
      · exact hwf.admittedChildren_valid hev c (hAmem c hc)
      · exact h.valid c (List.mem_of_mem_erase hc)
    · intro f hf
      rcases List.mem_append.mp hf with hf | hf
      · exact (List.mem_filter.mp hf).2
      · exact h.accFinal f hf
    · intro a
      have hc1 : (A.filter (finalEntry t)).count a ≤ A.count a :=
        (List.filter_sublist A).count_le a
      have hc2 := h.accCount a
      have hc3 : l.count a = (e :: l.erase e).count a := (List.perm_cons_erase hel).count_eq a
      rw [List.count_append, List.count_append]
      by_cases hea : e = a
      · subst hea
        cases hf : finalEntry t e with
        | true =>
          simp only [if_true, List.count_append, List.count_cons_self, List.count_nil] at hc3 ⊢
          omega
        | false =>
          have h0 : acc.count e = 0 := by
            apply List.count_eq_zero_of_not_mem
            intro hmem
            rw [h.accFinal e hmem] at hf
            cases hf
          simp only [Bool.false_eq_true, if_false]
          omega
      · have hne1 : (e :: l.erase e).count a = (l.erase e).count a :=
          List.count_cons_of_ne (fun h1 => hea h1.symm) _
        have hne2 : (Em ++ [e]).count a = Em.count a := by
          rw [List.count_append, List.count_cons_of_ne (fun h1 => hea h1.symm)]
          simp
        cases hf : finalEntry t e with
        | true =>
          simp only [if_true, hne2]
          omega
        | false =>
          simp only [Bool.false_eq_true, if_false]
          omega
    · intro d hd
      rcases List.mem_append.mp hd with hd | hd
      · exact hD d hd
      · obtain ⟨hk, fs, hfs, hlen, hle⟩ := h.dropped d hd
        exact ⟨hk, fs, hfs.trans (List.sublist_append_right _ _).subperm, hlen, hle⟩
    · have hl : (leavesBelow t bases s args x l).Perm
          ((if finalEntry t e then [e] else []) ++
            leavesBelow t bases s args x (admittedChildren t bases s args x e ++ l.erase e)) :=
        (leavesBelow_perm (List.perm_cons_erase hel)).trans (hwf.leavesBelow_cons hev _)
      have h2 : (leavesBelow t bases s args x
          (admittedChildren t bases s args x e ++ l.erase e)).Perm
          (leavesBelow t bases s args x (A ++ l.erase e) ++ leavesBelow t bases s args x Dn) :=
        (leavesBelow_perm hsplit).trans (leavesBelow_append _ _)
      have h3 := @leavesBelow_append t bases s args x Dn D
      rw [List.perm_iff_count]
      intro a
      have e0 := h.total.count_eq a
      have e1 := hl.count_eq a
      have e2 := h2.count_eq a
      have e3 := h3.count_eq a
      simp only [List.count_append] at e0 e1 e2 e3 ⊢
      cases hf : finalEntry t e with
      | true =>
        simp only [hf, if_true, List.count_append] at e1 ⊢
        omega
      | false =>
        simp only [hf, Bool.false_eq_true, if_false, List.count_nil] at e1 ⊢
        omega
    · intro hb hW
      obtain ⟨hgl, hgD, hsorted, hle⟩ := h.mono hb hW
      have hch := @admittedChildren_good t bases s args x hwf hb hW e (hgl e hel)
      refine ⟨?_, ?_, ?_, ?_⟩
      · intro c hc
        rcases List.mem_append.mp hc with hc | hc
        · exact (hch c (hAmem c hc)).1
        · exact hgl c (List.mem_of_mem_erase hc)
      · intro c hc
        rcases List.mem_append.mp hc with hc | hc
        · exact (hch c (hDmem c hc)).1
        · exact hgD c hc
      · cases hf : finalEntry t e with
        | true =>
          simp only [if_true]
          refine List.pairwise_append.mpr ⟨hsorted, List.pairwise_singleton _ _, ?_⟩
          intro m hm b hb1
          rw [List.mem_singleton.mp hb1]
          exact hle e hel m hm
        | false =>
          simp only [Bool.false_eq_true, if_false]
          exact hsorted
      · intro c hc m hm
        have hm2 : m ∈ Em ∨ m = e := by
          cases hf : finalEntry t e with
          | true =>
            rw [hf] at hm
            simp only [if_true] at hm
            rcases List.mem_append.mp hm with h1 | h1
            · exact Or.inl h1
            · exact Or.inr (List.mem_singleton.mp h1)
          | false =>
            rw [hf] at hm
            exact Or.inl hm
        have hce : c.value ≤ e.value := by
          rcases List.mem_append.mp hc with hc | hc
          · exact (hch c (hAmem c hc)).2
          · exact hmax c (List.mem_of_mem_erase hc)
        rcases hm2 with h1 | h1
        · exact hce.trans (hle e hel m h1)
        · rw [h1]
          exact hce
  · have hl : (admittedClosure t bases s args x l).Perm
        (e :: admittedClosure t bases s args x
          (admittedChildren t bases s args x e ++ l.erase e)) :=
      (admittedClosure_perm (List.perm_cons_erase hel)).trans (hwf.admittedClosure_cons hev _)
    have h2 : (admittedClosure t bases s args x
        (admittedChildren t bases s args x e ++ l.erase e)).Perm
        (admittedClosure t bases s args x (A ++ l.erase e) ++
          admittedClosure t bases s args x Dn) :=
      (admittedClosure_perm hsplit).trans (admittedClosure_append _ _)
    have e1 := hl.length_eq
    have e2 := h2.length_eq
    rw [List.length_cons] at e1
    rw [List.length_append] at e2
    omega

end Search

/-! ## Exact search with an admission predicate: the result -/

section Search2

variable {Q : Type} {Qi : TopKQueue Q}
variable {Holds : Q → List TreeNodeValue → List TreeNodeValue → Prop}
variable {t : Tree} {bases : Nat → List Feature → ℚ} {s : PLT} {args : Args}
variable {x : List Feature}

/-- One call of `predictNextLabel` from a state of the search: either the queue
runs empty and the label `-1` is returned, or the prediction of a popped final
entry is returned and the admitted closure of the queue got smaller. -/
theorem predictNextLabel_bounded (hQ : Qi.Bounded args.topK (finalEntry t) Holds) (hwf : t.WF)
    {Em : List TreeNodeValue} : ∀ (fuel : Nat) (q : Q) (l acc D : List TreeNodeValue),
    SearchInv Holds t bases s args x q l acc D Em →
    (admittedClosure t bases s args x l).length < fuel →
    ∃ (p : Prediction) (q1 : Q) (l1 acc1 D1 : List TreeNodeValue),
      predictNextLabel Qi t bases s args x fuel q = some (p, q1) ∧
      ((p.label = -1 ∧ SearchInv Holds t bases s args x q1 [] acc1 D1 Em) ∨
       (∃ e, finalEntry t e = true ∧ p = entryPrediction t e ∧
          SearchInv Holds t bases s args x q1 l1 acc1 D1 (Em ++ [e]) ∧
          (admittedClosure t bases s args x l1).length <
            (admittedClosure t bases s args x l).length))
  | 0, _, _, _, _, _, h => by omega
  | fuel + 1, q, l, acc, D, h, hfuel => by
    rw [predictNextLabel]
    by_cases hempty : Qi.empty q = true
    · have hnil : l = [] := (hQ.empty q l acc h.holds).mp hempty
      subst hnil
      exact ⟨{ label := -1, value := 0 }, q, [], acc, D, by simp [hempty], Or.inl ⟨rfl, h⟩⟩
    · have hne : l ≠ [] := fun h1 => hempty ((hQ.empty q l acc h.holds).mpr h1)
      obtain ⟨e, l1, acc1, D1, htop, hinv, hlt⟩ := h.step hQ hwf hne
      simp only [hempty, htop, Bool.false_eq_true, if_false]
      by_cases hleaf : 0 ≤ t.label e.node
      · have hf : finalEntry t e = true := by simp [finalEntry, hleaf]
        rw [hf] at hinv
        simp only [if_true] at hinv
        exact ⟨{ label := t.label e.node, value := e.value }, _, l1, acc1, D1,
          by simp only [hleaf, if_true], Or.inr ⟨e, hf, rfl, hinv, hlt⟩⟩
      · have hf : finalEntry t e = false := by simp [finalEntry, hleaf]
        rw [hf] at hinv
        simp only [Bool.false_eq_true, if_false] at hinv
        obtain ⟨p, q2, l2, acc2, D2, hrec, hcase⟩ :=
          predictNextLabel_bounded hQ hwf fuel _ l1 acc1 D1 hinv (by omega)
        refine ⟨p, q2, l2, acc2, D2, by simp only [hleaf, if_false]; exact hrec, ?_⟩
        rcases hcase with h1 | ⟨e1, h1, h2, h3, h4⟩
        · exact Or.inl h1
        · exact Or.inr ⟨e1, h1, h2, h3, by omega⟩

end Search2

section Search3

variable {Q : Type} {Qi : TopKQueue Q}
variable {Holds : Q → List TreeNodeValue → List TreeNodeValue → Prop}
variable {t : Tree} {bases : Nat → List Feature → ℚ} {s : PLT} {args : Args}
variable {x : List Feature}

theorem SearchInv.dominated {q : Q} {l acc D Em : List TreeNodeValue}
    (h : SearchInv Holds t bases s args x q l acc D Em) {d : TreeNodeValue} (hd : d ∈ D) :
    0 < args.topK ∧ ∃ fs : List TreeNodeValue, fs.Subperm (Em ++ l) ∧
      fs.length = args.topK.toNat ∧ ∀ f ∈ fs, d.value ≤ f.value := by
  obtain ⟨hk, fs, hfs, hlen, hle⟩ := h.dropped d hd
  refine ⟨hk, fs, ?_, hlen, hle⟩
  rw [List.subperm_ext_iff]
  intro a _
  have h1 := hfs.count_le a
  have h2 := h.accCount a
  rw [List.count_append]
  omega

end Search3

/-! ## Exact search with an admission predicate: the loop -/

section Search4

variable {Q : Type} {Qi : TopKQueue Q}
variable {Holds : Q → List TreeNodeValue → List TreeNodeValue → Prop}
variable {t : Tree} {bases : Nat → List Feature → ℚ} {s : PLT} {args : Args}
variable {x : List Feature}

theorem predictLoop_exit (fuel k : Nat) (out : List Prediction) (p : Prediction) (q : Q)
    (h : p.label = -1) :
    predictLoop Qi t bases s args x fuel (k + 1) out p q = some out := by
  rw [predictLoop]
  simp [h]

theorem SearchInv.initial (hQ : Qi.Bounded args.topK (finalEntry t) Holds) (hwf : t.WF) :
    ∃ acc, SearchInv Holds t bases s args x
      (addToQueue Qi s args (Qi.new args.topK) t.root (bases t.root x))
      (admittedRoot t bases s args x) acc [] [] := by
  have hbase : ∀ (q : Q) (acc : List TreeNodeValue),
      Holds q (admittedRoot t bases s args x) acc →
      acc = (admittedRoot t bases s args x).filter (finalEntry t) →
      SearchInv Holds t bases s args x q (admittedRoot t bases s args x) acc [] [] := by
    intro q acc hq hacc
    have hroot : ∀ e ∈ admittedRoot t bases s args x, e = rootEntry t bases s x := by
      intro e he
      simp only [admittedRoot] at he
      split at he
      · exact List.mem_singleton.mp he
      · cases he
    refine ⟨hq, ?_, ?_, ?_, ?_, ?_, ?_⟩
    · intro e he
      rw [hroot e he]
      exact hwf.root_lt
    · intro f hf
      rw [hacc] at hf
      exact (List.mem_filter.mp hf).2
    · intro a
      rw [hacc]
      have := (List.filter_sublist (p := finalEntry t) (admittedRoot t bases s args x)).count_le a
      simpa using this
    · intro d hd
      cases hd
    · simp [leavesBelow_nil]
    · intro hb _
      refine ⟨?_, ?_, List.sorted_nil, ?_⟩
      · intro e he
        rw [hroot e he]
        exact rootEntry_good hwf hb _ (List.mem_singleton_self _)
      · intro d hd
        cases hd
      · intro _ _ m hm
        cases hm
  cases hadm : ifAddToQueue s args t.root (bases t.root x) with
  | false =>
    have h1 : addToQueue Qi s args (Qi.new args.topK) t.root (bases t.root x) =
        Qi.new args.topK := by simp [addToQueue, hadm]
    have h2 : admittedRoot t bases s args x = [] := by simp [admittedRoot, hadm]
    refine ⟨[], hbase _ _ ?_ ?_⟩
    · rw [h1, h2]
      exact hQ.new
    · rw [h2]
      rfl
  | true =>
    have h1 : addToQueue Qi s args (Qi.new args.topK) t.root (bases t.root x) =
        Qi.push (Qi.new args.topK) (rootEntry t bases s x) := by
      simp [addToQueue, hadm, rootEntry]
    have h2 : admittedRoot t bases s args x = [rootEntry t bases s x] := by
      simp [admittedRoot, hadm]
    rcases hQ.push _ _ _ (rootEntry t bases s x) hQ.new with hacc | ⟨hk, _, fs, hfs, hlen, _⟩
    · refine ⟨if finalEntry t (rootEntry t bases s x) = true then [rootEntry t bases s x]
        else [], hbase _ _ ?_ ?_⟩
      · rw [h1, h2]
        exact hacc
      · rw [h2]
        cases hf : finalEntry t (rootEntry t bases s x) <;> simp [List.filter_cons, hf]
    · have := hfs.length_le
      simp only [List.length_nil] at this
      omega

end Search4

/-! ## Exact search with an admission predicate: the returned leaves -/

/-- The list queue obeys the law of the bounded queue for every `k`: it takes
every entry. -/
theorem listQueue_bounded (k : Int) (final : TreeNodeValue → Bool) :
    listQueue.Bounded k final (fun q l _ => q = l) where
  new := rfl
  empty := by
    intro q l _ h
    subst h
    exact List.isEmpty_iff
  push := by
    intro q l _ e h
    subst h
    exact Or.inl rfl
  top := by
    intro q l _ h hne
    subst h
    obtain ⟨e, he, hmem, hmax⟩ := maxEntry_spec q hne
    refine ⟨e, he, hmem, hmax, ?_⟩
    show (match maxEntry q with
      | none => q
      | some y => q.erase y) = q.erase e
    rw [he]

theorem exists_perm_map {α β : Type} [DecidableEq α] (g : α → β) :
    ∀ (l : List β) (L : List α), l.Perm (L.map g) → ∃ L1 : List α, L1.Perm L ∧ l = L1.map g
  | [], L, h => by
    have : L = [] := List.map_eq_nil_iff.mp h.symm.eq_nil
    subst this
    exact ⟨[], List.Perm.refl _, rfl⟩
  | b :: l, L, h => by
    have hb : b ∈ L.map g := h.subset (List.mem_cons_self _ _)
    obtain ⟨a, ha, rfl⟩ := List.mem_map.mp hb
    have h1 : L.Perm (a :: L.erase a) := List.perm_cons_erase ha
    have h2 : (g a :: l).Perm (g a :: (L.erase a).map g) := h.trans (h1.map g)
    obtain ⟨L2, hL2, hl⟩ := exists_perm_map g l (L.erase a) (List.Perm.cons_inv h2)
    exact ⟨a :: L2, (List.Perm.cons a hL2).trans h1.symm, by rw [hl]; rfl⟩

section Leaves

variable {t : Tree} {bases : Nat → List Feature → ℚ} {s : PLT} {args : Args}
variable {x : List Feature}

theorem parentIter_add : ∀ (i j n : Nat),
    t.parentIter (i + j) n = (t.parentIter i n).bind (t.parentIter j)
  | 0, j, n => by simp [parentIter]
  | i + 1, j, n => by
    have h : i + 1 + j = (i + j) + 1 := by omega
    rw [h, parentIter, parentIter]
    cases hp : t.parent n with
    | none => rfl
    | some p => simp [parentIter_add i j p]

theorem parentIter_cycle {a d : Nat} (h : t.parentIter d a = some a) :
    ∀ k, t.parentIter (k * d) a = some a
  | 0 => by simp [parentIter]
  | k + 1 => by
    rw [Nat.succ_mul, parentIter_add, parentIter_cycle h k]
    exact h

theorem Tree.WF.parentIter_inj (hwf : t.WF) {n a i j : Nat} (hn : n < t.nodes.length)
    (hi : t.parentIter i n = some a) (hj : t.parentIter j n = some a) : i = j := by
  have key : ∀ {i j : Nat}, i < j → t.parentIter i n = some a → t.parentIter j n = some a →
      False := by
    intro i j hij hi hj
    obtain ⟨d, rfl⟩ : ∃ d, j = i + d := ⟨j - i, by omega⟩
    rw [parentIter_add, hi] at hj
    have hcyc := parentIter_cycle hj t.nodes.length
    have ha := hwf.ancestor_lt hn hi
    have hd : 0 < d := by omega
    have hle : t.nodes.length ≤ t.nodes.length * d := Nat.le_mul_of_pos_right _ hd
    rw [parentIter_none_of_le (hwf.acyclic a ha) hle] at hcyc
    cases hcyc
  rcases Nat.lt_trichotomy i j with h | h | h
  · exact (key h hi hj).elim
  · exact h
  · exact (key h hj hi).elim

/-- The path from a node to the root holds no node twice. -/
theorem Tree.WF.pathToRoot_nodup (hwf : t.WF) {n : Nat} (hn : n < t.nodes.length) :
    (t.pathToRoot n).Nodup := by
  apply List.Nodup.filterMap _ (List.nodup_range _)
  intro i j a hi hj
  exact hwf.parentIter_inj hn (Option.mem_def.mp hi) (Option.mem_def.mp hj)

/-- Two nodes with the same label are the same leaf. -/
theorem Tree.WF.label_inj (hwf : t.WF) {n m : Nat} (hn : n < t.nodes.length)
    (hm : m < t.nodes.length) (hl : 0 ≤ t.label n) (h : t.label n = t.label m) : n = m := by
  have h1 := hwf.leaves_complete n hn hl
  have h2 := hwf.leaves_complete m hm (h ▸ hl)
  have h3 := List.inj_on_of_nodup_map hwf.leaves_nodup h1 h2 h
  exact (Prod.mk.inj h3).2

theorem admittedLeaves_nodup : (admittedLeaves t bases s args x).Nodup :=
  List.Nodup.filter _ (List.nodup_range _)

/-- The admitted leaves are the nodes with a label all of whose ancestors, the
node itself included, pass the admission predicate. -/
theorem Tree.WF.mem_admittedLeaves (hwf : t.WF) {n : Nat} :
    n ∈ admittedLeaves t bases s args x ↔
      n < t.nodes.length ∧ 0 ≤ t.label n ∧
        ∀ a, t.AncestorOrSelf a n → ifAddToQueue s args a (pathProbability t bases x a) = true := by
  simp only [admittedLeaves, List.mem_filter, List.mem_range, Bool.and_eq_true,
    decide_eq_true_eq, admitted, List.all_eq_true]
  constructor
  · rintro ⟨hn, hl, hall⟩
    exact ⟨hn, hl, fun a ha => hall a ((hwf.mem_pathToRoot hn).mpr ha)⟩
  · rintro ⟨hn, hl, hall⟩
    exact ⟨hn, hl, fun a ha => hall a ((hwf.mem_pathToRoot hn).mp ha)⟩

/-- The predictions of a search result are those of distinct admitted leaves. -/
theorem SearchResult.leaves {R rest : List Prediction}
    (h : SearchResult t bases s args x R rest) :
    ∃ leaves : List Nat, leaves.Nodup ∧ (∀ n ∈ leaves, n ∈ admittedLeaves t bases s args x) ∧
      R = leaves.map (leafPrediction t bases s x) := by
  obtain ⟨L1, hL1, hmap⟩ := exists_perm_map (leafPrediction t bases s x) _ _ h.1
  have hnd : L1.Nodup := hL1.nodup_iff.mpr admittedLeaves_nodup
  refine ⟨L1.take R.length, hnd.sublist (List.take_sublist _ _), ?_, ?_⟩
  · intro n hn
    exact hL1.subset (List.mem_of_mem_take hn)
  · rw [List.map_take, ← hmap, List.take_left' rfl]

end Leaves

/-! ## Exact search with an admission predicate: the ranking -/

theorem ifAddToQueue_node_threshold {s : PLT} {args : Args} (hthr : s.thresholds ≠ [])
    (hargs : args.threshold ≤ 0) (n : Nat) (p : ℚ) :
    ifAddToQueue s args n p = decide (p ≥ (s.nodesThr.getD n default).th) := by
  have h : s.thresholds.length ≠ 0 := fun h => hthr (List.length_eq_zero.mp h)
  simp [ifAddToQueue, not_lt.mpr hargs, h]

section Calibration

variable {t : Tree}

theorem scanThresholds_le (thresholds : List ℚ) : ∀ (labels : List Int)
    (nTh r : TreeNodeThrExt), scanThresholds thresholds labels nTh = some r →
    r.th ≤ nTh.th ∧ ∀ l ∈ labels, ∃ v, vectorAt thresholds l = some v ∧ r.th ≤ v
  | [], nTh, r, h => by
    simp only [scanThresholds, Option.some.injEq] at h
    subst h
    exact ⟨le_refl _, fun l hl => by cases hl⟩
  | l :: rest, nTh, r, h => by
    simp only [scanThresholds] at h
    cases hv : vectorAt thresholds l with
    | none => simp [hv] at h
    | some v =>
      rw [hv] at h
      simp only at h
      by_cases hlt : v < nTh.th
      · simp only [hlt, if_true] at h
        obtain ⟨h1, h2⟩ := scanThresholds_le thresholds rest _ r h
        simp only at h1
        refine ⟨h1.trans (le_of_lt hlt), ?_⟩
        intro l1 hl1
        rcases List.mem_cons.mp hl1 with rfl | hl1
        · exact ⟨v, hv, h1⟩
        · exact h2 l1 hl1
      · simp only [hlt, if_false] at h
        obtain ⟨h1, h2⟩ := scanThresholds_le thresholds rest _ r h
        refine ⟨h1, ?_⟩
        intro l1 hl1
        rcases List.mem_cons.mp hl1 with rfl | hl1
        · exact ⟨v, hv, h1.trans (not_lt.mp hlt)⟩
        · exact h2 l1 hl1

/-- What one call of `setNodeThreshold(n)` changes: the entry `n` of `nodesThr`,
whose `th` is afterwards at most the threshold of every label of
`nodesLabels[n]`. -/
theorem setNodeThreshold_inv {s s1 : PLT} {n : Nat} (h : setNodeThreshold s n = some s1) :
    s1.thresholds = s.thresholds ∧ s1.nodesLabels = s.nodesLabels ∧
    s1.labelsWeights = s.labelsWeights ∧ s1.nodesWeights = s.nodesWeights ∧
    (∀ m, m ≠ n → s1.nodesThr[m]? = s.nodesThr[m]?) ∧
    ∃ labels r, s.nodesLabels[n]? = some labels ∧ s1.nodesThr[n]? = some r ∧
      ∀ l ∈ labels, ∃ v, vectorAt s.thresholds l = some v ∧ r.th ≤ v := by
  simp only [setNodeThreshold] at h
  cases hT : s.nodesThr[n]? with
  | none => simp [hT] at h
  | some nTh =>
    cases hL : s.nodesLabels[n]? with
    | none => simp [hT, hL] at h
    | some labels =>
      rw [hT, hL] at h
      simp only at h
      cases hS : scanThresholds s.thresholds labels { nTh with th := 1 } with
      | none => simp [hS] at h
      | some r =>
        rw [hS] at h
        simp only [Option.some.injEq] at h
        subst h
        have hn : n < s.nodesThr.length := by
          by_contra hcon
          rw [List.getElem?_eq_none (by omega)] at hT
          cases hT
        refine ⟨rfl, rfl, rfl, rfl, ?_, labels, r, rfl, ?_,
          (scanThresholds_le _ _ _ _ hS).2⟩
        · intro m hm
          show (s.nodesThr.set n r)[m]? = s.nodesThr[m]?
          exact List.getElem?_set_ne (fun h1 => hm h1.symm)
        · simp [List.getElem?_set, hn]

/-- The loop `for (auto& n : tree->nodes) setNodeThreshold(n)` over the nodes
`ns`: afterwards the threshold of every node of `ns` is at most the threshold of
every label in the cache list of the node. -/
theorem setNodeThresholds_inv : ∀ (ns : List Nat) {s s1 : PLT},
    setNodeThresholds ns s = some s1 →
    s1.thresholds = s.thresholds ∧ s1.nodesLabels = s.nodesLabels ∧
    s1.labelsWeights = s.labelsWeights ∧ s1.nodesWeights = s.nodesWeights ∧
    (∀ m, m ∉ ns → s1.nodesThr[m]? = s.nodesThr[m]?) ∧
    ∀ n ∈ ns, ∃ labels r, s.nodesLabels[n]? = some labels ∧ s1.nodesThr[n]? = some r ∧
      ∀ l ∈ labels, ∃ v, vectorAt s.thresholds l = some v ∧ r.th ≤ v
  | [], s, s1, h => by
    simp only [setNodeThresholds, Option.some.injEq] at h
    subst h
    exact ⟨rfl, rfl, rfl, rfl, fun _ _ => rfl, fun n hn => by cases hn⟩
  | n :: rest, s, s1, h => by
    simp only [setNodeThresholds] at h
    cases h1 : setNodeThreshold s n with
    | none => simp [h1] at h
    | some s2 =>
      rw [h1] at h
      simp only at h
      obtain ⟨a1, a2, a3, a4, a5, labels, r, a6, a7, a8⟩ := setNodeThreshold_inv h1
      obtain ⟨b1, b2, b3, b4, b5, b6⟩ := setNodeThresholds_inv rest h
      refine ⟨b1.trans a1, b2.trans a2, b3.trans a3, b4.trans a4, ?_, ?_⟩
      · intro m hm
        have hm1 : m ≠ n := fun h2 => hm (h2 ▸ List.mem_cons_self _ _)
        have hm2 : m ∉ rest := fun h2 => hm (List.mem_cons_of_mem _ h2)
        rw [b5 m hm2, a5 m hm1]
      · intro m hm
        by_cases hmr : m ∈ rest
        · obtain ⟨labels1, r1, c1, c2, c3⟩ := b6 m hmr
          rw [a2] at c1
          rw [a1] at c3
          exact ⟨labels1, r1, c1, c2, c3⟩
        · have hmn : m = n := by
            rcases List.mem_cons.mp hm with h2 | h2
            · exact h2
            · exact absurd h2 hmr
          subst hmn
          exact ⟨labels, r, a6, by rw [b5 m hmr]; exact a7, a8⟩

/-- The walk of `calculateNodesLabels` from a leaf to the root appends the label
to the list of every node on the way and leaves the other entries as they are. -/
theorem pushLabelUp_covers (l : Int) : ∀ (fuel : Nat) (n : Nat) (NL NL1 : List (List Int)),
    pushLabelUp t l fuel (some n) NL = some NL1 →
    (∀ a, t.AncestorOrSelf a n → l ∈ NL1.getD a []) ∧
    (∀ a l1, l1 ∈ NL.getD a [] → l1 ∈ NL1.getD a [])
  | 0, _, _, _, h => by simp [pushLabelUp] at h
  | fuel + 1, n, NL, NL1, h => by
    simp only [pushLabelUp, pushBack] at h
    by_cases hn : n < NL.length
    · simp only [hn, if_true] at h
      have hself : l ∈ (List.modify (fun b => b ++ [l]) n NL).getD n [] := by
        rw [modify_getD]
        simp [hn]
      have hkeep : ∀ a l1, l1 ∈ NL.getD a [] →
          l1 ∈ (List.modify (fun b => b ++ [l]) n NL).getD a [] := by
        intro a l1 h1
        rw [modify_getD]
        exact List.mem_append_left _ h1
      cases hp : t.parent n with
      | none =>
        rw [hp] at h
        simp only [pushLabelUp, Option.some.injEq] at h
        subst h
        refine ⟨?_, hkeep⟩
        rintro a ⟨k, hk⟩
        cases k with
        | zero =>
          simp only [parentIter, Option.some.injEq] at hk
          subst hk
          exact hself
        | succ k => simp [parentIter, hp] at hk
      | some p =>
        rw [hp] at h
        obtain ⟨h1, h2⟩ := pushLabelUp_covers l fuel p _ NL1 h
        refine ⟨?_, fun a l1 h3 => h2 a l1 (hkeep a l1 h3)⟩
        rintro a ⟨k, hk⟩
        cases k with
        | zero =>
          simp only [parentIter, Option.some.injEq] at hk
          subst hk
          exact h2 _ _ hself
        | succ k =>
          simp only [parentIter, hp, Option.some_bind] at hk
          exact h1 a ⟨k, hk⟩
    · simp [hn] at h

theorem labelsLoop_covers (fuel : Nat) : ∀ (es : List (Int × Nat)) (NL NL1 : List (List Int)),
    labelsLoop t fuel es NL = some NL1 →
    (∀ e ∈ es, ∀ a, t.AncestorOrSelf a e.2 → e.1 ∈ NL1.getD a []) ∧
    (∀ a l1, l1 ∈ NL.getD a [] → l1 ∈ NL1.getD a [])
  | [], NL, NL1, h => by
    simp only [labelsLoop, Option.some.injEq] at h
    subst h
    exact ⟨fun e he => (by cases he), fun _ _ h1 => h1⟩
  | e :: es, NL, NL1, h => by
    simp only [labelsLoop] at h
    cases h1 : pushLabelUp t e.1 fuel (some e.2) NL with
    | none => simp [h1] at h
    | some NL2 =>
      rw [h1] at h
      simp only at h
      obtain ⟨a1, a2⟩ := pushLabelUp_covers e.1 fuel e.2 NL NL2 h1
      obtain ⟨b1, b2⟩ := labelsLoop_covers fuel es NL2 NL1 h
      refine ⟨?_, fun a l1 h2 => b2 a l1 (a2 a l1 h2)⟩
      intro e1 he1 a ha
      rcases List.mem_cons.mp he1 with rfl | he1
      · exact b2 a _ (a1 a ha)
      · exact b1 e1 he1 a ha

/-- The function `calculateNodesLabels` changes the label cache only, and the cache it
builds covers the tree. -/
theorem calculateNodesLabels_covers {fuel : Nat} {s s1 : PLT}
    (h : calculateNodesLabels t fuel s = some s1)
    (hcache : s.nodesLabels.length = t.t → CacheCovers t s.nodesLabels) :
    CacheCovers t s1.nodesLabels ∧ s1.thresholds = s.thresholds ∧
      s1.labelsWeights = s.labelsWeights ∧ s1.nodesThr = s.nodesThr ∧
      s1.nodesWeights = s.nodesWeights := by
  simp only [calculateNodesLabels] at h
  by_cases hsize : t.t ≠ s.nodesLabels.length
  · simp only [hsize, ne_eq, not_false_eq_true, if_true] at h
    cases h1 : labelsLoop t fuel t.leaves (List.replicate t.t []) with
    | none => simp [h1] at h
    | some NL =>
      rw [h1] at h
      simp only [Option.some.injEq] at h
      subst h
      exact ⟨(labelsLoop_covers fuel _ _ _ h1).1, rfl, rfl, rfl, rfl⟩
  · simp only [hsize, if_false, Option.some.injEq] at h
    subst h
    exact ⟨hcache (not_not.mp hsize).symm, rfl, rfl, rfl, rfl⟩

/-- The function `setThresholds` installs `th`, and afterwards the threshold of every
node is at most the threshold of the label of every leaf below the node. -/
theorem setThresholds_covers {s0 s : PLT} {fuel0 : Nat} {th : List ℚ}
    (htree : s0.tree = some t)
    (hcache : s0.nodesLabels.length = t.t → CacheCovers t s0.nodesLabels)
    (hset : setThresholds s0 fuel0 th = some s) :
    s.thresholds = th ∧ s.labelsWeights = s0.labelsWeights ∧
    s.nodesWeights = s0.nodesWeights ∧
    ∀ e ∈ t.leaves, ∀ a, a < t.nodes.length → t.AncestorOrSelf a e.2 →
      ∃ v, vectorAt th e.1 = some v ∧ (s.nodesThr.getD a default).th ≤ v := by
  have htree1 : (Model.setThresholds s0 th).tree = some t := htree
  simp only [setThresholds, htree1] at hset
  cases h1 : calculateNodesLabels t fuel0 (Model.setThresholds s0 th) with
  | none => simp [h1] at hset
  | some s2 =>
    rw [h1] at hset
    simp only at hset
    obtain ⟨hcov, a1, a2, a3, a4⟩ := calculateNodesLabels_covers h1 hcache
    have a1 : s2.thresholds = th := a1
    have a2 : s2.labelsWeights = s0.labelsWeights := a2
    have a4 : s2.nodesWeights = s0.nodesWeights := a4
    obtain ⟨b1, b2, b3, b4, _, b6⟩ := setNodeThresholds_inv _ hset
    have c1 : (if t.t ≠ s2.nodesThr.length then
        { s2 with nodesThr := resize s2.nodesThr t.t { th := 0, label := 0 } }
        else s2).thresholds = th := by
      split
      · exact a1
      · exact a1
    have c2 : (if t.t ≠ s2.nodesThr.length then
        { s2 with nodesThr := resize s2.nodesThr t.t { th := 0, label := 0 } }
        else s2).nodesLabels = s2.nodesLabels := by
      split <;> rfl
    have c3 : (if t.t ≠ s2.nodesThr.length then
        { s2 with nodesThr := resize s2.nodesThr t.t { th := 0, label := 0 } }
        else s2).labelsWeights = s0.labelsWeights := by
      split
      · exact a2
      · exact a2
    have c4 : (if t.t ≠ s2.nodesThr.length then
        { s2 with nodesThr := resize s2.nodesThr t.t { th := 0, label := 0 } }
        else s2).nodesWeights = s0.nodesWeights := by
      split
      · exact a4
      · exact a4
    refine ⟨b1.trans c1, b3.trans c3, b4.trans c4, ?_⟩
    intro e he a ha hanc
    obtain ⟨labels, r, d1, d2, d3⟩ := b6 a (List.mem_range.mpr ha)
    rw [c2] at d1
    rw [c1] at d3
    have hmem : e.1 ∈ labels := by
      have := hcov e he a hanc
      rw [List.getD_eq_getElem?_getD, d1] at this
      exact this
    obtain ⟨v, hv, hle⟩ := d3 e.1 hmem
    refine ⟨v, hv, ?_⟩
    rw [List.getD_eq_getElem?_getD, d2]
    exact hle

end Calibration

section Complete

variable {t : Tree} {bases : Nat → List Feature → ℚ} {x : List Feature}

theorem pathProbability_nonneg (hb : ProbabilityTable bases x) (n : Nat) :
    0 ≤ pathProbability t bases x n := by
  apply List.prod_nonneg
  intro p hp
  obtain ⟨a, _, rfl⟩ := List.mem_map.mp hp
  exact (hb a).1

/-- The path probability does not grow from a node to the nodes below it. -/
theorem Tree.WF.pathProbability_le (hwf : t.WF) (hb : ProbabilityTable bases x) :
    ∀ (k : Nat) {n a : Nat}, t.parentIter k n = some a →
    pathProbability t bases x n ≤ pathProbability t bases x a
  | 0, n, a, h => by
    simp only [parentIter, Option.some.injEq] at h
    rw [h]
  | k + 1, n, a, h => by
    simp only [parentIter] at h
    cases hp : t.parent n with
    | none => simp [hp] at h
    | some p =>
      rw [hp] at h
      have hc := (hwf.parent_valid hp).2
      have h1 := hwf.pathProbability_le hb k h
      have h2 : pathProbability t bases x n ≤ pathProbability t bases x p := by
        rw [hwf.pathProbability_child hc]
        exact mul_le_of_le_one_right (pathProbability_nonneg hb p) (hb n).2
      exact h2.trans h1

end Complete

/-! ## Calibrator: label weights -/

section Weights

variable {t : Tree}

end Weights

/-- The pruning queue obeys the law of the bounded queue. -/
theorem pruningQueue_bounded (t : Tree) (k : Int) :
    (pruningQueue t).Bounded k (finalEntry t)
      (fun q l acc => q.k = k ∧ q.main = l ∧ q.finals = acc) where
  new := ⟨rfl, rfl, rfl⟩
  empty := by
    rintro q l acc ⟨_, h, _⟩
    subst h
    exact List.isEmpty_iff
  push := by
    rintro q l acc x ⟨hk, hl, hacc⟩
    subst hk hl hacc
    by_cases hc : 0 < q.k ∧
        q.k.toNat ≤ (q.finals.filter (fun f => decide (x.value ≤ f.value))).length
    · have hpush : (pruningQueue t).push q x = q := if_pos hc
      right
      rw [hpush]
      refine ⟨hc.1, ⟨rfl, rfl, rfl⟩, ?_⟩
      refine ⟨(q.finals.filter (fun f => decide (x.value ≤ f.value))).take q.k.toNat, ?_, ?_,
        ?_⟩
      · exact ((List.take_sublist _ _).trans (List.filter_sublist _)).subperm
      · rw [List.length_take]
        exact Nat.min_eq_left hc.2
      · intro f hf
        have := (List.mem_filter.mp (List.mem_of_mem_take hf)).2
        exact of_decide_eq_true this
    · have hpush : (pruningQueue t).push q x =
          { q with main := x :: q.main
                   finals := if finalEntry t x then x :: q.finals else q.finals } :=
        if_neg hc
      left
      rw [hpush]
      exact ⟨rfl, rfl, rfl⟩
  top := by
    rintro q l acc ⟨hk, hl, hacc⟩ hne
    subst hk hl hacc
    obtain ⟨e, he, hmem, hmax⟩ := maxEntry_spec q.main hne
    have hpop : (pruningQueue t).pop q = { q with main := q.main.erase e } := by
      show (match maxEntry q.main with
        | none => q
        | some y => { q with main := q.main.erase y }) = _
      rw [he]
    refine ⟨e, he, hmem, hmax, ?_⟩
    rw [hpop]
    exact ⟨rfl, rfl, rfl⟩

/-! ## Router: operating without a tree -/

/-- Without a tree both batch overloads of the router throw, on every input. -/
theorem router_no_tree (s : PLT) (fuel : Nat) (labels : List (List Int))
    (h : s.tree = none) :
    getNodesToUpdateRows s fuel labels = .error .runtimeError ∧
    getNodesUpdates s fuel labels = .error .runtimeError := by
  simp [getNodesToUpdateRows, getNodesUpdates, h]

theorem rowsToUpdate_returns {t : Tree} (hwf : t.WF) {fuel : Nat}
    (hfuel : t.nodes.length ≤ fuel) : ∀ (labels : List (List Int)),
    ∃ rows, rowsToUpdate t fuel labels = .ok rows ∧ rows.length = labels.length
  | [] => ⟨[], rfl, rfl⟩
  | rLabels :: labels => by
    obtain ⟨P, hP, _⟩ := getNodesToUpdate_spec hwf hfuel rLabels
    obtain ⟨rows, hrows, hlen⟩ := rowsToUpdate_returns hwf hfuel labels
    refine ⟨(nodeEntries P 1 ++
      nodeEntries (if P = [] then [t.root] else negativeLoop t P []) 0) :: rows, ?_, ?_⟩
    · simp only [rowsToUpdate, hP, hrows]
    · simp [hlen]

/-- With a tree that has the tree invariants the row-major overload returns one
list per row. -/
theorem getNodesToUpdateRows_returns (s : PLT) {t : Tree} (htree : s.tree = some t)
    (hwf : t.WF) {fuel : Nat} (hfuel : t.nodes.length ≤ fuel) (labels : List (List Int)) :
    ∃ rows, getNodesToUpdateRows s fuel labels = .ok rows ∧ rows.length = labels.length := by
  simp only [getNodesToUpdateRows, htree]
  exact rowsToUpdate_returns hwf hfuel labels

/-- C21 (failing input): without a tree both `PLT::getNodesToUpdate(labels)` and
`PLT::getNodesUpdates(labels)` throw `std::runtime_error`; with the tree of seven
nodes, for which `m = 4` is the number of leaves, and the one row with label `0`
the first returns the five `(node, 1.0 or 0)` pairs of the row, while the second
writes `nodesDataPoints[4]` in its table of `m = 4` lists and returns no
result. -/
theorem getNodesUpdates_with_tree_fails :
    getNodesToUpdateRows pltNoTree 7 [[0]] = .error .runtimeError ∧
    getNodesUpdates pltNoTree 7 [[0]] = .error .runtimeError ∧
    plt7.tree = some tree7 ∧ plt7.m = tree7.leaves.length ∧
    getNodesToUpdateRows plt7 7 [[0]] = .ok [[(0, 1), (1, 1), (3, 1), (4, 0), (2, 0)]] ∧
    getNodesUpdates plt7 7 [[0]] = .error .outOfRange := by
  decide!

/-! ## The single-label prediction -/

theorem predictForLabel_no_weights (t : Tree) (bases : Nat → List Feature → ℚ) (s : PLT)
    (fuel : Nat) (label : Int) (features : List Feature) (h : s.labelsWeights = [])
    {r : ℚ × PLT} (hr : predictForLabel t bases s fuel label features = some r) : r.2 = s := by
  simp only [predictForLabel, h, ne_eq, not_true_eq_false, if_false] at hr
  cases hf : t.findLeaf label with
  | none =>
    rw [hf] at hr
    simp only [Option.some.injEq] at hr
    rw [← hr]
  | some n =>
    rw [hf] at hr
    simp only at hr
    cases hw : forLabelWalk t bases features fuel n (bases n features) with
    | none => simp [hw] at hr
    | some v =>
      rw [hw] at hr
      simp only [Option.some.injEq] at hr
      rw [← hr]

/-- C25 (failing input): on the tree of seven nodes with the label weights
`[2, 3, 0, 1]` installed by `setLabelsWeights`, `PLT::predictForLabel` for label
`0` returns the path probability `3/8` of the leaf of label `0` and leaves
`labelsWeights` as `[3/8, 3, 0, 1]`: the weight of label `0` is overwritten by
the returned value, which is not multiplied by the weight; a second call with
the same arguments sees the changed array. Without label weights the model
state is left as it was. -/
theorem predictForLabel_writes_weights :
    (predictForLabel tree7 bases7 plt7Weighted 7 0 []).map (fun r => r.1) = some (3 / 8) ∧
    plt7Weighted.labelsWeights = [2, 3, 0, 1] ∧
    (predictForLabel tree7 bases7 plt7Weighted 7 0 []).map (fun r => r.2.labelsWeights) =
      some [3 / 8, 3, 0, 1] ∧
    (predictForLabel tree7 bases7 plt7Weighted 7 0 []).map (fun r => r.2.nodesWeights) =
      some plt7Weighted.nodesWeights ∧
    predictForLabel tree7 bases7 plt7 7 0 [] = some (3 / 8, plt7) ∧
    (predict listQueue tree7 bases7 plt7Weighted args7 9 [] []).map
      (fun R => R.filter (fun r => decide (r.label = 0))) = some [⟨0, 3 / 4⟩] := by
  decide!

/-! ## Calibrator: the label cache -/

section Cache

variable {t : Tree}

theorem lookup_of_mem_nodup {α β : Type} [DecidableEq α] : ∀ (L : List (α × β)) (a : α) (b : β),
    (L.map Prod.fst).Nodup → (a, b) ∈ L → L.lookup a = some b
  | [], _, _, _, h => by cases h
  | (a1, b1) :: L, a, b, hnd, h => by
    rw [List.map_cons, List.nodup_cons] at hnd
    rcases List.mem_cons.mp h with h1 | h1
    · cases h1
      simp [List.lookup]
    · have hne : a ≠ a1 := by
        rintro rfl
        exact hnd.1 (List.mem_map.mpr ⟨(a, b), h1, rfl⟩)
      have : (a == a1) = false := by simpa using hne
      simp only [List.lookup, this]
      exact lookup_of_mem_nodup L a b hnd.2 h1

/-- The lookup in `tree->leaves` finds exactly the entries of the map. -/
theorem Tree.WF.findLeaf_iff (hwf : t.WF) {l : Int} {n : Nat} :
    t.findLeaf l = some n ↔ (l, n) ∈ t.leaves :=
  ⟨findLeaf_mem, lookup_of_mem_nodup _ _ _ hwf.leaves_nodup⟩

theorem Tree.WF.pathToRoot_of_parent_none (hwf : t.WF) {n : Nat} (hn : n < t.nodes.length)
    (hp : t.parent n = none) : t.pathToRoot n = [n] := by
  have hroot : n = t.root := by
    by_contra hne
    obtain ⟨p, hp1, _⟩ := hwf.parent_of_ne_root n hn hne
    rw [hp] at hp1
    cases hp1
  rw [hroot]
  exact hwf.pathToRoot_root

theorem pathToRoot_length_le (n : Nat) : (t.pathToRoot n).length ≤ t.nodes.length := by
  have := List.length_filterMap_le (fun k => t.parentIter k n) (List.range t.nodes.length)
  simpa [Tree.pathToRoot] using this

/-- The walk of `calculateNodesLabels` from a node to the root returns and appends
the label once to the list of every node on the path, and to no other list. -/
theorem Tree.WF.pushLabelUp_exact (hwf : t.WF) (l : Int) : ∀ (fuel n : Nat)
    (NL : List (List Int)), n < t.nodes.length → NL.length = t.nodes.length →
    (t.pathToRoot n).length ≤ fuel →
    ∃ NL1, pushLabelUp t l fuel (some n) NL = some NL1 ∧ NL1.length = t.nodes.length ∧
      ∀ a, NL1.getD a [] = NL.getD a [] ++ (if a ∈ t.pathToRoot n then [l] else [])
  | 0, n, NL, hn, _, hfuel => by
    cases hp : t.parent n with
    | none =>
      rw [hwf.pathToRoot_of_parent_none hn hp] at hfuel
      simp at hfuel
    | some p =>
      rw [hwf.pathToRoot_child (hwf.parent_valid hp).2] at hfuel
      simp at hfuel
  | fuel + 1, n, NL, hn, hlen, hfuel => by
    have hn1 : n < NL.length := by omega
    simp only [pushLabelUp, pushBack, hn1, if_true]
    have hmod : ∀ a, (List.modify (fun b => b ++ [l]) n NL).getD a [] =
        NL.getD a [] ++ (if a = n then [l] else []) := by
      intro a
      rw [modify_getD]
      by_cases h : a = n <;> simp [h, hn1]
    cases hp : t.parent n with
    | none =>
      have hnone : pushLabelUp t l fuel none (List.modify (fun b => b ++ [l]) n NL) =
          some (List.modify (fun b => b ++ [l]) n NL) := by
        cases fuel <;> rfl
      refine ⟨List.modify (fun b => b ++ [l]) n NL, hnone,
        by rw [List.length_modify]; exact hlen, ?_⟩
      intro a
      rw [hmod, hwf.pathToRoot_of_parent_none hn hp]
      simp
    | some p =>
      obtain ⟨hplt, hc⟩ := hwf.parent_valid hp
      have hpath := hwf.pathToRoot_child hc
      have hnd := hwf.pathToRoot_nodup hn
      rw [hpath] at hnd hfuel
      obtain ⟨NL1, h1, h2, h3⟩ := hwf.pushLabelUp_exact l fuel p
        (List.modify (fun b => b ++ [l]) n NL) hplt
        (by rw [List.length_modify]; exact hlen)
        (by simpa using hfuel)
      refine ⟨NL1, h1, h2, ?_⟩
      intro a
      rw [h3, hmod, hpath, List.append_assoc]
      congr 1
      have hnot : n ∉ t.pathToRoot p := (List.nodup_cons.mp hnd).1
      by_cases ha : a = n
      · subst ha
        simp [hnot]
      · simp [ha]

/-- The loop of `calculateNodesLabels` over `tree->leaves` returns, and the list of
every node gains the labels of the entries whose leaf has the node on its path
to the root, in the order of the entries. -/
theorem Tree.WF.labelsLoop_exact (hwf : t.WF) {fuel : Nat} (hfuel : t.nodes.length ≤ fuel) :
    ∀ (es : List (Int × Nat)) (NL : List (List Int)), (∀ e ∈ es, e.2 < t.nodes.length) →
    NL.length = t.nodes.length →
    ∃ NL1, labelsLoop t fuel es NL = some NL1 ∧ NL1.length = t.nodes.length ∧
      ∀ a, NL1.getD a [] = NL.getD a [] ++
        (es.filter (fun e => decide (a ∈ t.pathToRoot e.2))).map Prod.fst
  | [], NL, _, hlen => ⟨NL, rfl, hlen, fun a => by simp⟩
  | e :: es, NL, hes, hlen => by
    obtain ⟨NL2, h1, h2, h3⟩ := hwf.pushLabelUp_exact e.1 fuel e.2 NL
      (hes e (List.mem_cons_self _ _)) hlen ((pathToRoot_length_le e.2).trans hfuel)
    obtain ⟨NL1, g1, g2, g3⟩ := hwf.labelsLoop_exact hfuel es NL2
      (fun e1 he1 => hes e1 (List.mem_cons_of_mem _ he1)) h2
    refine ⟨NL1, by simp only [labelsLoop, h1, g1], g2, ?_⟩
    intro a
    rw [g3, h3, List.append_assoc]
    congr 1
    by_cases ha : a ∈ t.pathToRoot e.2
    · simp [List.filter_cons, ha]
    · simp [List.filter_cons, ha]

/-- C24: for every tree with the tree invariants, `PLT::calculateNodesLabels` run
on an empty cache returns (with fuel for the longest path to the root) and
changes the cache only; afterwards the cache has one list per node, the list
`nodesLabels[n]` contains the label `l` if and only if the leaf of `l` lies in
the subtree of `n` (`n` itself included), each such label exactly once, and a
second call on the result leaves the model as it is. -/
theorem calculateNodesLabels_cache (t : Tree) (hwf : t.WF) (s : PLT)
    (hempty : s.nodesLabels = []) (fuel : Nat) (hfuel : t.nodes.length ≤ fuel) :
    ∃ s1, calculateNodesLabels t fuel s = some s1 ∧
      s1 = { s with nodesLabels := s1.nodesLabels } ∧
      s1.nodesLabels.length = t.nodes.length ∧
      (∀ n l, l ∈ s1.nodesLabels.getD n [] ↔
        ∃ leaf, t.findLeaf l = some leaf ∧ t.InSubtree n leaf) ∧
      (∀ n l leaf, t.findLeaf l = some leaf → t.InSubtree n leaf →
        (s1.nodesLabels.getD n []).count l = 1) ∧
      (∀ n, (s1.nodesLabels.getD n []).Nodup) ∧
      calculateNodesLabels t fuel s1 = some s1 := by
  have hN : 0 < t.nodes.length := Nat.lt_of_le_of_lt (Nat.zero_le _) hwf.root_lt
  obtain ⟨NL, h1, h2, h3⟩ := hwf.labelsLoop_exact hfuel t.leaves (List.replicate t.t [])
    (fun e he => (hwf.leaves_sound e he).1) (by rw [List.length_replicate, hwf.size_t])
  have hsize : t.t ≠ s.nodesLabels.length := by
    rw [hempty, hwf.size_t]
    simp only [List.length_nil]
    omega
  have hget : ∀ a, NL.getD a [] =
      (t.leaves.filter (fun e => decide (a ∈ t.pathToRoot e.2))).map Prod.fst := by
    intro a
    rw [h3, getD_replicate_nil]
    rfl
  have hmem : ∀ n l, l ∈ NL.getD n [] ↔
      ∃ leaf, t.findLeaf l = some leaf ∧ t.InSubtree n leaf := by
    intro n l
    rw [hget]
    constructor
    · intro h
      obtain ⟨e, he, rfl⟩ := List.mem_map.mp h
      obtain ⟨he1, he2⟩ := List.mem_filter.mp he
      have hlt := (hwf.leaves_sound e he1).1
      exact ⟨e.2, hwf.findLeaf_iff.mpr he1,
        hwf.ancestorOrSelf_iff_inSubtree.mp
          ((hwf.mem_pathToRoot hlt).mp (of_decide_eq_true he2))⟩
    · rintro ⟨leaf, hf, hsub⟩
      have he1 := hwf.findLeaf_iff.mp hf
      have hlt := (hwf.leaves_sound _ he1).1
      refine List.mem_map.mpr ⟨(l, leaf), List.mem_filter.mpr ⟨he1, ?_⟩, rfl⟩
      exact decide_eq_true
        ((hwf.mem_pathToRoot hlt).mpr (hwf.ancestorOrSelf_iff_inSubtree.mpr hsub))
  have hnd : ∀ n, (NL.getD n []).Nodup := by
    intro n
    rw [hget]
    exact hwf.leaves_nodup.sublist ((List.filter_sublist _).map _)
  refine ⟨{ s with nodesLabels := NL }, ?_, rfl, h2, hmem, ?_, hnd, ?_⟩
  · simp only [calculateNodesLabels, hsize, ne_eq, not_false_eq_true, if_true, h1]
  · intro n l leaf hf hsub
    exact List.count_eq_one_of_mem (hnd n) ((hmem n l).mpr ⟨leaf, hf, hsub⟩)
  · have : ¬ (t.t ≠ NL.length) := by
      rw [h2, hwf.size_t]
      simp
    simp only [calculateNodesLabels, this, if_false]

theorem calculateNodesLabels_cache_witness :
    (plt7.nodesLabels = [] ∧ tree7.nodes.length ≤ 7) ∧
    (∃ s1, calculateNodesLabels tree7 7 plt7 = some s1 ∧
      s1 = { plt7 with nodesLabels := s1.nodesLabels } ∧
      s1.nodesLabels.length = tree7.nodes.length ∧
      (∀ n l, l ∈ s1.nodesLabels.getD n [] ↔
        ∃ leaf, tree7.findLeaf l = some leaf ∧ tree7.InSubtree n leaf) ∧
      (∀ n l leaf, tree7.findLeaf l = some leaf → tree7.InSubtree n leaf →
        (s1.nodesLabels.getD n []).count l = 1) ∧
      (∀ n, (s1.nodesLabels.getD n []).Nodup) ∧
      calculateNodesLabels tree7 7 s1 = some s1) ∧
    (calculateNodesLabels tree7 7 plt7).map (fun s => s.nodesLabels) =
      some [[0, 1, 2, 3], [0, 1], [2, 3], [0], [1], [2], [3]] :=
  ⟨⟨rfl, by decide⟩, calculateNodesLabels_cache tree7 tree7_wf plt7 rfl 7 (by decide),
    by decide⟩

end Cache

/-! ## Path probabilities in both searchers -/

section BeamInvariant

variable {t : Tree} {bases : Nat → List Feature → ℚ} {s : PLT} {args : Args}
variable {features : List (List Feature)}

end BeamInvariant

section ExactInvariant

variable {Q : Type} {Qi : TopKQueue Q}
variable {Holds : Q → List TreeNodeValue → List TreeNodeValue → Prop}
variable {t : Tree} {bases : Nat → List Feature → ℚ} {s : PLT} {args : Args}
variable {x : List Feature}

/-- The queue the exact search starts from holds at most the entry of the root,
whose path probability is the probability the root classifier gives. -/
theorem initial_queuePaths (hQ : Qi.Bounded args.topK (finalEntry t) Holds) (hwf : t.WF) :
    ∃ l acc, Holds (addToQueue Qi s args (Qi.new args.topK) t.root (bases t.root x)) l acc ∧
      QueuePaths t bases s x l := by
  obtain ⟨acc, hinv⟩ := @SearchInv.initial Q Qi Holds t bases s args x hQ hwf
  refine ⟨_, acc, hinv.holds, ?_⟩
  intro e he
  have hroot : e = rootEntry t bases s x := by
    simp only [admittedRoot] at he
    split at he
    · exact List.mem_singleton.mp he
    · cases he
  rw [hroot, hwf.rootEntry_eq]
  exact ⟨hwf.root_lt, rfl⟩

/-- One pop of the exact search with the expansion of the popped entry: the
popped entry and the entries the queue holds afterwards carry path
probabilities. -/
theorem queuePaths_step (hQ : Qi.Bounded args.topK (finalEntry t) Holds) (hwf : t.WF)
    {q : Q} {l acc : List TreeNodeValue} (hq : Holds q l acc)
    (hl : QueuePaths t bases s x l) (hne : l ≠ []) :
    ∃ (e : TreeNodeValue) (l1 acc1 : List TreeNodeValue), Qi.top q = some e ∧
      e.node < t.nodes.length ∧ e = nodeEntry t bases s x e.node ∧
      Holds ((t.children e.node).foldl
        (fun q c => addToQueue Qi s args q c (e.prob * bases c x)) (Qi.pop q)) l1 acc1 ∧
      QueuePaths t bases s x l1 := by
  obtain ⟨e, htop, hel, _, hpop⟩ := hQ.top q l acc hq hne
  obtain ⟨A, Dn, hA, hperm, _⟩ :=
    @fold_addToQueue_bounded Q Qi Holds t bases s args x hQ e.prob (t.children e.node)
      (Qi.pop q) (l.erase e) acc hpop
  obtain ⟨helt, hee⟩ := hl e hel
  refine ⟨e, A ++ l.erase e, _, htop, helt, hee, hA, ?_⟩
  intro c hc
  rcases List.mem_append.mp hc with h1 | h1
  · have h2 := hperm.subset (List.mem_append_left _ h1)
    obtain ⟨n, hn, rfl⟩ := List.mem_map.mp (List.mem_filter.mp h2).1
    have hprob : e.prob = pathProbability t bases x e.node := by
      rw [hee]
      rfl
    rw [hprob, hwf.childEntry_eq hn]
    exact ⟨(hwf.child_parent e.node helt n hn).1, rfl⟩
  · exact hl c (List.mem_of_mem_erase h1)

/-- Every call of `predictNextLabel` on a queue whose entries carry path
probabilities leaves such a queue and returns the label `-1` or the prediction
of a node with a label: the final score of its path probability. -/
theorem predictNextLabel_paths (hQ : Qi.Bounded args.topK (finalEntry t) Holds) (hwf : t.WF) :
    ∀ (fuel : Nat) (q : Q) (l acc : List TreeNodeValue) (p : Prediction) (q1 : Q),
    Holds q l acc → QueuePaths t bases s x l →
    predictNextLabel Qi t bases s args x fuel q = some (p, q1) →
    ∃ l1 acc1, Holds q1 l1 acc1 ∧ QueuePaths t bases s x l1 ∧
      (p.label = -1 ∨ ∃ n, 0 ≤ t.label n ∧ p = leafPrediction t bases s x n)
  | 0, _, _, _, _, _, _, _, h => by simp [predictNextLabel] at h
  | fuel + 1, q, l, acc, p, q1, hq, hl, h => by
    rw [predictNextLabel] at h
    by_cases hempty : Qi.empty q = true
    · simp only [hempty, if_true, Option.some.injEq, Prod.mk.injEq] at h
      obtain ⟨rfl, rfl⟩ := h
      exact ⟨l, acc, hq, hl, Or.inl rfl⟩
    · have hne : l ≠ [] := fun h1 => hempty ((hQ.empty q l acc hq).mpr h1)
      obtain ⟨e, l1, acc1, htop, _, hee, hq1, hl1⟩ := queuePaths_step hQ hwf hq hl hne
      simp only [hempty, htop, Bool.false_eq_true, if_false] at h
      by_cases hleaf : 0 ≤ t.label e.node
      · simp only [hleaf, if_true, Option.some.injEq, Prod.mk.injEq] at h
        obtain ⟨rfl, rfl⟩ := h
        refine ⟨l1, acc1, hq1, hl1, Or.inr ⟨e.node, hleaf, ?_⟩⟩
        have hv : e.value = (nodeEntry t bases s x e.node).value := by rw [← hee]
        rw [hv]
        rfl
      · simp only [hleaf, if_false] at h
        exact predictNextLabel_paths hQ hwf fuel _ l1 acc1 p q1 hq1 hl1 h

end ExactInvariant

section PathAgreement

end PathAgreement

/-! ## Model conversion: the tree of a layered model -/

section TreeBuilder

theorem Tree.children_of_ge {t : Tree} {m : Nat} (h : t.nodes.length ≤ m) :
    t.children m = [] := by
  simp [Tree.children, List.getElem?_eq_none h]

theorem Tree.label_of_ge {t : Tree} {m : Nat} (h : t.nodes.length ≤ m) :
    t.label m = -1 := by
  simp [Tree.label, List.getElem?_eq_none h]

theorem Tree.children_setParent (t : Tree) (c p m : Nat) (hp : p < t.nodes.length) :
    (t.setParent c p).children m =
      if m = p then t.children m ++ [c] else t.children m := by
  simp only [Tree.setParent, Tree.children, List.getElem?_modify]
  by_cases hm : m < t.nodes.length
  · rw [List.getElem?_eq_getElem hm]
    by_cases h1 : p = m <;> by_cases h2 : c = m <;> simp [h1, h2, eq_comm]
  · rw [List.getElem?_eq_none (by omega)]
    have : m ≠ p := by omega
    simp [this]

theorem Tree.label_setParent (t : Tree) (c p m : Nat) :
    (t.setParent c p).label m = t.label m := by
  simp only [Tree.setParent, Tree.label, List.getElem?_modify]
  cases t.nodes[m]? with
  | none => rfl
  | some nd => by_cases h1 : p = m <;> by_cases h2 : c = m <;> simp [h1, h2]

theorem Tree.length_setParent (t : Tree) (c p : Nat) :
    (t.setParent c p).nodes.length = t.nodes.length := by
  simp [Tree.setParent]

theorem Tree.children_createTreeNode (t : Tree) (m : Nat) :
    t.createTreeNode.2.children m = t.children m := by
  simp only [Tree.createTreeNode, Tree.children]
  by_cases hm : m < t.nodes.length
  · rw [List.getElem?_append_left hm]
  · rw [List.getElem?_eq_none (l := t.nodes) (by omega)]
    by_cases h1 : m = t.nodes.length
    · subst h1
      simp
    · rw [List.getElem?_eq_none]
      simp
      omega

theorem Tree.label_createTreeNode (t : Tree) (m : Nat) :
    t.createTreeNode.2.label m = t.label m := by
  simp only [Tree.createTreeNode, Tree.label]
  by_cases hm : m < t.nodes.length
  · rw [List.getElem?_append_left hm]
  · rw [List.getElem?_eq_none (l := t.nodes) (by omega)]
    by_cases h1 : m = t.nodes.length
    · subst h1
      simp
    · rw [List.getElem?_eq_none]
      simp
      omega

theorem Tree.children_setLabel (t : Tree) (n : Nat) (l : Int) (m : Nat) :
    (t.setLabel n l).children m = t.children m := by
  simp only [Tree.setLabel, Tree.children, List.getElem?_modify]
  cases t.nodes[m]? with
  | none => rfl
  | some nd => by_cases h1 : n = m <;> simp [h1]

theorem Tree.label_setLabel (t : Tree) (n : Nat) (l : Int) (m : Nat) :
    (t.setLabel n l).label m = if m = n ∧ n < t.nodes.length then l else t.label m := by
  simp only [Tree.setLabel, Tree.label, List.getElem?_modify]
  by_cases hm : m < t.nodes.length
  · rw [List.getElem?_eq_getElem hm]
    by_cases h1 : n = m
    · subst h1
      simp [hm]
    · have : ¬ m = n := fun h => h1 h.symm
      simp [h1, this]
  · rw [List.getElem?_eq_none (by omega)]
    have : ¬ (m = n ∧ n < t.nodes.length) := by omega
    simp [this]

theorem Tree.children_countNode (t : Tree) (n m : Nat) :
    (countNode t n).children m = t.children m := by
  simp only [countNode, Tree.children, List.getElem?_modify]
  cases t.nodes[m]? with
  | none => rfl
  | some nd => by_cases h1 : n = m <;> simp [h1]

theorem Tree.label_countNode (t : Tree) (n m : Nat) :
    (countNode t n).label m = t.label m := by
  simp only [countNode, Tree.label, List.getElem?_modify]
  cases t.nodes[m]? with
  | none => rfl
  | some nd => by_cases h1 : n = m <;> simp [h1]

theorem foldl_add_eq_sum (f : Nat → Nat) : ∀ (l : List Nat) (a : Nat),
    l.foldl (fun acc c => acc + f c) a = a + (l.map f).sum
  | [], a => by simp
  | c :: l, a => by
    simp only [List.foldl_cons, List.map_cons, List.sum_cons]
    rw [foldl_add_eq_sum f l]
    omega

theorem Tree.subtreeLeaves_countNode (t : Tree) (n m : Nat) :
    (countNode t n).subtreeLeaves m =
      if m = n ∧ n < t.nodes.length then
        (if t.children n = [] then 1 else ((t.children n).map t.subtreeLeaves).sum)
      else t.subtreeLeaves m := by
  simp only [countNode, Tree.subtreeLeaves, List.getElem?_modify]
  by_cases hm : m < t.nodes.length
  · rw [List.getElem?_eq_getElem hm]
    by_cases h1 : n = m
    · subst h1
      have h2 := foldl_add_eq_sum t.subtreeLeaves (t.children n) 0
      simp only [Tree.subtreeLeaves, Nat.zero_add] at h2
      simp [hm, h2, List.length_eq_zero]
    · have : ¬ m = n := fun h => h1 h.symm
      simp [h1, this]
  · rw [List.getElem?_eq_none (by omega)]
    have : ¬ (m = n ∧ n < t.nodes.length) := by omega
    simp [this]

theorem SameFrame.refl (t : Tree) : SameFrame t t := ⟨rfl, rfl, rfl, fun _ => rfl⟩

theorem SameFrame.trans {t t1 t2 : Tree} (h1 : SameFrame t t1) (h2 : SameFrame t1 t2) :
    SameFrame t t2 :=
  ⟨h2.1.trans h1.1, h2.2.1.trans h1.2.1, h2.2.2.1.trans h1.2.2.1,
    fun m => (h2.2.2.2 m).trans (h1.2.2.2 m)⟩

theorem Tree.sameFrame_setParent (t : Tree) (c p : Nat) : SameFrame t (t.setParent c p) :=
  ⟨rfl, rfl, t.length_setParent c p, t.label_setParent c p⟩

theorem createLayer_spec : ∀ (i : Nat) (b : TreeBuild) (nextLayer : List Nat),
    (createLayer i b nextLayer).1.tree.nodes.length = b.tree.nodes.length + i ∧
    (createLayer i b nextLayer).2 = nextLayer ++ List.range' b.tree.nodes.length i ∧
    (createLayer i b nextLayer).1.index = b.index ++ List.range' b.base_index i ∧
    (createLayer i b nextLayer).1.base_index = b.base_index + i ∧
    (createLayer i b nextLayer).1.tree.root = b.tree.root ∧
    (createLayer i b nextLayer).1.tree.leaves = b.tree.leaves ∧
    (∀ m, (createLayer i b nextLayer).1.tree.children m = b.tree.children m) ∧
    (∀ m, (createLayer i b nextLayer).1.tree.label m = b.tree.label m)
  | 0, b, nextLayer => by simp [createLayer]
  | i + 1, b, nextLayer => by
    obtain ⟨h1, h2, h3, h4, h5, h6, h7, h8⟩ := createLayer_spec i
      { tree := b.tree.createTreeNode.2, index := b.index ++ [b.base_index],
        base_index := b.base_index + 1 } (nextLayer ++ [b.tree.createTreeNode.1])
    dsimp only at h1 h2 h3 h4 h5 h6 h7 h8
    have hlen : b.tree.createTreeNode.2.nodes.length = b.tree.nodes.length + 1 := by
      simp [Tree.createTreeNode]
    have hfst : b.tree.createTreeNode.1 = b.tree.nodes.length := rfl
    simp only [createLayer]
    refine ⟨?_, ?_, ?_, ?_, ?_, ?_, ?_, ?_⟩
    · rw [h1, hlen]
      omega
    · rw [h2, hlen, hfst, List.append_assoc, List.singleton_append, ← List.range'_succ]
    · rw [h3, List.append_assoc, List.singleton_append, ← List.range'_succ]
    · rw [h4]
      omega
    · rw [h5]
      rfl
    · rw [h6]
      rfl
    · intro m
      rw [h7, Tree.children_createTreeNode]
    · intro m
      rw [h8, Tree.label_createTreeNode]

theorem linkChildren_spec (C : CscMatrix) (N r parentNode : Nat) :
    ∀ (idxs : List Nat) (t : Tree), parentNode < t.nodes.length →
    (∀ idx ∈ idxs, idx < C.indices.length ∧ C.indices.getD idx 0 < r) →
    ∃ t1, linkChildren C (List.range' N r) parentNode idxs t = some t1 ∧ SameFrame t t1 ∧
      ∀ m, t1.children m =
        if m = parentNode then
          t.children m ++ idxs.map (fun idx => N + C.indices.getD idx 0)
        else t.children m
  | [], t, _, _ => ⟨t, rfl, SameFrame.refl t, fun m => by simp⟩
  | idx :: rest, t, hp, hidx => by
    obtain ⟨h1, h2⟩ := hidx idx (List.mem_cons_self _ _)
    have hget : C.indices[idx]? = some (C.indices.getD idx 0) := by
      rw [List.getD_eq_getElem?_getD, List.getElem?_eq_getElem h1]
      rfl
    have hnext : (List.range' N r)[C.indices.getD idx 0]? = some (N + C.indices.getD idx 0) := by
      rw [List.getElem?_range' _ _ h2]
      simp
    obtain ⟨t1, ht1, hframe, hch⟩ := linkChildren_spec C N r parentNode rest
      (t.setParent (N + C.indices.getD idx 0) parentNode)
      (by rw [Tree.length_setParent]; exact hp)
      (fun i hi => hidx i (List.mem_cons_of_mem _ hi))
    refine ⟨t1, ?_, (t.sameFrame_setParent _ _).trans hframe, ?_⟩
    · simp only [linkChildren, hget, hnext]
      exact ht1
    · intro m
      rw [hch m, Tree.children_setParent t _ _ m hp]
      by_cases hm : m = parentNode
      · simp [hm]
      · simp [hm]

theorem mem_column {C : CscMatrix} {p idx : Nat} (h1 : C.indptr.getD p 0 ≤ idx)
    (h2 : idx < C.indptr.getD (p + 1) 0) : C.indices.getD idx 0 ∈ C.column p := by
  refine List.mem_map.mpr ⟨idx, ?_, rfl⟩
  rw [List.mem_range'_1]
  omega

theorem linkLayer_spec (C : CscMatrix) (off n N r : Nat) :
    ∀ (ps : List Nat) (t : Tree), off + n ≤ t.nodes.length →
    (∀ p ∈ ps, p < n ∧ p + 1 < C.indptr.length ∧
      C.indptr.getD (p + 1) 0 ≤ C.indices.length ∧ ∀ ci ∈ C.column p, ci < r) →
    ∃ t1, linkLayer C (List.range' off n) (List.range' N r) ps t = some t1 ∧ SameFrame t t1 ∧
      ∀ m, t1.children m = t.children m ++
        (ps.filter (fun p => decide (off + p = m))).flatMap
          (fun p => (C.column p).map (fun ci => N + ci))
  | [], t, _, _ => ⟨t, rfl, SameFrame.refl t, fun m => by simp⟩
  | p :: rest, t, hlen, hps => by
    obtain ⟨h1, h2, h3, h4⟩ := hps p (List.mem_cons_self _ _)
    have hstart : C.indptr[p]? = some (C.indptr.getD p 0) := by
      rw [List.getD_eq_getElem?_getD, List.getElem?_eq_getElem (by omega)]
      rfl
    have hstop : C.indptr[p + 1]? = some (C.indptr.getD (p + 1) 0) := by
      rw [List.getD_eq_getElem?_getD, List.getElem?_eq_getElem h2]
      rfl
    have hparent : (List.range' off n)[p]? = some (off + p) := by
      rw [List.getElem?_range' _ _ h1]
      simp
    obtain ⟨t1, ht1, hframe1, hch1⟩ := linkChildren_spec C N r (off + p)
      (List.range' (C.indptr.getD p 0) (C.indptr.getD (p + 1) 0 - C.indptr.getD p 0)) t
      (by omega)
      (fun idx hidx => by
        rw [List.mem_range'_1] at hidx
        exact ⟨by omega, h4 _ (mem_column hidx.1 (by omega))⟩)
    obtain ⟨t2, ht2, hframe2, hch2⟩ := linkLayer_spec C off n N r rest t1
      (by rw [hframe1.2.2.1]; exact hlen)
      (fun q hq => hps q (List.mem_cons_of_mem _ hq))
    refine ⟨t2, ?_, hframe1.trans hframe2, ?_⟩
    · simp only [linkLayer, hstart, hstop, hparent, ht1]
      exact ht2
    · intro m
      rw [hch2 m, hch1 m]
      have hmap : (List.range' (C.indptr.getD p 0)
            (C.indptr.getD (p + 1) 0 - C.indptr.getD p 0)).map
            (fun idx => N + C.indices.getD idx 0) =
          (C.column p).map (fun ci => N + ci) := by
        simp [CscMatrix.column, Function.comp_def]
      by_cases hm : off + p = m
      · subst hm
        rw [if_pos rfl, hmap]
        simp [List.filter_cons]
      · have hm1 : ¬ m = off + p := fun h => hm h.symm
        simp [List.filter_cons, hm, hm1]

theorem filter_range_eq (off : Nat) : ∀ (n p : Nat), p < n →
    (List.range n).filter (fun q => decide (off + q = off + p)) = [p]
  | 0, _, h => by omega
  | n + 1, p, h => by
    rw [List.range_succ, List.filter_append]
    by_cases hp : p = n
    · subst hp
      have : (List.range p).filter (fun q => decide (off + q = off + p)) = [] := by
        rw [List.filter_eq_nil_iff]
        intro q hq
        have := List.mem_range.mp hq
        simp
        omega
      rw [this]
      simp
    · rw [filter_range_eq off n p (by omega)]
      have : ¬ n = p := fun h => hp h.symm
      simp [this]

theorem filter_range_nil (off n m : Nat) (h : m < off ∨ off + n ≤ m) :
    (List.range n).filter (fun q => decide (off + q = m)) = [] := by
  rw [List.filter_eq_nil_iff]
  intro q hq
  have := List.mem_range.mp hq
  simp
  omega

theorem sum_map_flatMap (f : Nat → Nat) (G : Nat → List Nat) : ∀ l : List Nat,
    ((l.flatMap G).map f).sum = (l.map (fun p => ((G p).map f).sum)).sum
  | [] => rfl
  | p :: l => by
    simp only [List.flatMap_cons, List.map_append, List.sum_append, List.map_cons,
      List.sum_cons]
    rw [sum_map_flatMap f G l]

theorem range'_eq_map_add (off n : Nat) : List.range' off n = (List.range n).map (fun p => off + p) := by
  rw [List.range_eq_range', List.map_add_range']
  simp

/-- One round of the loop over the layers keeps the invariant: after the nodes
of the layer are created and linked, the layer is the last one. -/
theorem BuildInv.layer_step {b : TreeBuild} {off n : Nat} (h : BuildInv b off n) (C : CscMatrix)
    (h1 : n + 1 ≤ C.indptr.length)
    (h2 : ∀ p < n, C.indptr.getD p 0 < C.indptr.getD (p + 1) 0 ∧
      C.indptr.getD (p + 1) 0 ≤ C.indices.length)
    (h3 : ((List.range n).flatMap C.column).Perm (List.range C.rows)) :
    ∃ t1, linkLayer C (List.range' off n) (createLayer C.rows b []).2 (List.range n)
        (createLayer C.rows b []).1.tree = some t1 ∧
      (createLayer C.rows b []).2 = List.range' (off + n) C.rows ∧
      BuildInv { (createLayer C.rows b []).1 with tree := t1 } (off + n) C.rows := by
  obtain ⟨c1, c2, c3, c4, c5, c6, c7, c8⟩ := createLayer_spec C.rows b []
  rw [List.nil_append, h.size] at c2
  have hcol : ∀ p < n, ∀ ci ∈ C.column p, ci < C.rows := by
    intro p hp ci hci
    have : ci ∈ (List.range n).flatMap C.column :=
      List.mem_flatMap.mpr ⟨p, List.mem_range.mpr hp, hci⟩
    exact List.mem_range.mp (h3.subset this)
  obtain ⟨t1, ht1, hframe, hch⟩ := linkLayer_spec C off n (off + n) C.rows (List.range n)
    (createLayer C.rows b []).1.tree (by rw [c1, h.size]; omega)
    (fun p hp => by
      have hp1 := List.mem_range.mp hp
      exact ⟨hp1, by omega, (h2 p hp1).2, hcol p hp1⟩)
  have hchild : ∀ m, t1.children m = b.tree.children m ++
      ((List.range n).filter (fun p => decide (off + p = m))).flatMap
        (fun p => (C.column p).map (fun ci => off + n + ci)) := by
    intro m
    rw [hch m, c7 m]
  have hold : ∀ m, m < off ∨ off + n ≤ m → t1.children m = b.tree.children m := by
    intro m hm
    rw [hchild m, filter_range_nil off n m hm]
    simp
  have hnew : ∀ p < n, t1.children (off + p) =
      (C.column p).map (fun ci => off + n + ci) := by
    intro p hp
    rw [hchild (off + p), filter_range_eq off n p hp, h.childless (off + p) (by omega)]
    simp
  have hsize : t1.nodes.length = off + n + C.rows := by
    rw [hframe.2.2.1, c1, h.size]
  refine ⟨t1, by rw [c2]; exact ht1, c2, ?_⟩
  refine
    { root := by
        show t1.root = 0
        rw [hframe.1, c5, h.root]
      size := hsize
      index := by
        show (createLayer C.rows b []).1.index = List.range t1.nodes.length
        rw [c3, h.index, h.base, hsize, h.size, List.range_eq_range', List.range_eq_range']
        have happ := List.range'_append_1 0 (off + n) C.rows
        rw [Nat.zero_add] at happ
        rw [happ, Nat.add_comm]
      base := by
        show (createLayer C.rows b []).1.base_index = t1.nodes.length
        rw [c4, h.base, hsize, h.size]
      leaves := by
        show t1.leaves = []
        rw [hframe.2.1, c6, h.leaves]
      labels := by
        intro m
        show t1.label m = -1
        rw [hframe.2.2.2 m, c8 m, h.labels m]
      childless := by
        intro m hm
        show t1.children m = []
        rw [hold m (Or.inr hm)]
        exact h.childless m (by omega)
      internal := by
        intro m hm
        show t1.children m ≠ []
        by_cases hm1 : m < off
        · rw [hold m (Or.inl hm1)]
          exact h.internal m hm1
        · obtain ⟨p, rfl⟩ : ∃ p, m = off + p := ⟨m - off, by omega⟩
          have hp : p < n := by omega
          rw [hnew p hp]
          have hmem : C.indices.getD (C.indptr.getD p 0) 0 ∈ C.column p :=
            mem_column (Nat.le_refl _) (h2 p hp).1
          exact List.ne_nil_of_mem (List.mem_map_of_mem _ hmem)
      child_gt := by
        intro m c hc
        show m < c ∧ c < t1.nodes.length
        rw [hsize]
        by_cases hm1 : m < off ∨ off + n ≤ m
        · rw [hold m hm1] at hc
          have := h.child_gt m c hc
          rw [h.size] at this
          omega
        · obtain ⟨p, rfl⟩ : ∃ p, m = off + p := ⟨m - off, by omega⟩
          have hp : p < n := by omega
          rw [hnew p hp] at hc
          obtain ⟨ci, hci, rfl⟩ := List.mem_map.mp hc
          have := hcol p hp ci hci
          omega
      sum := by
        intro f hf
        have hf0 : f 0 = ((List.range' off n).map f).sum := by
          apply h.sum f
          intro m hm
          rw [hf m (by omega)]
          show ((t1.children m).map f).sum = _
          rw [hold m (Or.inl hm)]
        rw [hf0, range'_eq_map_add off n, List.map_map]
        have hrow : ∀ p ∈ List.range n, (f ∘ fun p => off + p) p =
            (((fun p => (C.column p).map (fun ci => off + n + ci)) p).map f).sum := by
          intro p hp
          have hp1 := List.mem_range.mp hp
          show f (off + p) = _
          rw [hf (off + p) (by omega)]
          show ((t1.children (off + p)).map f).sum = _
          rw [hnew p hp1]
        rw [List.map_congr_left hrow, ← sum_map_flatMap]
        have hperm : ((List.range n).flatMap
            (fun p => (C.column p).map (fun ci => off + n + ci))).Perm
            (List.range' (off + n) C.rows) := by
          rw [range'_eq_map_add (off + n) C.rows, ← List.map_flatMap]
          exact h3.map _
        exact (hperm.map f).sum_eq }

theorem buildLayers_spec : ∀ (layers : List CscMatrix) (b : TreeBuild) (off n : Nat),
    BuildInv b off n → LayeredModel n layers →
    ∃ b1 off1 n1, buildLayers layers b (List.range' off n) = some (b1, List.range' off1 n1) ∧
      BuildInv b1 off1 n1
  | [], b, off, n, h, _ => ⟨b, off, n, rfl, h⟩
  | C :: rest, b, off, n, h, hm => by
    obtain ⟨h1, h2, h3, h4⟩ := hm
    obtain ⟨t1, ht1, hnext, hinv⟩ := h.layer_step C h1 h2 h3
    obtain ⟨b1, off1, n1, hb1, hinv1⟩ := buildLayers_spec rest _ (off + n) C.rows hinv h4
    refine ⟨b1, off1, n1, ?_, hinv1⟩
    simp only [buildLayers, List.length_range', ht1]
    rw [hnext]
    exact hb1

theorem labelLayer_spec : ∀ (nodes : List Nat) (l : Nat) (t : Tree),
    (∀ e ∈ t.leaves, e.1 < (l : Int)) →
    (labelLayer nodes l t).root = t.root ∧
    (labelLayer nodes l t).nodes.length = t.nodes.length ∧
    (∀ m, (labelLayer nodes l t).children m = t.children m) ∧
    (labelLayer nodes l t).leaves.map Prod.fst =
      t.leaves.map Prod.fst ++ (List.range' l nodes.length).map (fun i : Nat => (i : Int)) ∧
    (labelLayer nodes l t).leaves.map Prod.snd = t.leaves.map Prod.snd ++ nodes ∧
    (∀ m, m ∉ nodes → (labelLayer nodes l t).label m = t.label m) ∧
    (∀ m ∈ nodes, m < t.nodes.length → 0 ≤ (labelLayer nodes l t).label m)
  | [], l, t, _ => by simp [labelLayer]
  | node :: rest, l, t, hl => by
    have hfilter : t.leaves.filter (fun e => decide (e.1 ≠ (l : Int))) = t.leaves := by
      rw [List.filter_eq_self]
      intro e he
      have := hl e he
      simp
      omega
    have hleaves : (t.setLabel node l).leaves = t.leaves ++ [((l : Int), node)] := by
      simp only [Tree.setLabel, hfilter]
    have hlen : (t.setLabel node l).nodes.length = t.nodes.length := by
      simp [Tree.setLabel]
    obtain ⟨h1, h2, h3, h4, h5, h6, h7⟩ := labelLayer_spec rest (l + 1) (t.setLabel node l)
      (by
        intro e he
        rw [hleaves] at he
        rcases List.mem_append.mp he with h | h
        · have := hl e h
          push_cast
          omega
        · rw [List.mem_singleton.mp h]
          push_cast
          omega)
    simp only [labelLayer]
    refine ⟨h1, h2.trans hlen, fun m => (h3 m).trans (t.children_setLabel node l m), ?_, ?_,
      ?_, ?_⟩
    · rw [h4, hleaves]
      simp [List.range'_succ]
    · rw [h5, hleaves]
      simp
    · intro m hm
      rw [h6 m (fun h => hm (List.mem_cons_of_mem _ h)), Tree.label_setLabel]
      have : ¬ m = node := fun h => hm (h ▸ List.mem_cons_self _ _)
      simp [this]
    · intro m hm hlt
      by_cases hrest : m ∈ rest
      · exact h7 m hrest (by rw [hlen]; exact hlt)
      · rw [h6 m hrest, Tree.label_setLabel]
        have hmn : m = node := by
          rcases List.mem_cons.mp hm with h | h
          · exact h
          · exact absurd h hrest
        subst hmn
        simp [hlt]

theorem countSubtreeLeaves_spec : ∀ (j : Nat) (t : Tree), j ≤ t.nodes.length →
    (∀ m c, c ∈ t.children m → m < c) →
    (∀ m, j ≤ m → m < t.nodes.length → SubtreeCount t m) →
    SameFrame t (countSubtreeLeaves j t) ∧
    (∀ m, (countSubtreeLeaves j t).children m = t.children m) ∧
    ∀ m < t.nodes.length, SubtreeCount (countSubtreeLeaves j t) m
  | 0, t, _, _, h => ⟨SameFrame.refl t, fun _ => rfl, fun m hm => h m (Nat.zero_le _) hm⟩
  | j + 1, t, hj, hgt, h => by
    have hframe : SameFrame t (countNode t j) :=
      ⟨rfl, rfl, by simp [countNode], Tree.label_countNode t j⟩
    have hch := Tree.children_countNode t j
    have hsl := Tree.subtreeLeaves_countNode t j
    have hstep : ∀ m, j ≤ m → m < (countNode t j).nodes.length →
        SubtreeCount (countNode t j) m := by
      intro m hjm hm
      rw [hframe.2.2.1] at hm
      unfold SubtreeCount
      rw [hch m]
      have hmap : (t.children m).map (countNode t j).subtreeLeaves =
          (t.children m).map t.subtreeLeaves := by
        apply List.map_congr_left
        intro c hc
        rw [hsl c]
        have := hgt m c hc
        rw [if_neg (by omega)]
      rw [hmap, hsl m]
      by_cases hmj : m = j
      · subst hmj
        rw [if_pos ⟨rfl, hm⟩]
      · rw [if_neg (by omega)]
        exact h m (by omega) hm
    obtain ⟨f1, f2, f3⟩ := countSubtreeLeaves_spec j (countNode t j)
      (by rw [hframe.2.2.1]; omega)
      (by
        intro m c hc
        rw [hch] at hc
        exact hgt m c hc)
      hstep
    simp only [countSubtreeLeaves]
    exact ⟨hframe.trans f1, fun m => (f2 m).trans (hch m),
      fun m hm => f3 m (by rw [hframe.2.2.1]; exact hm)⟩

theorem initial_buildInv :
    BuildInv
      { tree := { root := 0, nodes := [⟨-1, none, [], 0⟩], leaves := [], k := 0, t := 0 }
        index := [0], base_index := 1 } 0 1 where
  root := rfl
  size := rfl
  index := rfl
  base := rfl
  leaves := rfl
  labels := by
    intro m
    cases m with
    | zero => rfl
    | succ m => exact Tree.label_of_ge (by simp)
  childless := by
    intro m _
    cases m with
    | zero => rfl
    | succ m => exact Tree.children_of_ge (by simp)
  internal := by
    intro m hm
    omega
  child_gt := by
    intro m c hc
    have h0 : Tree.children
        { root := 0, nodes := [⟨-1, none, [], 0⟩], leaves := [], k := 0, t := 0 } m = [] := by
      cases m with
      | zero => rfl
      | succ m => exact Tree.children_of_ge (by simp)
    change c ∈ Tree.children _ m at hc
    rw [h0] at hc
    cases hc
  sum := by
    intro f _
    simp

/-- C26: for every layered model in which every node of a layer that is not the
last has at least one child and every node of a layer is listed once, under one
parent, `makeTreeFrom` returns a tree in which the field `index` of every node
is its position in the arena, every child has a larger index than its parent,
a node has no children iff it carries a label, `subtreeLeaves` is `1` for every
node without children and the sum of `subtreeLeaves` over the children for
every other node, `subtreeLeaves` of the root is `tree->k`, `tree->k` is the
size of `leaves` and the number of nodes that carry a label, the labels being
`0, ..., k - 1`, and `tree->t` is the number of nodes. -/
theorem makeTreeFrom_subtreeLeaves (layers : List CscMatrix) (h : LayeredModel 1 layers) :
    ∃ t index, makeTreeFrom layers = some (t, index) ∧
      index = List.range t.nodes.length ∧
      (∀ n c, c ∈ t.children n → n < c ∧ c < t.nodes.length) ∧
      (∀ n < t.nodes.length, (t.children n = [] ↔ 0 ≤ t.label n)) ∧
      (∀ n < t.nodes.length, t.children n = [] → t.subtreeLeaves n = 1) ∧
      (∀ n < t.nodes.length, t.children n ≠ [] →
        t.subtreeLeaves n = ((t.children n).map t.subtreeLeaves).sum) ∧
      t.subtreeLeaves t.root = t.k ∧
      t.k = t.leaves.length ∧
      t.k = ((List.range t.nodes.length).filter (fun n => decide (0 ≤ t.label n))).length ∧
      t.leaves.map Prod.fst = (List.range t.k).map (fun l : Nat => (l : Int)) ∧
      t.t = t.nodes.length := by
  obtain ⟨b1, off, n, hb1, hinv⟩ := buildLayers_spec layers _ 0 1 initial_buildInv h
  have hmk : makeTreeFrom layers =
      (fun r : Option (TreeBuild × List Nat) =>
        match r with
        | none => none
        | some (b1, lastLayer) =>
          some ({ countSubtreeLeaves (labelLayer lastLayer 0 b1.tree).nodes.length
                    (labelLayer lastLayer 0 b1.tree) with
                  k := (countSubtreeLeaves (labelLayer lastLayer 0 b1.tree).nodes.length
                    (labelLayer lastLayer 0 b1.tree)).leaves.length
                  t := (countSubtreeLeaves (labelLayer lastLayer 0 b1.tree).nodes.length
                    (labelLayer lastLayer 0 b1.tree)).nodes.length }, b1.index))
        (buildLayers layers
          { tree := { root := 0, nodes := [⟨-1, none, [], 0⟩], leaves := [], k := 0, t := 0 }
            index := [0], base_index := 1 } (List.range' 0 1)) := rfl
  rw [hb1] at hmk
  dsimp only at hmk
  obtain ⟨T2, hT2⟩ : ∃ T2, T2 = labelLayer (List.range' off n) 0 b1.tree := ⟨_, rfl⟩
  rw [← hT2] at hmk
  obtain ⟨l1, l2, l3, l4, l5, l6, l7⟩ := labelLayer_spec (List.range' off n) 0 b1.tree
    (by
      intro e he
      rw [hinv.leaves] at he
      cases he)
  rw [← hT2] at l1 l2 l3 l4 l5 l6 l7
  obtain ⟨c1, c2, c3⟩ := countSubtreeLeaves_spec T2.nodes.length T2 (Nat.le_refl _)
    (by
      intro m c hc
      rw [l3] at hc
      exact (hinv.child_gt m c hc).1)
    (by
      intro m h1 h2
      omega)
  obtain ⟨T3, hT3⟩ : ∃ T3, T3 = countSubtreeLeaves T2.nodes.length T2 := ⟨_, rfl⟩
  rw [← hT3] at hmk c1 c2 c3
  have hsize : T3.nodes.length = off + n := by rw [c1.2.2.1, l2, hinv.size]
  have hchildren : ∀ m, T3.children m = b1.tree.children m := fun m => (c2 m).trans (l3 m)
  have hlabel : ∀ m, T3.label m = T2.label m := c1.2.2.2
  have hleaf : ∀ m < off + n, (T3.children m = [] ↔ off ≤ m) := by
    intro m hm
    rw [hchildren m]
    constructor
    · intro h0
      by_contra hlt
      exact hinv.internal m (by omega) h0
    · exact hinv.childless m
  have hlabelled : ∀ m < off + n, (0 ≤ T3.label m ↔ off ≤ m) := by
    intro m hm
    rw [hlabel m]
    constructor
    · intro h0
      by_contra hlt
      have hnot : m ∉ List.range' off n := by
        rw [List.mem_range'_1]
        omega
      rw [l6 m hnot, hinv.labels m] at h0
      omega
    · intro h0
      exact l7 m (by rw [List.mem_range'_1]; omega) (by rw [hinv.size]; exact hm)
  have hcount : ∀ m < off + n, SubtreeCount T3 m := by
    intro m hm
    exact c3 m (by rw [l2, hinv.size]; exact hm)
  have hleaves : T3.leaves.length = n := by
    have h1 : T3.leaves = T2.leaves := c1.2.1
    have h2 := congrArg List.length l5
    rw [hinv.leaves] at h2
    simp only [List.length_map, List.map_nil, List.nil_append, List.length_range'] at h2
    rw [h1, h2]
  have hroot : T3.root = 0 := by rw [c1.1, l1, hinv.root]
  have hsum : T3.subtreeLeaves 0 = n := by
    rw [hinv.sum T3.subtreeLeaves]
    · have hone : ∀ m ∈ List.range' off n, T3.subtreeLeaves m = (fun _ => 1) m := by
        intro m hm
        rw [List.mem_range'_1] at hm
        have h1 := hcount m (by omega)
        unfold SubtreeCount at h1
        rw [if_pos ((hleaf m (by omega)).mpr hm.1)] at h1
        exact h1
      rw [List.map_congr_left hone]
      simp
    · intro m hm
      have h1 := hcount m (by omega)
      unfold SubtreeCount at h1
      rw [if_neg (fun h0 => by
        have := (hleaf m (by omega)).mp h0
        omega), hchildren m] at h1
      exact h1
  have hfilter : (List.range (off + n)).filter (fun m => decide (0 ≤ T3.label m)) =
      List.range' off n := by
    have happ := List.range'_append_1 0 off n
    rw [Nat.zero_add] at happ
    rw [List.range_eq_range', Nat.add_comm off n, ← happ, List.filter_append]
    have hA : (List.range' 0 off).filter (fun m => decide (0 ≤ T3.label m)) = [] := by
      rw [List.filter_eq_nil_iff]
      intro m hm
      rw [List.mem_range'_1] at hm
      have := hlabelled m (by omega)
      simp only [decide_eq_true_eq]
      omega
    have hB : (List.range' off n).filter (fun m => decide (0 ≤ T3.label m)) =
        List.range' off n := by
      rw [List.filter_eq_self]
      intro m hm
      rw [List.mem_range'_1] at hm
      simp only [decide_eq_true_eq]
      exact (hlabelled m (by omega)).mpr hm.1
    rw [hA, hB, List.nil_append]
  refine ⟨_, _, hmk, ?_, ?_, ?_, ?_, ?_, ?_, rfl, ?_, ?_, rfl⟩
  · show b1.index = List.range T3.nodes.length
    rw [hinv.index, hsize, hinv.size]
  · intro m c hc
    show m < c ∧ c < T3.nodes.length
    have hc1 : c ∈ T3.children m := hc
    rw [hchildren m] at hc1
    rw [hsize, ← hinv.size]
    exact hinv.child_gt m c hc1
  · intro m hm
    have hm1 : m < off + n := by
      rw [← hsize]
      exact hm
    show T3.children m = [] ↔ 0 ≤ T3.label m
    rw [hleaf m hm1, hlabelled m hm1]
  · intro m hm h0
    have hm1 : m < off + n := by
      rw [← hsize]
      exact hm
    have h1 := hcount m hm1
    unfold SubtreeCount at h1
    have h2 : T3.children m = [] := h0
    rw [if_pos h2] at h1
    exact h1
  · intro m hm h0
    have hm1 : m < off + n := by
      rw [← hsize]
      exact hm
    have h1 := hcount m hm1
    unfold SubtreeCount at h1
    have h2 : T3.children m ≠ [] := h0
    rw [if_neg h2] at h1
    exact h1
  · show T3.subtreeLeaves T3.root = T3.leaves.length
    rw [hroot, hsum, hleaves]
  · show T3.leaves.length = ((List.range T3.nodes.length).filter
      (fun m => decide (0 ≤ T3.label m))).length
    rw [hsize, hfilter, hleaves, List.length_range']
  · show T3.leaves.map Prod.fst = (List.range T3.leaves.length).map (fun l : Nat => (l : Int))
    rw [c1.2.1, l4, hinv.leaves, List.length_range', List.range_eq_range']
    have h2 := congrArg List.length l5
    rw [hinv.leaves] at h2
    simp only [List.length_map, List.map_nil, List.nil_append, List.length_range'] at h2
    rw [h2]
    rfl

theorem makeTreeFrom_subtreeLeaves_witness :
    LayeredModel 1 exampleLayers ∧
    (∃ t index, makeTreeFrom exampleLayers = some (t, index) ∧
      index = List.range t.nodes.length ∧
      (∀ n c, c ∈ t.children n → n < c ∧ c < t.nodes.length) ∧
      (∀ n < t.nodes.length, (t.children n = [] ↔ 0 ≤ t.label n)) ∧
      (∀ n < t.nodes.length, t.children n = [] → t.subtreeLeaves n = 1) ∧
      (∀ n < t.nodes.length, t.children n ≠ [] →
        t.subtreeLeaves n = ((t.children n).map t.subtreeLeaves).sum) ∧
      t.subtreeLeaves t.root = t.k ∧
      t.k = t.leaves.length ∧
      t.k = ((List.range t.nodes.length).filter (fun n => decide (0 ≤ t.label n))).length ∧
      t.leaves.map Prod.fst = (List.range t.k).map (fun l : Nat => (l : Int)) ∧
      t.t = t.nodes.length) ∧
    (makeTreeFrom exampleLayers).map
        (fun r => (r.1.nodes.map (fun nd => (nd.children, nd.subtreeLeaves)), r.1.leaves,
          r.1.k, r.1.t)) =
      some ([([1, 2], 3), ([5], 1), ([3, 4], 2), ([], 1), ([], 1), ([], 1)],
        [(0, 3), (1, 4), (2, 5)], 3, 6) :=
  have hmodel : LayeredModel 1 exampleLayers :=
    ⟨by decide, by decide, by decide, by decide, by decide, by decide, trivial⟩
  ⟨hmodel, makeTreeFrom_subtreeLeaves exampleLayers hmodel, by decide⟩

end TreeBuilder

/-! ## Exact search with the multiplication of doubles -/

section Simulation

variable {Q : Type} {Qi : TopKQueue Q}
variable {Holds : Q → List TreeNodeValue → List TreeNodeValue → Prop}
variable {mul : ℚ → ℚ → ℚ} {t : Tree} {bases : Nat → List Feature → ℚ} {s : PLT}
variable {args : Args} {x : List Feature}

theorem Tree.WF.pathToRoot_ne_nil (hwf : t.WF) {n : Nat} (hn : n < t.nodes.length) :
    t.pathToRoot n ≠ [] :=
  List.ne_nil_of_mem ((hwf.mem_pathToRoot hn).mpr ⟨0, rfl⟩)

/-- The path probability computed at the root is the probability the root
classifier gives. -/
theorem Tree.WF.roundedPath_root (hwf : t.WF) :
    Rounded.pathProbability mul t bases x t.root = bases t.root x := by
  simp [Rounded.pathProbability, hwf.pathToRoot_root, pathProduct]

/-- The path probability computed at a child is the double `mul` gives for the
path probability of its parent and the probability its classifier gives. -/
theorem Tree.WF.roundedPath_child (hwf : t.WF) {p c : Nat} (hc : c ∈ t.children p) :
    Rounded.pathProbability mul t bases x c =
      mul (Rounded.pathProbability mul t bases x p) (bases c x) := by
  have hp := hwf.pathToRoot_ne_nil (children_lt hc)
  simp only [Rounded.pathProbability, hwf.pathToRoot_child hc]
  cases h : t.pathToRoot p with
  | nil => exact absurd h hp
  | cons a rest => simp [pathProduct]

theorem effectiveBases_root (hwf : t.WF) :
    effectiveBases mul t bases x t.root x = bases t.root x := by
  simp [effectiveBases, hwf.root_parent]

/-- The exact product of the path probability of a node with the effective
probability of a child is the path probability computed at the child. -/
theorem effectiveBases_child (hmul : DoubleMul mul) (hwf : t.WF) {p c : Nat}
    (hc : c ∈ t.children p) :
    Rounded.pathProbability mul t bases x p * effectiveBases mul t bases x c x =
      Rounded.pathProbability mul t bases x c := by
  have hpar : t.parent c = some p := hwf.mem_children_iff.mp hc
  simp only [effectiveBases, hpar]
  by_cases h0 : Rounded.pathProbability mul t bases x p = 0
  · rw [if_pos h0, hwf.roundedPath_child hc, h0, hmul.zero_left]
    simp
  · rw [if_neg h0]
    field_simp

/-- The exact path probabilities of the effective table are the path
probabilities computed with `mul`. -/
theorem Tree.WF.pathProbability_effective (hmul : DoubleMul mul) (hwf : t.WF) :
    ∀ (k n : Nat), n < t.nodes.length → t.parentIter k n = some t.root →
    NapkinXC.pathProbability t (effectiveBases mul t bases x) x n =
      Rounded.pathProbability mul t bases x n
  | 0, n, _, h => by
    simp only [parentIter, Option.some.injEq] at h
    subst h
    rw [hwf.pathProbability_root, hwf.roundedPath_root, effectiveBases_root hwf]
  | k + 1, n, hn, h => by
    simp only [parentIter] at h
    cases hp : t.parent n with
    | none => simp [hp] at h
    | some p =>
      rw [hp] at h
      simp only [Option.some_bind] at h
      obtain ⟨hplt, hc⟩ := hwf.parent_valid hp
      rw [hwf.pathProbability_child hc, hwf.pathProbability_effective hmul k p hplt h,
        effectiveBases_child hmul hwf hc]

theorem Tree.WF.pathProbability_eff (hmul : DoubleMul mul) (hwf : t.WF) {n : Nat}
    (hn : n < t.nodes.length) :
    NapkinXC.pathProbability t (effectiveBases mul t bases x) x n =
      Rounded.pathProbability mul t bases x n := by
  obtain ⟨k, hk⟩ := hwf.root_ancestor hn
  exact hwf.pathProbability_effective hmul k n hn hk

theorem effectiveState_getD (n : Nat) (hn : n < t.nodes.length) :
    ((effectiveState mul t bases s x).nodesWeights.getD n default).weight =
      if Rounded.pathProbability mul t bases x n = 0 then 0
      else mul (Rounded.pathProbability mul t bases x n)
        (s.nodesWeights.getD n default).weight / Rounded.pathProbability mul t bases x n := by
  simp [effectiveState, List.getD_eq_getElem?_getD, List.getElem?_map, List.getElem?_range hn]

/-- The score computed with `mul` at a node of the tree is the exact score of
the effective model; the read of the weight is within the table. -/
theorem calculateValue_effective (hmul : DoubleMul mul) (hcover : TablesCover t s) {n : Nat}
    (hn : n < t.nodes.length) :
    Rounded.calculateValue mul s n (Rounded.pathProbability mul t bases x n) =
      some (NapkinXC.calculateValue (effectiveState mul t bases s x) n
        (Rounded.pathProbability mul t bases x n)) := by
  have hlw : (effectiveState mul t bases s x).labelsWeights = s.labelsWeights := rfl
  simp only [Rounded.calculateValue, NapkinXC.calculateValue, hlw]
  by_cases hw : s.labelsWeights ≠ []
  · have hlen : n < s.nodesWeights.length := lt_of_lt_of_le hn (hcover.2 hw)
    rw [if_pos hw, if_pos hw, List.getElem?_eq_getElem hlen, effectiveState_getD n hn]
    have hget : s.nodesWeights.getD n default = s.nodesWeights[n] := by
      rw [List.getD_eq_getElem?_getD, List.getElem?_eq_getElem hlen]
      rfl
    rw [hget]
    by_cases h0 : Rounded.pathProbability mul t bases x n = 0
    · simp [h0, hmul.zero_left]
    · rw [if_neg h0]
      simp only [Option.some.injEq]
      field_simp
  · rw [if_neg hw, if_neg hw]

/-- The admission predicate at a node of the tree is that of the effective
model; the read of the threshold is within the table. -/
theorem ifAddToQueue_effective (hcover : TablesCover t s) {n : Nat} (hn : n < t.nodes.length)
    (p : ℚ) :
    Rounded.ifAddToQueue s args n p =
      some (NapkinXC.ifAddToQueue (effectiveState mul t bases s x) args n p) := by
  have h1 : (effectiveState mul t bases s x).thresholds = s.thresholds := rfl
  have h2 : (effectiveState mul t bases s x).nodesThr = s.nodesThr := rfl
  simp only [Rounded.ifAddToQueue, NapkinXC.ifAddToQueue, h1, h2]
  by_cases ha : args.threshold > 0
  · rw [if_pos ha, if_pos ha]
  · rw [if_neg ha, if_neg ha]
    by_cases hthr : s.thresholds.length ≠ 0
    · have hne : s.thresholds ≠ [] := fun h => hthr (by rw [h]; rfl)
      have hlen : n < s.nodesThr.length := lt_of_lt_of_le hn (hcover.1 hne)
      rw [if_pos hthr, if_pos hthr, List.getElem?_eq_getElem hlen, List.getD_eq_getElem?_getD,
        List.getElem?_eq_getElem hlen]
      rfl
    · rw [if_neg hthr, if_neg hthr]

/-- The call of `addToQueue` for a node of the tree with its path probability is
the call of the effective model. -/
theorem addToQueue_effective (hmul : DoubleMul mul) (hcover : TablesCover t s) {n : Nat}
    (hn : n < t.nodes.length) (q : Q) :
    Rounded.addToQueue mul Qi s args q n (Rounded.pathProbability mul t bases x n) =
      some (NapkinXC.addToQueue Qi (effectiveState mul t bases s x) args q n
        (Rounded.pathProbability mul t bases x n)) := by
  simp only [Rounded.addToQueue, NapkinXC.addToQueue,
    calculateValue_effective hmul hcover hn, @ifAddToQueue_effective mul t bases s args x hcover n hn]
  split <;> rfl

/-- The loop over the children of a node with its path probability is the fold
of the effective model. -/
theorem addChildren_effective (hmul : DoubleMul mul) (hcover : TablesCover t s) (hwf : t.WF)
    {p : Nat} : ∀ (cs : List Nat) (q : Q), (∀ c ∈ cs, c ∈ t.children p) →
    Rounded.addChildren mul Qi bases s args x (Rounded.pathProbability mul t bases x p) cs q =
      some (cs.foldl (fun q c =>
        NapkinXC.addToQueue Qi (effectiveState mul t bases s x) args q c
          (Rounded.pathProbability mul t bases x p * effectiveBases mul t bases x c x)) q)
  | [], q, _ => rfl
  | c :: cs, q, h => by
    have hc := h c (List.mem_cons_self _ _)
    have hclt : c < t.nodes.length := (hwf.child_parent p (children_lt hc) c hc).1
    have hchild : mul (Rounded.pathProbability mul t bases x p) (bases c x) =
        Rounded.pathProbability mul t bases x c := (hwf.roundedPath_child hc).symm
    rw [Rounded.addChildren, hchild, addToQueue_effective hmul hcover hclt]
    simp only [List.foldl_cons]
    rw [effectiveBases_child hmul hwf hc]
    exact addChildren_effective hmul hcover hwf cs _ (fun c1 h1 => h c1 (List.mem_cons_of_mem _ h1))

theorem QueuePaths.rounded (hmul : DoubleMul mul) (hwf : t.WF) {l : List TreeNodeValue}
    (hl : QueuePaths t (effectiveBases mul t bases x) (effectiveState mul t bases s x) x l)
    {e : TreeNodeValue} (he : e ∈ l) :
    e.node < t.nodes.length ∧ e.prob = Rounded.pathProbability mul t bases x e.node := by
  obtain ⟨h1, h2⟩ := hl e he
  refine ⟨h1, ?_⟩
  have h3 := congrArg TreeNodeValue.prob h2
  rw [h3]
  exact hwf.pathProbability_eff hmul h1

/-- One call of `predictNextLabel` on a queue whose entries carry the path
probabilities computed with `mul` is the call of the exact search of the
effective model. -/
theorem predictNextLabel_effective (hmul : DoubleMul mul) (hcover : TablesCover t s)
    (hQ : Qi.Bounded args.topK (finalEntry t) Holds) (hwf : t.WF) :
    ∀ (fuel : Nat) (q : Q) (l acc : List TreeNodeValue), Holds q l acc →
    QueuePaths t (effectiveBases mul t bases x) (effectiveState mul t bases s x) x l →
    Rounded.predictNextLabel mul Qi t bases s args x fuel q =
      NapkinXC.predictNextLabel Qi t (effectiveBases mul t bases x)
        (effectiveState mul t bases s x) args x fuel q
  | 0, _, _, _, _, _ => rfl
  | fuel + 1, q, l, acc, hq, hl => by
    rw [Rounded.predictNextLabel, NapkinXC.predictNextLabel]
    by_cases hempty : Qi.empty q = true
    · simp only [hempty, if_true]
    · have hne : l ≠ [] := fun h1 => hempty ((hQ.empty q l acc hq).mpr h1)
      obtain ⟨e, l1, acc1, htop, hvalid, hee, hq1, hl1⟩ := queuePaths_step hQ hwf hq hl hne
      have hprob : e.prob = Rounded.pathProbability mul t bases x e.node := by
        have h3 := congrArg TreeNodeValue.prob hee
        rw [h3]
        exact hwf.pathProbability_eff hmul hvalid
      have hch := @addChildren_effective Q Qi mul t bases s args x hmul hcover hwf e.node
        (t.children e.node) (Qi.pop q) (fun c hc => hc)
      rw [← hprob] at hch
      simp only [hempty, htop, hch, Bool.false_eq_true, if_false]
      by_cases hleaf : 0 ≤ t.label e.node
      · simp only [hleaf, if_true]
      · simp only [hleaf, if_false]
        exact predictNextLabel_effective hmul hcover hQ hwf fuel _ l1 acc1 hq1 hl1

/-- The loop of `predict` on a queue whose entries carry the path probabilities
computed with `mul` is the loop of the exact search of the effective model. -/
theorem predictLoop_effective (hmul : DoubleMul mul) (hcover : TablesCover t s)
    (hQ : Qi.Bounded args.topK (finalEntry t) Holds) (hwf : t.WF) (fuel : Nat) :
    ∀ (k : Nat) (out : List Prediction) (p : Prediction) (q : Q) (l acc : List TreeNodeValue),
    Holds q l acc →
    QueuePaths t (effectiveBases mul t bases x) (effectiveState mul t bases s x) x l →
    Rounded.predictLoop mul Qi t bases s args x fuel k out p q =
      NapkinXC.predictLoop Qi t (effectiveBases mul t bases x)
        (effectiveState mul t bases s x) args x fuel k out p q
  | 0, _, _, _, _, _, _, _ => rfl
  | k + 1, out, p, q, l, acc, hq, hl => by
    rw [Rounded.predictLoop, NapkinXC.predictLoop,
      predictNextLabel_effective hmul hcover hQ hwf fuel q l acc hq hl]
    split
    · cases hn : NapkinXC.predictNextLabel Qi t (effectiveBases mul t bases x)
          (effectiveState mul t bases s x) args x fuel q with
      | none => rfl
      | some r =>
        obtain ⟨p1, q1⟩ := r
        obtain ⟨l1, acc1, hq1, hl1, _⟩ := predictNextLabel_paths hQ hwf fuel q l acc p1 q1 hq hl hn
        exact predictLoop_effective hmul hcover hQ hwf fuel k _ p1 q1 l1 acc1 hq1 hl1
    · rfl

/-- The exact search computed with `mul`, on tables that cover the tree, is the
exact search of the effective model with exact products. -/
theorem predict_effective (hmul : DoubleMul mul) (hcover : TablesCover t s)
    (hQ : Qi.Bounded args.topK (finalEntry t) Holds) (hwf : t.WF) (fuel : Nat)
    (prediction : List Prediction) :
    Rounded.predict mul Qi t bases s args fuel prediction x =
      NapkinXC.predict Qi t (effectiveBases mul t bases x) (effectiveState mul t bases s x)
        args fuel prediction x := by
  obtain ⟨l, acc, hq, hl⟩ := @initial_queuePaths Q Qi Holds t
    (effectiveBases mul t bases x) (effectiveState mul t bases s x) args x hQ hwf
  rw [effectiveBases_root hwf] at hq
  have hroot : bases t.root x = Rounded.pathProbability mul t bases x t.root :=
    hwf.roundedPath_root.symm
  have hadd := @addToQueue_effective Q Qi mul t bases s args x hmul hcover t.root hwf.root_lt
    (Qi.new args.topK)
  rw [← hroot] at hadd
  simp only [Rounded.predict, NapkinXC.predict, hadd, effectiveBases_root hwf,
    predictNextLabel_effective hmul hcover hQ hwf fuel _ l acc hq hl]
  cases hn : NapkinXC.predictNextLabel Qi t (effectiveBases mul t bases x)
      (effectiveState mul t bases s x) args x fuel
      (NapkinXC.addToQueue Qi (effectiveState mul t bases s x) args (Qi.new args.topK) t.root
        (bases t.root x)) with
  | none => rfl
  | some r =>
    obtain ⟨p1, q1⟩ := r
    obtain ⟨l1, acc1, hq1, hl1, _⟩ := predictNextLabel_paths hQ hwf fuel _ l acc p1 q1 hq hl hn
    exact predictLoop_effective hmul hcover hQ hwf fuel fuel _ p1 q1 l1 acc1 hq1 hl1

end Simulation

section SearchFrom

variable {Q : Type} {Qi : TopKQueue Q}
variable {Holds : Q → List TreeNodeValue → List TreeNodeValue → Prop}
variable {t : Tree} {bases : Nat → List Feature → ℚ} {s : PLT} {args : Args}
variable {x : List Feature}

/-- In every state of the exact search the popped final entries, the pending one
and the final entries below the held and the refused entries are together the
admitted leaves. -/
theorem SearchInv.perm (hwf : t.WF) {q : Q} {l acc D Emo pend : List TreeNodeValue}
    (h : SearchInv Holds t bases s args x q l acc D (Emo ++ pend)) :
    (Emo.map (entryPrediction t) ++
      (pend ++ leavesBelow t bases s args x l ++ leavesBelow t bases s args x D).map
        (entryPrediction t)).Perm (admittedPredictions t bases s args x) := by
  have hAP : ((leavesBelow t bases s args x (admittedRoot t bases s args x)).map
      (entryPrediction t)).Perm (admittedPredictions t bases s args x) :=
    hwf.leafPredictions_admittedRoot
  rw [← List.map_append]
  refine (List.Perm.map _ ?_).trans hAP
  refine List.Perm.trans ?_ h.total.symm
  simp only [List.append_assoc]
  exact List.Perm.refl _

/-- The number of predictions appended when the loop of `predict` stops, the
vector `prediction` holding `n0` entries on entry: the loop stops because the
queue ran empty or because the vector holds `topK` entries. -/
theorem SearchInv.count (hwf : t.WF) {q : Q} {l acc D Emo pend : List TreeNodeValue}
    (h : SearchInv Holds t bases s args x q l acc D (Emo ++ pend)) (n0 : Nat)
    (hbound : 0 < args.topK → Emo.length ≤ args.topK.toNat - n0)
    (hexit : (pend = [] ∧ l = []) ∨ (0 < args.topK ∧ args.topK.toNat ≤ n0 + Emo.length)) :
    Emo.length = (if 0 < args.topK then
      min (args.topK.toNat - n0) (admittedPredictions t bases s args x).length
      else (admittedPredictions t bases s args x).length) := by
  have hlen := (h.perm hwf).length_eq
  rw [List.length_append, List.length_map, List.length_map] at hlen
  by_cases hK : 0 < args.topK
  · rw [if_pos hK]
    have hb := hbound hK
    rcases hexit with ⟨hp, hl⟩ | ⟨_, hge⟩
    · subst hp
      subst hl
      by_cases hD : D = []
      · subst hD
        simp only [leavesBelow_nil, List.append_nil, List.length_nil] at hlen
        omega
      · obtain ⟨d, hd⟩ := List.exists_mem_of_ne_nil D hD
        obtain ⟨_, fs, hfs, hfl, _⟩ := h.dominated hd
        have := hfs.length_le
        simp only [List.append_nil] at this
        omega
    · omega
  · rw [if_neg hK]
    have hD : D = [] := by
      by_contra hD
      obtain ⟨d, hd⟩ := List.exists_mem_of_ne_nil D hD
      exact hK (h.dropped d hd).1
    rcases hexit with ⟨hp, hl⟩ | ⟨h1, _⟩
    · subst hp
      subst hl
      subst hD
      simp only [leavesBelow_nil, List.append_nil, List.length_nil] at hlen
      omega
    · exact absurd h1 hK

/-- The loop of `predict` when the vector `prediction` holds the entries `P0` on
entry: `Emo` are the entries of the predictions appended so far and `e` is the
entry of the pending prediction. -/
theorem predictLoop_from (hQ : Qi.Bounded args.topK (finalEntry t) Holds) (hwf : t.WF)
    (fuel : Nat) (P0 : List Prediction) : ∀ (k : Nat) (Emo : List TreeNodeValue)
    (e : TreeNodeValue) (q : Q) (l acc D : List TreeNodeValue),
    SearchInv Holds t bases s args x q l acc D (Emo ++ [e]) → finalEntry t e = true →
    (0 < args.topK → Emo.length ≤ args.topK.toNat - P0.length) →
    (admittedClosure t bases s args x l).length < fuel →
    (admittedClosure t bases s args x l).length + 2 ≤ k →
    ∃ R rest, predictLoop Qi t bases s args x fuel k (P0 ++ Emo.map (entryPrediction t))
        (entryPrediction t e) q = some (P0 ++ R) ∧
      (R ++ rest).Perm (admittedPredictions t bases s args x) ∧
      R.length = (if 0 < args.topK then
        min (args.topK.toNat - P0.length) (admittedPredictions t bases s args x).length
        else (admittedPredictions t bases s args x).length)
  | 0, _, _, _, _, _, _, _, _, _, _, hk => by omega
  | k + 1, Emo, e, q, l, acc, D, h, hf, hbound, hfuel, hk => by
    have hlabel : (entryPrediction t e).label ≠ -1 := by
      have : 0 ≤ t.label e.node := by simpa [finalEntry] using hf
      simp only [entryPrediction]
      omega
    rw [predictLoop]
    by_cases hc : (sizeLtInt (P0 ++ Emo.map (entryPrediction t)).length args.topK ||
        decide (args.topK = 0)) = true
    · have hroom : 0 < args.topK → Emo.length + 1 ≤ args.topK.toNat - P0.length := by
        intro hK
        simp only [sizeLtInt, List.length_append, List.length_map, Bool.or_eq_true,
          decide_eq_true_eq] at hc
        omega
      obtain ⟨p1, q1, l1, acc1, D1, hnext, hcase⟩ :=
        predictNextLabel_bounded hQ hwf fuel q l acc D h hfuel
      simp only [hc, hlabel, ne_eq, not_false_eq_true, decide_True, Bool.and_self, if_true,
        hnext]
      have hout : P0 ++ Emo.map (entryPrediction t) ++ [entryPrediction t e] =
          P0 ++ (Emo ++ [e]).map (entryPrediction t) := by simp
      rw [hout]
      have hroom1 : 0 < args.topK → (Emo ++ [e]).length ≤ args.topK.toNat - P0.length := by
        intro hK
        rw [List.length_append]
        exact hroom hK
      rcases hcase with ⟨h1, hinv⟩ | ⟨e1, hf1, hp1, hinv, hlt⟩
      · obtain ⟨k1, rfl⟩ : ∃ k1, k = k1 + 1 := ⟨k - 1, by omega⟩
        rw [predictLoop_exit _ _ _ _ _ h1]
        have hinv2 : SearchInv Holds t bases s args x q1 [] acc1 D1 ((Emo ++ [e]) ++ []) := by
          rw [List.append_nil]
          exact hinv
        refine ⟨_, _, rfl, hinv2.perm hwf, ?_⟩
        rw [List.length_map]
        exact hinv2.count hwf P0.length hroom1 (Or.inl ⟨rfl, rfl⟩)
      · subst hp1
        exact predictLoop_from hQ hwf fuel P0 k (Emo ++ [e]) e1 q1 l1 acc1 D1 hinv hf1 hroom1
          (by omega) (by omega)
    · have hK : 0 < args.topK ∧ args.topK.toNat ≤ P0.length + Emo.length := by
        simp only [sizeLtInt, List.length_append, List.length_map, Bool.or_eq_true,
          decide_eq_true_eq] at hc
        omega
      simp only [hc, Bool.false_and, Bool.false_eq_true, if_false]
      refine ⟨_, _, rfl, h.perm hwf, ?_⟩
      rw [List.length_map]
      exact h.count hwf P0.length hbound (Or.inr hK)

/-- The exact search on a vector `prediction` that holds the entries `P0` on
entry returns, for enough fuel, `P0` followed by the predictions `R` of admitted
leaves: `min(topK - |P0|, A)` of them for `topK > 0` (none when `P0` holds
`topK` entries or more) and all `A` otherwise. -/
theorem predict_from (hQ : Qi.Bounded args.topK (finalEntry t) Holds) (hwf : t.WF)
    (fuel : Nat) (hfuel : t.nodes.length + 2 ≤ fuel) (P0 : List Prediction) :
    ∃ R rest, predict Qi t bases s args fuel P0 x = some (P0 ++ R) ∧
      (R ++ rest).Perm (admittedPredictions t bases s args x) ∧
      R.length = (if 0 < args.topK then
        min (args.topK.toNat - P0.length) (admittedPredictions t bases s args x).length
        else (admittedPredictions t bases s args x).length) := by
  obtain ⟨acc, hinit⟩ := @SearchInv.initial Q Qi Holds t bases s args x hQ hwf
  have hlen : (admittedClosure t bases s args x (admittedRoot t bases s args x)).length ≤
      t.nodes.length := hwf.closureBy_admittedRoot_length
  obtain ⟨p, q1, l1, acc1, D1, hnext, hcase⟩ :=
    predictNextLabel_bounded hQ hwf fuel _ _ acc [] hinit (by omega)
  simp only [predict, hnext]
  rcases hcase with ⟨h1, hinv⟩ | ⟨e, hf, hp, hinv, hlt⟩
  · obtain ⟨k1, hk1⟩ : ∃ k1, fuel = k1 + 1 := ⟨fuel - 1, by omega⟩
    have hinv2 : SearchInv Holds t bases s args x q1 [] acc1 D1 ([] ++ []) := hinv
    refine ⟨[], _, ?_, hinv2.perm hwf, ?_⟩
    · rw [hk1, predictLoop_exit _ _ _ _ _ h1, List.append_nil]
    · exact hinv2.count hwf P0.length (fun _ => Nat.zero_le _) (Or.inl ⟨rfl, rfl⟩)
  · subst hp
    have := predictLoop_from hQ hwf fuel P0 fuel [] e q1 l1 acc1 D1 hinv hf
      (fun _ => Nat.zero_le _) (by omega) (by omega)
    simpa using this

end SearchFrom

section RoundedResult

variable {Q : Type} {Qi : TopKQueue Q}
variable {Holds : Q → List TreeNodeValue → List TreeNodeValue → Prop}
variable {mul : ℚ → ℚ → ℚ} {t : Tree} {bases : Nat → List Feature → ℚ} {s : PLT}
variable {args : Args} {x : List Feature}

/-- The exact product of rationals obeys the laws of the multiplication of
doubles. -/
theorem doubleMul_exact : DoubleMul (fun a b : ℚ => a * b) where
  zero_left := fun b => zero_mul b
  nonneg := fun _ _ ha hb => mul_nonneg ha hb
  closed := fun a b => mul_one (a * b)
  le_left := fun _ _ _ ha _ hb1 => mul_le_of_le_one_right ha hb1

/-- With the exact product the product along a path is the product of the
list. -/
theorem pathProduct_exact (hexact : ∀ a b, mul a b = a * b) : ∀ l : List ℚ,
    pathProduct mul l = l.prod
  | [] => rfl
  | [a] => by simp [pathProduct]
  | a :: b :: rest => by
    rw [pathProduct, hexact, pathProduct_exact hexact (b :: rest), List.prod_cons (a := a)]
    exact mul_comm _ _

theorem pathProduct_nonneg (hmul : DoubleMul mul) : ∀ l : List ℚ, (∀ a ∈ l, 0 ≤ a) →
    0 ≤ pathProduct mul l
  | [], _ => by simp [pathProduct]
  | [a], h => by
    simpa [pathProduct] using h a (List.mem_singleton_self a)
  | a :: b :: rest, h => by
    rw [pathProduct]
    exact hmul.nonneg _ _
      (pathProduct_nonneg hmul (b :: rest) (fun c hc => h c (List.mem_cons_of_mem _ hc)))
      (h a (List.mem_cons_self _ _))

theorem roundedPath_nonneg (hmul : DoubleMul mul) (hb : ProbabilityTable bases x) (n : Nat) :
    0 ≤ Rounded.pathProbability mul t bases x n := by
  apply pathProduct_nonneg hmul
  intro a ha
  obtain ⟨m, _, rfl⟩ := List.mem_map.mp ha
  exact (hb m).1

/-- The path probability computed with `mul` at a node of the tree is a double
when the probability of the root classifier is one: at every other node it is
a product. -/
theorem Tree.WF.roundedPath_isDouble (hmul : DoubleMul mul) (hwf : t.WF)
    (hroot : IsDouble mul (bases t.root x)) {n : Nat} (hn : n < t.nodes.length) :
    IsDouble mul (Rounded.pathProbability mul t bases x n) := by
  by_cases hr : n = t.root
  · rw [hr, hwf.roundedPath_root]
    exact hroot
  · obtain ⟨p, hp, _, _⟩ := hwf.parent_of_ne_root n hn hr
    rw [hwf.roundedPath_child (hwf.parent_valid hp).2]
    exact hmul.closed _ _

/-- The path probability computed with `mul` does not grow from a node to a
node below it. -/
theorem Tree.WF.roundedPath_le (hmul : DoubleMul mul) (hwf : t.WF)
    (hb : ProbabilityTable bases x) (hroot : IsDouble mul (bases t.root x)) :
    ∀ (k : Nat) {n a : Nat}, t.parentIter k n = some a →
    Rounded.pathProbability mul t bases x n ≤ Rounded.pathProbability mul t bases x a
  | 0, n, a, h => by
    simp only [parentIter, Option.some.injEq] at h
    rw [h]
  | k + 1, n, a, h => by
    simp only [parentIter] at h
    cases hp : t.parent n with
    | none => simp [hp] at h
    | some p =>
      rw [hp] at h
      simp only [Option.some_bind] at h
      obtain ⟨hplt, hc⟩ := hwf.parent_valid hp
      have h1 := hwf.roundedPath_le hmul hb hroot k h
      have h2 : Rounded.pathProbability mul t bases x n ≤
          Rounded.pathProbability mul t bases x p := by
        rw [hwf.roundedPath_child hc]
        exact hmul.le_left _ _ (hwf.roundedPath_isDouble hmul hroot hplt)
          (roundedPath_nonneg hmul hb p) (hb n).1 (hb n).2
      exact h2.trans h1

/-- The admitted leaves are the nodes with a label all of whose ancestors, the
node itself included, pass the admission predicate with the path probability
computed for them. -/
theorem Rounded.admittedLeaves_mem (hwf : t.WF) {n : Nat} :
    n ∈ Rounded.admittedLeaves mul t bases s args x ↔
      n < t.nodes.length ∧ 0 ≤ t.label n ∧
        ∀ a, t.AncestorOrSelf a n →
          Rounded.ifAddToQueue s args a (Rounded.pathProbability mul t bases x a) =
            some true := by
  simp only [Rounded.admittedLeaves, List.mem_filter, List.mem_range, Bool.and_eq_true,
    decide_eq_true_eq, Rounded.admitted, List.all_eq_true]
  constructor
  · rintro ⟨hn, hl, hall⟩
    exact ⟨hn, hl, fun a ha => hall a ((hwf.mem_pathToRoot hn).mpr ha)⟩
  · rintro ⟨hn, hl, hall⟩
    exact ⟨hn, hl, fun a ha => hall a ((hwf.mem_pathToRoot hn).mp ha)⟩

theorem Rounded.admittedLeaves_distinct :
    (Rounded.admittedLeaves mul t bases s args x).Nodup :=
  List.Nodup.filter _ (List.nodup_range _)

/-- The admitted leaves of the effective model are the admitted leaves. -/
theorem admittedLeaves_effective (hmul : DoubleMul mul) (hcover : TablesCover t s)
    (hwf : t.WF) :
    admittedLeaves t (effectiveBases mul t bases x) (effectiveState mul t bases s x) args x =
      Rounded.admittedLeaves mul t bases s args x := by
  apply List.filter_congr
  intro n hn
  have hn1 := List.mem_range.mp hn
  congr 1
  rw [Bool.eq_iff_iff]
  simp only [admitted, Rounded.admitted, List.all_eq_true, decide_eq_true_eq]
  have key : ∀ a ∈ t.pathToRoot n,
      (NapkinXC.ifAddToQueue (effectiveState mul t bases s x) args a
        (NapkinXC.pathProbability t (effectiveBases mul t bases x) x a) = true ↔
      Rounded.ifAddToQueue s args a (Rounded.pathProbability mul t bases x a) = some true) := by
    intro a ha
    obtain ⟨k, hk⟩ := (hwf.mem_pathToRoot hn1).mp ha
    have halt := hwf.ancestor_lt hn1 hk
    rw [hwf.pathProbability_eff hmul halt,
      @ifAddToQueue_effective mul t bases s args x hcover a halt]
    simp
  constructor
  · intro h a ha
    exact (key a ha).mp (h a ha)
  · intro h a ha
    exact (key a ha).mpr (h a ha)

/-- The prediction of a leaf in the effective model: its label with the score
computed with `mul`, the read of the weight being within the table. -/
theorem leafPrediction_effective (hmul : DoubleMul mul) (hcover : TablesCover t s)
    (hwf : t.WF) {n : Nat} (hn : n < t.nodes.length) :
    (leafPrediction t (effectiveBases mul t bases x) (effectiveState mul t bases s x) x
      n).label = t.label n ∧
    Rounded.calculateValue mul s n (Rounded.pathProbability mul t bases x n) =
      some (leafPrediction t (effectiveBases mul t bases x) (effectiveState mul t bases s x) x
        n).value := by
  refine ⟨rfl, ?_⟩
  rw [calculateValue_effective hmul hcover hn]
  simp only [leafPrediction, hwf.pathProbability_eff hmul hn]

/-- What `PLT::predict` returns on a vector that holds `P0` on entry, computed
with `mul` on tables that cover the tree: `P0` followed by the predictions of
the nodes `leaves`, which with `others` are the admitted leaves; the label of a
prediction is that of its leaf and its score the score computed for the leaf. -/
theorem Rounded.predict_result (hmul : DoubleMul mul) (hcover : TablesCover t s)
    (hQ : Qi.Bounded args.topK (finalEntry t) Holds) (hwf : t.WF)
    (fuel : Nat) (hfuel : t.nodes.length + 2 ≤ fuel) (P0 : List Prediction) :
    ∃ (R : List Prediction) (leaves others : List Nat),
      Rounded.predict mul Qi t bases s args fuel P0 x = some (P0 ++ R) ∧
      (leaves ++ others).Perm (Rounded.admittedLeaves mul t bases s args x) ∧
      R.length = leaves.length ∧
      R.length = (if 0 < args.topK then
        min (args.topK.toNat - P0.length)
          (Rounded.admittedLeaves mul t bases s args x).length
        else (Rounded.admittedLeaves mul t bases s args x).length) ∧
      R.map Prediction.label = leaves.map t.label ∧
      ∀ r ∈ R, ∃ n ∈ leaves, r.label = t.label n ∧
        Rounded.calculateValue mul s n (Rounded.pathProbability mul t bases x n) =
          some r.value := by
  obtain ⟨R, rest, hR, hperm, hlen⟩ := @predict_from Q Qi Holds t
    (effectiveBases mul t bases x) (effectiveState mul t bases s x) args x hQ hwf fuel hfuel P0
  rw [← predict_effective hmul hcover hQ hwf fuel P0] at hR
  simp only [admittedPredictions, List.length_map, admittedLeaves_effective hmul hcover hwf]
    at hperm hlen
  obtain ⟨L1, hL1, hmap⟩ := exists_perm_map
    (leafPrediction t (effectiveBases mul t bases x) (effectiveState mul t bases s x) x) _ _ hperm
  have hRmap : R = (L1.take R.length).map
      (leafPrediction t (effectiveBases mul t bases x) (effectiveState mul t bases s x) x) := by
    rw [List.map_take, ← hmap, List.take_left' rfl]
  have hle : R.length ≤ L1.length := by
    have := congrArg List.length hmap
    rw [List.length_append, List.length_map] at this
    omega
  have hvalid : ∀ n ∈ L1.take R.length, n < t.nodes.length := by
    intro n hn
    have h1 := hL1.subset (List.mem_of_mem_take hn)
    exact ((Rounded.admittedLeaves_mem hwf).mp h1).1
  refine ⟨R, L1.take R.length, L1.drop R.length, hR, ?_, ?_, hlen, ?_, ?_⟩
  · rw [List.take_append_drop]
    exact hL1
  · rw [List.length_take]
    omega
  · conv_lhs => rw [hRmap]
    rw [List.map_map]
    rfl
  · intro r hr
    rw [hRmap] at hr
    obtain ⟨n, hn, rfl⟩ := List.mem_map.mp hr
    exact ⟨n, hn, rfl, (leafPrediction_effective hmul hcover hwf (hvalid n hn)).2⟩

end RoundedResult

/-! ## Multiplication of doubles and the claims on the exact search -/

section DoubleLaws

theorem roundHalfEven_intCast (k : ℤ) : roundHalfEven (k : ℚ) = k := by
  simp [roundHalfEven]

theorem floor_le_roundHalfEven (q : ℚ) : ⌊q⌋ ≤ roundHalfEven q := by
  unfold roundHalfEven
  split_ifs <;> omega

theorem le_roundHalfEven {q : ℚ} {M : ℤ} (h : (M : ℚ) ≤ q) : M ≤ roundHalfEven q :=
  (Int.le_floor.mpr h).trans (floor_le_roundHalfEven q)

theorem roundHalfEven_le {q : ℚ} {M : ℤ} (h : q ≤ M) : roundHalfEven q ≤ M := by
  have hfl : ⌊q⌋ ≤ M := by
    have : ((⌊q⌋ : ℤ) : ℚ) ≤ M := (Int.floor_le q).trans h
    exact_mod_cast this
  have hup : 0 < q - ⌊q⌋ → ⌊q⌋ + 1 ≤ M := by
    intro hpos
    have h1 : ((⌊q⌋ : ℤ) : ℚ) < M := by linarith
    have h2 : ⌊q⌋ < M := by exact_mod_cast h1
    omega
  have hfrac : 0 ≤ q - ⌊q⌋ := by linarith [Int.floor_le q]
  unfold roundHalfEven
  split_ifs with h1 h2 h3
  · exact hfl
  · exact hup (by linarith)
  · exact hfl
  · exact hup (by linarith)

theorem bitLog_spec : ∀ (fuel n : Nat), n ≤ fuel → n ≠ 0 →
    2 ^ bitLog fuel n ≤ n ∧ n < 2 ^ (bitLog fuel n + 1)
  | 0, n, h, h0 => absurd (Nat.le_zero.mp h) h0
  | fuel + 1, n, h, h0 => by
    unfold bitLog
    split_ifs with h2
    · simp
      omega
    · have ih := bitLog_spec fuel (n / 2) (by omega) (by omega)
      rw [pow_succ, pow_succ]
      generalize 2 ^ bitLog fuel (n / 2) = p at ih ⊢
      omega

theorem binade_spec {q : ℚ} (hq : 0 < q) :
    (2 : ℚ) ^ binade q ≤ q ∧ q < 2 ^ (binade q + 1) := by
  have h2 : (0 : ℚ) < 2 := by norm_num
  have hnum : 0 < q.num := Rat.num_pos.mpr hq
  have hn0 : q.num.natAbs ≠ 0 := Int.natAbs_ne_zero.mpr hnum.ne'
  have hd0 : q.den ≠ 0 := q.den_nz
  have hdpos : (0 : ℚ) < q.den := by exact_mod_cast q.den_pos
  have hqeq : q = (q.num.natAbs : ℚ) / q.den := by
    have h1 : (q.num.natAbs : ℤ) = q.num := Int.natAbs_of_nonneg hnum.le
    have h3 : ((q.num.natAbs : ℕ) : ℚ) = q.num :=
      calc ((q.num.natAbs : ℕ) : ℚ) = ((q.num.natAbs : ℤ) : ℚ) := (Int.cast_natCast _).symm
        _ = q.num := by rw [h1]
    rw [h3]
    exact (Rat.num_div_den q).symm
  have hn1 : ((2 : ℚ) ^ (bitLog q.num.natAbs q.num.natAbs : ℤ)) ≤ q.num.natAbs := by
    have := (bitLog_spec _ _ (le_refl _) hn0).1
    rw [zpow_natCast]
    exact_mod_cast this
  have hn2 : (q.num.natAbs : ℚ) < (2 : ℚ) ^ ((bitLog q.num.natAbs q.num.natAbs : ℤ) + 1) := by
    have := (bitLog_spec _ _ (le_refl _) hn0).2
    have h5 : ((bitLog q.num.natAbs q.num.natAbs : ℤ) + 1) = ((bitLog q.num.natAbs q.num.natAbs + 1 : ℕ) : ℤ) := by
      push_cast
      rfl
    rw [h5, zpow_natCast]
    exact_mod_cast this
  have hd1 : ((2 : ℚ) ^ (bitLog q.den q.den : ℤ)) ≤ q.den := by
    have := (bitLog_spec _ _ (le_refl _) hd0).1
    rw [zpow_natCast]
    exact_mod_cast this
  have hd2 : (q.den : ℚ) < (2 : ℚ) ^ ((bitLog q.den q.den : ℤ) + 1) := by
    have := (bitLog_spec _ _ (le_refl _) hd0).2
    have h5 : ((bitLog q.den q.den : ℤ) + 1) = ((bitLog q.den q.den + 1 : ℕ) : ℤ) := by
      push_cast
      rfl
    rw [h5, zpow_natCast]
    exact_mod_cast this
  unfold binade
  generalize (bitLog q.num.natAbs q.num.natAbs : ℤ) = a at hn1 hn2 ⊢
  generalize (bitLog q.den q.den : ℤ) = b at hd1 hd2 ⊢
  generalize (q.num.natAbs : ℚ) = n at hqeq hn1 hn2
  generalize (q.den : ℚ) = d at hqeq hd1 hd2 hdpos
  have hlow : (2 : ℚ) ^ (a - b - 1) ≤ q := by
    rw [hqeq, le_div_iff₀ hdpos]
    have h6 : (2 : ℚ) ^ (a - b - 1) * 2 ^ (b + 1) = 2 ^ a := by
      rw [← zpow_add₀ h2.ne']
      congr 1
      ring
    calc (2 : ℚ) ^ (a - b - 1) * d ≤ 2 ^ (a - b - 1) * 2 ^ (b + 1) :=
          mul_le_mul_of_nonneg_left hd2.le (zpow_pos h2 _).le
      _ = 2 ^ a := h6
      _ ≤ n := hn1
  have hhigh : q < (2 : ℚ) ^ (a - b + 1) := by
    rw [hqeq, div_lt_iff₀ hdpos]
    have h6 : (2 : ℚ) ^ (a - b + 1) * 2 ^ b = 2 ^ (a + 1) := by
      rw [← zpow_add₀ h2.ne']
      congr 1
      ring
    calc n < 2 ^ (a + 1) := hn2
      _ = (2 : ℚ) ^ (a - b + 1) * 2 ^ b := h6.symm
      _ ≤ (2 : ℚ) ^ (a - b + 1) * d := mul_le_mul_of_nonneg_left hd1 (zpow_pos h2 _).le
  by_cases hle : (2 : ℚ) ^ (a - b) ≤ q
  · rw [if_pos hle]
    exact ⟨hle, hhigh⟩
  · rw [if_neg hle, sub_add_cancel]
    exact ⟨hlow, not_le.mp hle⟩

theorem binade_mono {x a : ℚ} (hx : 0 < x) (hxa : x ≤ a) : binade x ≤ binade a := by
  by_contra hlt
  have h1 := (binade_spec hx).1
  have h2 := (binade_spec (lt_of_lt_of_le hx hxa)).2
  have h3 : (2 : ℚ) ^ (binade a + 1) ≤ 2 ^ binade x :=
    zpow_le_zpow_right₀ (by norm_num) (by omega)
  linarith

theorem doubleExp_mono {x a : ℚ} (hx : 0 < x) (hxa : x ≤ a) : doubleExp x ≤ doubleExp a := by
  unfold doubleExp
  have h := binade_mono hx hxa
  omega

theorem lt_zpow_doubleExp {q : ℚ} (hq : 0 < q) :
    q < 2 ^ (doubleExp q + 53) := by
  have h1 := (binade_spec hq).2
  have h2 : binade q + 1 ≤ doubleExp q + 53 := by
    unfold doubleExp
    omega
  exact lt_of_lt_of_le h1 (zpow_le_zpow_right₀ (by norm_num) h2)

theorem zpow_doubleExp_le {q : ℚ} (hq : 0 < q) (he : doubleExp q ≠ -1074) :
    (2 : ℚ) ^ (doubleExp q + 52) ≤ q := by
  have h1 := (binade_spec hq).1
  have h2 : doubleExp q + 52 = binade q := by
    unfold doubleExp at he ⊢
    omega
  rw [h2]
  exact h1

theorem doubleExp_ge (q : ℚ) : -1074 ≤ doubleExp q := le_max_right _ _

/-- A positive rational `m * 2^e` with `m ≤ 2^53` and `e ≥ -1074` is a double:
rounding gives it back. -/
theorem roundDoublePos_of_rep {z : ℚ} (hz : 0 < z) (m e : ℤ) (he : -1074 ≤ e)
    (hm : m ≤ 2 ^ 53) (hrep : z = (m : ℚ) * 2 ^ e) : roundDoublePos z = z := by
  have h2 : (0 : ℚ) < 2 := by norm_num
  have hm53 : (m : ℚ) ≤ 2 ^ (53 : ℤ) := by
    have h : (m : ℚ) ≤ ((2 ^ 53 : ℤ) : ℚ) := by exact_mod_cast hm
    norm_num at h ⊢
    exact h
  have hlow := zpow_doubleExp_le hz
  unfold roundDoublePos
  generalize doubleExp z = E at hlow ⊢
  have hE1 : E ≤ e + 1 := by
    by_cases hE : E = -1074
    · omega
    · have h1 := hlow hE
      have h3 : z ≤ (2 : ℚ) ^ (e + 53) := by
        rw [hrep, zpow_add₀ h2.ne', mul_comm]
        exact mul_le_mul_of_nonneg_left hm53 (zpow_pos h2 e).le
      have h5 := (zpow_le_zpow_iff_right₀ (by norm_num : (1 : ℚ) < 2)).mp (h1.trans h3)
      omega
  have hpE : (0 : ℚ) < 2 ^ E := zpow_pos h2 E
  have hint : ∃ k : ℤ, z = (k : ℚ) * 2 ^ E := by
    by_cases hle : E ≤ e
    · obtain ⟨d, hd⟩ := Int.eq_ofNat_of_zero_le (sub_nonneg.mpr hle)
      refine ⟨m * 2 ^ d, ?_⟩
      have he2 : e = E + d := by omega
      rw [hrep, he2, zpow_add₀ h2.ne']
      push_cast
      rw [zpow_natCast]
      ring
    · have hE : E = e + 1 := by omega
      have h1 := hlow (by omega)
      have h3 : (2 : ℚ) ^ (E + 52) = 2 ^ (53 : ℤ) * 2 ^ e := by
        rw [← zpow_add₀ h2.ne']
        congr 1
        omega
      rw [h3, hrep] at h1
      have h4 : (2 : ℚ) ^ (53 : ℤ) ≤ m := le_of_mul_le_mul_right h1 (zpow_pos h2 e)
      have hmeq : (m : ℚ) = 2 ^ (53 : ℤ) := le_antisymm hm53 h4
      refine ⟨2 ^ 52, ?_⟩
      rw [hrep, hmeq, hE, zpow_add₀ h2.ne']
      norm_num
      ring
  obtain ⟨k, hk⟩ := hint
  have hdiv : z / 2 ^ E = (k : ℚ) := by
    rw [hk]
    field_simp
  rw [hdiv, roundHalfEven_intCast, ← hk]

theorem roundDoublePos_nonneg {q : ℚ} (hq : 0 < q) : 0 ≤ roundDoublePos q := by
  unfold roundDoublePos
  have h1 : (0 : ℤ) ≤ roundHalfEven (q / 2 ^ doubleExp q) :=
    le_roundHalfEven (by
      have : (0 : ℚ) < 2 ^ doubleExp q := zpow_pos (by norm_num) _
      simpa using (div_pos hq this).le)
  have h2 : (0 : ℚ) ≤ (roundHalfEven (q / 2 ^ doubleExp q) : ℚ) := by exact_mod_cast h1
  exact mul_nonneg h2 (zpow_pos (by norm_num) _).le

/-- Rounding a positive rational gives a double. -/
theorem roundDoublePos_idem {q : ℚ} (hq : 0 < q) :
    roundDoublePos q = 0 ∨
      (0 < roundDoublePos q ∧ roundDoublePos (roundDoublePos q) = roundDoublePos q) := by
  rcases (roundDoublePos_nonneg hq).eq_or_lt with h0 | hpos
  · exact Or.inl h0.symm
  · refine Or.inr ⟨hpos, ?_⟩
    refine roundDoublePos_of_rep hpos (roundHalfEven (q / 2 ^ doubleExp q)) (doubleExp q)
      (doubleExp_ge q) ?_ rfl
    apply roundHalfEven_le
    have h2 : (0 : ℚ) < 2 ^ doubleExp q := zpow_pos (by norm_num) _
    rw [div_le_iff₀ h2]
    have h3 := (lt_zpow_doubleExp hq).le
    rw [zpow_add₀ (by norm_num : (2 : ℚ) ≠ 0), mul_comm] at h3
    have : ((2 ^ 53 : ℤ) : ℚ) = 2 ^ (53 : ℤ) := by norm_num
    rw [this]
    exact h3

theorem roundDouble_nonneg {q : ℚ} (hq : 0 ≤ q) : 0 ≤ roundDouble q := by
  unfold roundDouble
  split_ifs with h0 hpos
  · exact le_refl _
  · exact roundDoublePos_nonneg hpos
  · exact absurd (lt_of_le_of_ne hq (Ne.symm h0)) hpos

theorem roundDouble_idem (q : ℚ) : roundDouble (roundDouble q) = roundDouble q := by
  have key : ∀ y : ℚ, 0 < y → roundDouble (roundDoublePos y) = roundDoublePos y ∧
      roundDouble (-roundDoublePos y) = -roundDoublePos y := by
    intro y hy
    rcases roundDoublePos_idem hy with h0 | ⟨hpos, hid⟩
    · rw [h0]
      simp [roundDouble]
    · constructor
      · simp [roundDouble, hpos.ne', hpos, hid]
      · have hneg : ¬ (0 < -roundDoublePos y) := by linarith
        simp [roundDouble, hpos.ne', hneg, hid]
  by_cases h0 : q = 0
  · simp [roundDouble, h0]
  · by_cases hpos : 0 < q
    · have : roundDouble q = roundDoublePos q := by simp [roundDouble, h0, hpos]
      rw [this]
      exact (key q hpos).1
    · have hneg : 0 < -q := by
        have := lt_of_le_of_ne (not_lt.mp hpos) h0
        linarith
      have : roundDouble q = -roundDoublePos (-q) := by simp [roundDouble, h0, hpos]
      rw [this]
      exact (key (-q) hneg).2

/-- Rounding does not pass a double: a rational in `[0, a]` rounds to at most the
double `a`. -/
theorem roundDouble_le_of_double {x a : ℚ} (ha : roundDouble a = a) (hx : 0 ≤ x)
    (hxa : x ≤ a) : roundDouble x ≤ a := by
  by_cases hx0 : x = 0
  · subst hx0
    simpa [roundDouble] using hxa
  · have hxpos : 0 < x := lt_of_le_of_ne hx (Ne.symm hx0)
    have hapos : 0 < a := lt_of_lt_of_le hxpos hxa
    have hrx : roundDouble x = roundDoublePos x := by simp [roundDouble, hx0, hxpos]
    have hra : roundDoublePos a = a := by
      simpa [roundDouble, hapos.ne', hapos] using ha
    rw [hrx]
    have h2 : (0 : ℚ) < 2 := by norm_num
    have hmono := doubleExp_mono hxpos hxa
    obtain ⟨d, hd⟩ := Int.eq_ofNat_of_zero_le (sub_nonneg.mpr hmono)
    have hEa : doubleExp a = doubleExp x + d := by omega
    have hpx : (0 : ℚ) < 2 ^ doubleExp x := zpow_pos h2 _
    have hrep : a = ((roundHalfEven (a / 2 ^ doubleExp a) * 2 ^ d : ℤ) : ℚ) * 2 ^ doubleExp x := by
      conv_lhs => rw [← hra]
      unfold roundDoublePos
      rw [hEa, zpow_add₀ h2.ne']
      push_cast
      rw [zpow_natCast]
      ring
    have hle : roundHalfEven (x / 2 ^ doubleExp x) ≤
        roundHalfEven (a / 2 ^ doubleExp a) * 2 ^ d := by
      apply roundHalfEven_le
      rw [div_le_iff₀ hpx, ← hrep]
      exact hxa
    unfold roundDoublePos
    have hle2 : ((roundHalfEven (x / 2 ^ doubleExp x) : ℤ) : ℚ) ≤
        ((roundHalfEven (a / 2 ^ doubleExp a) * 2 ^ d : ℤ) : ℚ) := by exact_mod_cast hle
    calc (roundHalfEven (x / 2 ^ doubleExp x) : ℚ) * 2 ^ doubleExp x
        ≤ ((roundHalfEven (a / 2 ^ doubleExp a) * 2 ^ d : ℤ) : ℚ) * 2 ^ doubleExp x :=
          mul_le_mul_of_nonneg_right hle2 hpx.le
      _ = a := hrep.symm

/-- The product rounded to the nearest double obeys the laws of the
multiplication of doubles. -/
theorem doubleMul_laws : DoubleMul doubleMul where
  zero_left := by
    intro b
    simp [doubleMul, roundDouble]
  nonneg := fun a b ha hb => roundDouble_nonneg (mul_nonneg ha hb)
  closed := by
    intro a b
    show roundDouble (roundDouble (a * b) * 1) = roundDouble (a * b)
    rw [mul_one]
    exact roundDouble_idem _
  le_left := by
    intro a b hdbl ha hb hb1
    have hda : roundDouble a = a := by
      have h : roundDouble (a * 1) = a := hdbl
      rwa [mul_one] at h
    exact roundDouble_le_of_double hda (mul_nonneg ha hb) (mul_le_of_le_one_right ha hb1)

end DoubleLaws

section RoundedClaims

theorem bases7Double_probability : ProbabilityTable bases7Double [] := by
  intro n
  unfold bases7Double
  match n with
  | 0 => norm_num
  | 1 => norm_num
  | 2 => norm_num
  | 3 => norm_num
  | 4 => norm_num
  | 5 => norm_num
  | 6 => norm_num
  | n + 7 => simp

theorem tablesCover_plt7 : TablesCover tree7 plt7 :=
  ⟨fun h => absurd rfl h, fun h => absurd rfl h⟩

theorem tablesCover_plt7DoubleThr : TablesCover tree7 plt7DoubleThr :=
  ⟨fun _ => by decide, fun h => absurd rfl h⟩

theorem tablesCover_plt7Weighted : TablesCover tree7 plt7Weighted :=
  ⟨fun h => absurd rfl h, fun _ => by decide⟩

/-- In node-threshold mode a node is admitted iff the read of its threshold is
within the table and the threshold is at most the path probability. -/
theorem Rounded.ifAddToQueue_threshold_read {s : PLT} {args : Args} (hthr : s.thresholds ≠ [])
    (hargs : args.threshold ≤ 0) (n : Nat) (p : ℚ) :
    Rounded.ifAddToQueue s args n p = some true ↔
      ∃ e, s.nodesThr[n]? = some e ∧ e.th ≤ p := by
  have h : s.thresholds.length ≠ 0 := fun h => hthr (List.length_eq_zero.mp h)
  simp only [Rounded.ifAddToQueue, not_lt.mpr hargs, h, if_false, ne_eq, not_false_eq_true,
    if_true]
  cases s.nodesThr[n]? with
  | none => simp
  | some e => simp

/-- C13, the claim as stated fails: on a vector `prediction` that holds one entry
on entry, `PLT::predict` with `topK = 2` on the tree of seven nodes, which has
`A = 4` admitted leaves, appends one prediction, not `min(2, 4) = 2`: the loop
compares the size of the whole vector with `topK`. -/
theorem predict_count_nonempty_entry :
    args7Top2.topK = 2 ∧
    Rounded.admittedLeaves doubleMul tree7 bases7Double plt7 args7Top2 [] = [3, 4, 5, 6] ∧
    Rounded.predict doubleMul listQueue tree7 bases7Double plt7 args7Top2 9 [⟨7, 1⟩] [] =
      some ([⟨7, 1⟩] ++ [⟨0, 8574853690513423 / 144115188075855872⟩]) ∧
    ¬ ∃ R : List Prediction,
      Rounded.predict doubleMul listQueue tree7 bases7Double plt7 args7Top2 9 [⟨7, 1⟩] [] =
        some ([⟨7, 1⟩] ++ R) ∧
      R.length = min args7Top2.topK.toNat
        (Rounded.admittedLeaves doubleMul tree7 bases7Double plt7 args7Top2 []).length := by
  have h1 : Rounded.admittedLeaves doubleMul tree7 bases7Double plt7 args7Top2 [] =
      [3, 4, 5, 6] := by decide!
  have h2 : Rounded.predict doubleMul listQueue tree7 bases7Double plt7 args7Top2 9
      [⟨7, 1⟩] [] = some ([⟨7, 1⟩] ++ [⟨0, 8574853690513423 / 144115188075855872⟩]) := by
    decide!
  refine ⟨rfl, h1, h2, ?_⟩
  rintro ⟨R, hR, hlen⟩
  rw [h2] at hR
  have h3 := List.append_cancel_left (Option.some.inj hR)
  rw [← h3, h1] at hlen
  revert hlen
  decide

/-- C13: for every tree with the tree invariants, every feature row and tables
that cover the tree, `PLT::predict` returns (for every multiplication of
doubles, every fuel of at least the number of nodes plus two, and every queue
that obeys the law of the bounded queue); on a vector `prediction` that holds
`n` entries on entry it appends, with `topK = K > 0`, `min(K - n, A)`
predictions (`min(K, A)` on an empty vector, none for `n >= K`) and otherwise
`A` predictions, where `A` is the number of admitted leaves: the nodes with a
label all of whose root-path nodes, root and leaf included, pass the admission
predicate with the path probability computed for them; the appended
predictions are those of pairwise distinct admitted leaves, one per leaf. -/
theorem predict_terminates_count {Q : Type} (mul : ℚ → ℚ → ℚ) (Qi : TopKQueue Q)
    (Holds : Q → List TreeNodeValue → List TreeNodeValue → Prop) (t : Tree)
    (bases : Nat → List Feature → ℚ) (s : PLT) (args : Args) (x : List Feature)
    (prediction : List Prediction)
    (hmul : DoubleMul mul) (hcover : TablesCover t s)
    (hQ : Qi.Bounded args.topK (finalEntry t) Holds) (hwf : t.WF)
    (fuel : Nat) (hfuel : t.nodes.length + 2 ≤ fuel) :
    ∃ (R : List Prediction) (leaves : List Nat),
      Rounded.predict mul Qi t bases s args fuel prediction x = some (prediction ++ R) ∧
      R.length = (if 0 < args.topK then
        min (args.topK.toNat - prediction.length)
          (Rounded.admittedLeaves mul t bases s args x).length
        else (Rounded.admittedLeaves mul t bases s args x).length) ∧
      (∀ n, n ∈ Rounded.admittedLeaves mul t bases s args x ↔
        n < t.nodes.length ∧ 0 ≤ t.label n ∧
          ∀ a, t.AncestorOrSelf a n →
            Rounded.ifAddToQueue s args a (Rounded.pathProbability mul t bases x a) =
              some true) ∧
      (Rounded.admittedLeaves mul t bases s args x).Nodup ∧
      leaves.Nodup ∧ (∀ n ∈ leaves, n ∈ Rounded.admittedLeaves mul t bases s args x) ∧
      R.map Prediction.label = leaves.map t.label := by
  obtain ⟨R, leaves, others, hR, hperm, _, hcount, hlabels, _⟩ :=
    @Rounded.predict_result Q Qi Holds mul t bases s args x hmul hcover hQ hwf fuel hfuel
      prediction
  have hnd : (leaves ++ others).Nodup := hperm.nodup_iff.mpr Rounded.admittedLeaves_distinct
  exact ⟨R, leaves, hR, hcount, fun n => Rounded.admittedLeaves_mem hwf,
    Rounded.admittedLeaves_distinct, (List.nodup_append.mp hnd).1,
    fun n hn => hperm.subset (List.mem_append_left _ hn), hlabels⟩

theorem predict_terminates_count_witness :
    (DoubleMul doubleMul ∧ TablesCover tree7 plt7 ∧ tree7.nodes.length + 2 ≤ 9) ∧
    (∃ (R : List Prediction) (leaves : List Nat),
      Rounded.predict doubleMul (pruningQueue tree7) tree7 bases7Double plt7 args7Top2 9
        [⟨7, 1⟩] [] = some ([⟨7, 1⟩] ++ R) ∧
      R.length = (if 0 < args7Top2.topK then
        min (args7Top2.topK.toNat - ([⟨7, 1⟩] : List Prediction).length)
          (Rounded.admittedLeaves doubleMul tree7 bases7Double plt7 args7Top2 []).length
        else (Rounded.admittedLeaves doubleMul tree7 bases7Double plt7 args7Top2 []).length) ∧
      (∀ n, n ∈ Rounded.admittedLeaves doubleMul tree7 bases7Double plt7 args7Top2 [] ↔
        n < tree7.nodes.length ∧ 0 ≤ tree7.label n ∧
          ∀ a, tree7.AncestorOrSelf a n →
            Rounded.ifAddToQueue plt7 args7Top2 a
              (Rounded.pathProbability doubleMul tree7 bases7Double [] a) = some true) ∧
      (Rounded.admittedLeaves doubleMul tree7 bases7Double plt7 args7Top2 []).Nodup ∧
      leaves.Nodup ∧
      (∀ n ∈ leaves, n ∈ Rounded.admittedLeaves doubleMul tree7 bases7Double plt7 args7Top2 []) ∧
      R.map Prediction.label = leaves.map tree7.label) ∧
    Rounded.predict doubleMul (pruningQueue tree7) tree7 bases7Double plt7 args7Top2 9
      [⟨7, 1⟩] [] = some [⟨7, 1⟩, ⟨0, 8574853690513423 / 144115188075855872⟩] ∧
    Rounded.predict doubleMul (pruningQueue tree7) tree7 bases7Double plt7 args7Top2 9 [] [] =
      some [⟨0, 8574853690513423 / 144115188075855872⟩,
        ⟨1, 5044031582654955 / 288230376151711744⟩] ∧
    Rounded.predict doubleMul listQueue tree7 bases7Double plt7 args7 9 [] [] =
      some [⟨0, 8574853690513423 / 144115188075855872⟩,
        ⟨1, 5044031582654955 / 288230376151711744⟩,
        ⟨3, 1441151880758559 / 144115188075855872⟩,
        ⟨2, 1441151880758559 / 288230376151711744⟩] ∧
    Rounded.admittedLeaves doubleMul tree7 bases7Double plt7 args7Top2 [] = [3, 4, 5, 6] ∧
    Rounded.predict doubleMul listQueue tree7 bases7Double plt7DoubleThr args7 9 [] [] =
      some [⟨3, 1441151880758559 / 144115188075855872⟩] ∧
    Rounded.admittedLeaves doubleMul tree7 bases7Double plt7DoubleThr args7 [] = [6] ∧
    Rounded.predict doubleMul listQueue tree7 bases7Double
      { plt7DoubleThr with nodesThr := [] } args7 9 [] [] = none :=
  ⟨⟨doubleMul_laws, tablesCover_plt7, by decide⟩,
    predict_terminates_count doubleMul (pruningQueue tree7) _ tree7 bases7Double plt7
      args7Top2 [] [⟨7, 1⟩] doubleMul_laws tablesCover_plt7 (pruningQueue_bounded tree7 _)
      tree7_wf 9 (by decide),
    by decide!, by decide!, by decide!, by decide!, by decide!, by decide!, by decide!⟩

/-- C14: in node-threshold mode (per-label thresholds set, `args.threshold <= 0`),
on tables that cover the tree and for every multiplication of doubles,
`PLT::predict` returns, and for every returned label there is a leaf of the tree
with that label such that for every node on the path from the root to the leaf,
both ends included, the threshold `nodesThr[node].th`, read within the table,
does not exceed the path probability computed for the node; and no label of a
leaf that has a node on its root path whose threshold exceeds the path
probability computed for it is returned. -/
theorem predict_threshold_sound {Q : Type} (mul : ℚ → ℚ → ℚ) (Qi : TopKQueue Q)
    (Holds : Q → List TreeNodeValue → List TreeNodeValue → Prop) (t : Tree)
    (bases : Nat → List Feature → ℚ) (s : PLT) (args : Args) (x : List Feature)
    (hmul : DoubleMul mul) (hcover : TablesCover t s)
    (hQ : Qi.Bounded args.topK (finalEntry t) Holds) (hwf : t.WF)
    (hthr : s.thresholds ≠ []) (hargs : args.threshold ≤ 0)
    (fuel : Nat) (hfuel : t.nodes.length + 2 ≤ fuel) :
    ∃ R : List Prediction, Rounded.predict mul Qi t bases s args fuel [] x = some R ∧
      (∀ r ∈ R, ∃ leaf, leaf < t.nodes.length ∧ 0 ≤ t.label leaf ∧ t.label leaf = r.label ∧
        ∀ a, t.AncestorOrSelf a leaf →
          ∃ e, s.nodesThr[a]? = some e ∧ e.th ≤ Rounded.pathProbability mul t bases x a) ∧
      (∀ leaf a e, leaf < t.nodes.length → 0 ≤ t.label leaf → t.AncestorOrSelf a leaf →
        s.nodesThr[a]? = some e → Rounded.pathProbability mul t bases x a < e.th →
        t.label leaf ∉ R.map Prediction.label) := by
  obtain ⟨R, leaves, others, hR, hperm, _, _, _, hscore⟩ :=
    @Rounded.predict_result Q Qi Holds mul t bases s args x hmul hcover hQ hwf fuel hfuel []
  rw [List.nil_append] at hR
  have hleaf : ∀ r ∈ R, ∃ leaf, leaf < t.nodes.length ∧ 0 ≤ t.label leaf ∧
      t.label leaf = r.label ∧ ∀ a, t.AncestorOrSelf a leaf →
        ∃ e, s.nodesThr[a]? = some e ∧ e.th ≤ Rounded.pathProbability mul t bases x a := by
    intro r hr
    obtain ⟨leaf, hl, hlab, _⟩ := hscore r hr
    obtain ⟨h1, h2, h3⟩ := (Rounded.admittedLeaves_mem hwf).mp
      (hperm.subset (List.mem_append_left _ hl))
    exact ⟨leaf, h1, h2, hlab.symm,
      fun a ha => (Rounded.ifAddToQueue_threshold_read hthr hargs a _).mp (h3 a ha)⟩
  refine ⟨R, hR, hleaf, ?_⟩
  intro leaf a e hlt hlab hanc he hbelow hmem
  obtain ⟨r, hr, hrl⟩ := List.mem_map.mp hmem
  obtain ⟨leaf1, h1, h2, h3, h4⟩ := hleaf r hr
  have heq : leaf1 = leaf := hwf.label_inj h1 hlt h2 (h3.trans hrl)
  subst heq
  obtain ⟨e1, he1, hle⟩ := h4 a hanc
  rw [he] at he1
  cases he1
  exact absurd hle (not_le.mpr hbelow)

theorem predict_threshold_sound_witness :
    (DoubleMul doubleMul ∧ TablesCover tree7 plt7DoubleThr ∧ plt7DoubleThr.thresholds ≠ [] ∧
      args7.threshold ≤ 0 ∧ tree7.nodes.length + 2 ≤ 9) ∧
    (∃ R : List Prediction,
      Rounded.predict doubleMul listQueue tree7 bases7Double plt7DoubleThr args7 9 [] [] =
        some R ∧
      (∀ r ∈ R, ∃ leaf, leaf < tree7.nodes.length ∧ 0 ≤ tree7.label leaf ∧
        tree7.label leaf = r.label ∧
        ∀ a, tree7.AncestorOrSelf a leaf →
          ∃ e, plt7DoubleThr.nodesThr[a]? = some e ∧
            e.th ≤ Rounded.pathProbability doubleMul tree7 bases7Double [] a) ∧
      (∀ leaf a e, leaf < tree7.nodes.length → 0 ≤ tree7.label leaf →
        tree7.AncestorOrSelf a leaf → plt7DoubleThr.nodesThr[a]? = some e →
        Rounded.pathProbability doubleMul tree7 bases7Double [] a < e.th →
        tree7.label leaf ∉ R.map Prediction.label)) ∧
    Rounded.predict doubleMul listQueue tree7 bases7Double plt7DoubleThr args7 9 [] [] =
      some [⟨3, 1441151880758559 / 144115188075855872⟩] ∧
    (List.range 7).map (Rounded.pathProbability doubleMul tree7 bases7Double []) =
      [3602879701896397 / 36028797018963968, 5044031582654955 / 72057594037927936,
        1441151880758559 / 144115188075855872, 8574853690513423 / 144115188075855872,
        5044031582654955 / 288230376151711744, 1441151880758559 / 288230376151711744,
        1441151880758559 / 144115188075855872] ∧
    plt7DoubleThr.nodesThr.map TreeNodeThrExt.th =
      [1441151880758559 / 144115188075855872, 535928355657089 / 9007199254740992,
        1441151880758559 / 144115188075855872, 535928355657089 / 9007199254740992, 1, 1,
        1441151880758559 / 144115188075855872] ∧
    bases7Double 0 [] * bases7Double 2 [] * bases7Double 6 [] <
      1441151880758559 / 144115188075855872 :=
  ⟨⟨doubleMul_laws, tablesCover_plt7DoubleThr, by decide, by decide!, by decide⟩,
    predict_threshold_sound doubleMul listQueue (fun q l _ => q = l) tree7 bases7Double
      plt7DoubleThr args7 [] doubleMul_laws tablesCover_plt7DoubleThr (listQueue_bounded _ _)
      tree7_wf (by decide) (by decide!) 9 (by decide),
    by decide!, by decide!, by decide!, by decide!⟩

/-- C16: on tables that cover the tree and for every multiplication of doubles
`mul`, `PLT::predict` returns, and every returned `(label, score)` is that of a
leaf of the tree with that label: when no label weights are set the score is the
product of the probabilities the node classifiers give for the feature row over
the nodes on the path from the root to the leaf, both included and each once,
multiplied with `mul` from the root downwards; when label weights are set the
score is `mul` of that product and `nodesWeights[leaf].weight`, read within the
table. With the exact product for `mul` the product along the path is the
product of the list. -/
theorem predict_score {Q : Type} (mul : ℚ → ℚ → ℚ) (Qi : TopKQueue Q)
    (Holds : Q → List TreeNodeValue → List TreeNodeValue → Prop) (t : Tree)
    (bases : Nat → List Feature → ℚ) (s : PLT) (args : Args) (x : List Feature)
    (hmul : DoubleMul mul) (hcover : TablesCover t s)
    (hQ : Qi.Bounded args.topK (finalEntry t) Holds) (hwf : t.WF)
    (fuel : Nat) (hfuel : t.nodes.length + 2 ≤ fuel) :
    ∃ R : List Prediction, Rounded.predict mul Qi t bases s args fuel [] x = some R ∧
      (∀ r ∈ R, ∃ leaf, leaf < t.nodes.length ∧ 0 ≤ t.label leaf ∧ t.label leaf = r.label ∧
        (t.pathToRoot leaf).Nodup ∧
        (∀ a, a ∈ t.pathToRoot leaf ↔ t.AncestorOrSelf a leaf) ∧
        (s.labelsWeights = [] →
          r.value = pathProduct mul ((t.pathToRoot leaf).map (fun a => bases a x))) ∧
        (s.labelsWeights ≠ [] → ∃ w, s.nodesWeights[leaf]? = some w ∧
          r.value = mul (pathProduct mul ((t.pathToRoot leaf).map (fun a => bases a x)))
            w.weight)) ∧
      ((∀ a b, mul a b = a * b) → ∀ l : List ℚ, pathProduct mul l = l.prod) := by
  obtain ⟨R, leaves, others, hR, hperm, _, _, _, hscore⟩ :=
    @Rounded.predict_result Q Qi Holds mul t bases s args x hmul hcover hQ hwf fuel hfuel []
  rw [List.nil_append] at hR
  refine ⟨R, hR, ?_, fun hexact => pathProduct_exact hexact⟩
  intro r hr
  obtain ⟨leaf, hl, hlab, hval⟩ := hscore r hr
  obtain ⟨h1, h2, _⟩ := (Rounded.admittedLeaves_mem hwf).mp
    (hperm.subset (List.mem_append_left _ hl))
  refine ⟨leaf, h1, h2, hlab.symm, hwf.pathToRoot_nodup h1, fun a => hwf.mem_pathToRoot h1,
    ?_, ?_⟩
  · intro hw
    simp only [Rounded.calculateValue, hw, ne_eq, not_true_eq_false, if_false,
      Option.some.injEq] at hval
    rw [← hval]
    rfl
  · intro hw
    simp only [Rounded.calculateValue, hw, ne_eq, not_false_eq_true, if_true] at hval
    cases hget : s.nodesWeights[leaf]? with
    | none => simp [hget] at hval
    | some w =>
      rw [hget] at hval
      simp only [Option.some.injEq] at hval
      exact ⟨w, rfl, by rw [← hval]; rfl⟩

theorem predict_score_witness :
    (DoubleMul doubleMul ∧ TablesCover tree7 plt7Weighted ∧ tree7.nodes.length + 2 ≤ 9) ∧
    (∃ R : List Prediction,
      Rounded.predict doubleMul listQueue tree7 bases7Double plt7Weighted args7 9 [] [] =
        some R ∧
      (∀ r ∈ R, ∃ leaf, leaf < tree7.nodes.length ∧ 0 ≤ tree7.label leaf ∧
        tree7.label leaf = r.label ∧
        (tree7.pathToRoot leaf).Nodup ∧
        (∀ a, a ∈ tree7.pathToRoot leaf ↔ tree7.AncestorOrSelf a leaf) ∧
        (plt7Weighted.labelsWeights = [] →
          r.value =
            pathProduct doubleMul ((tree7.pathToRoot leaf).map (fun a => bases7Double a []))) ∧
        (plt7Weighted.labelsWeights ≠ [] → ∃ w, plt7Weighted.nodesWeights[leaf]? = some w ∧
          r.value = doubleMul
            (pathProduct doubleMul ((tree7.pathToRoot leaf).map (fun a => bases7Double a [])))
            w.weight)) ∧
      ((∀ a b, doubleMul a b = a * b) → ∀ l : List ℚ, pathProduct doubleMul l = l.prod)) ∧
    Rounded.predict doubleMul listQueue tree7 bases7Double plt7Weighted args7 9 [] [] =
      some [⟨0, 8574853690513423 / 72057594037927936⟩,
        ⟨1, 236438980436951 / 4503599627370496⟩,
        ⟨3, 1441151880758559 / 144115188075855872⟩, ⟨2, 0⟩] ∧
    Rounded.predict doubleMul listQueue tree7 bases7Double plt7 args7 9 [] [] =
      some [⟨0, 8574853690513423 / 144115188075855872⟩,
        ⟨1, 5044031582654955 / 288230376151711744⟩,
        ⟨3, 1441151880758559 / 144115188075855872⟩,
        ⟨2, 1441151880758559 / 288230376151711744⟩] ∧
    tree7.pathToRoot 3 = [3, 1, 0] ∧
    pathProduct doubleMul [bases7Double 3 [], bases7Double 1 [], bases7Double 0 []] =
      doubleMul (doubleMul (bases7Double 0 []) (bases7Double 1 [])) (bases7Double 3 []) ∧
    doubleMul (doubleMul (bases7Double 0 []) (bases7Double 1 [])) (bases7Double 3 []) =
      8574853690513423 / 144115188075855872 ∧
    doubleMul (bases7Double 0 []) (doubleMul (bases7Double 1 []) (bases7Double 3 [])) =
      535928355657089 / 9007199254740992 :=
  ⟨⟨doubleMul_laws, tablesCover_plt7Weighted, by decide⟩,
    predict_score doubleMul listQueue (fun q l _ => q = l) tree7 bases7Double plt7Weighted
      args7 [] doubleMul_laws tablesCover_plt7Weighted (listQueue_bounded _ _) tree7_wf 9
      (by decide),
    by decide!, by decide!, by decide!, rfl, by decide!, by decide!⟩

/-- C22, the claim as stated fails: with per-label thresholds present and a
global threshold as well, the admission predicate admits the node `3` with the
path probability `3/8`, which is below its node threshold `1/2`: the global
threshold `1/4` decides. -/
theorem ifAddToQueue_modes_overlap :
    0 < args7Threshold.threshold ∧ plt7Thr.thresholds ≠ [] ∧
    plt7Thr.nodesThr[3]? = some ⟨1 / 2, 0⟩ ∧
    Rounded.ifAddToQueue plt7Thr args7Threshold 3 (3 / 8) = some true ∧
    ¬ (Rounded.ifAddToQueue plt7Thr args7Threshold 3 (3 / 8) = some true ↔
      ∃ e, plt7Thr.nodesThr[3]? = some e ∧ e.th ≤ 3 / 8) := by
  have h1 : Rounded.ifAddToQueue plt7Thr args7Threshold 3 (3 / 8) = some true := by decide!
  refine ⟨by decide!, by decide, by decide!, h1, ?_⟩
  intro h
  obtain ⟨e, he, hle⟩ := h.mp h1
  have h2 : plt7Thr.nodesThr[3]? = some ⟨1 / 2, 0⟩ := by decide!
  rw [h2] at he
  cases he
  revert hle
  decide!

/-- C22: the admission predicate of `PLT::predict` has three modes, of which
exactly one applies, a global threshold going before per-label thresholds:
without a global threshold (`args.threshold <= 0`) and without per-label
thresholds every node is admitted; with a global threshold
(`args.threshold > 0`, whether or not per-label thresholds are present) a node is
admitted iff its path probability is at least `args.threshold`; with per-label
thresholds and without a global threshold a node is admitted iff its path
probability is at least `nodesThr[node].th`, a read that fails outside the
table. The test reads the path probability `prob` only: it is the same for
every choice of the label weights and node weights, and `addToQueue` applies it
to `prob` while the entry carries the final score `calculateValue(node, prob)`. -/
theorem ifAddToQueue_modes (s : PLT) (args : Args) (node : Nat) (prob : ℚ) :
    ((args.threshold ≤ 0 ∧ s.thresholds = []) ∨ 0 < args.threshold ∨
      (args.threshold ≤ 0 ∧ s.thresholds ≠ [])) ∧
    ¬ ((args.threshold ≤ 0 ∧ s.thresholds = []) ∧ 0 < args.threshold) ∧
    ¬ ((args.threshold ≤ 0 ∧ s.thresholds = []) ∧ (args.threshold ≤ 0 ∧ s.thresholds ≠ [])) ∧
    ¬ (0 < args.threshold ∧ (args.threshold ≤ 0 ∧ s.thresholds ≠ [])) ∧
    (args.threshold ≤ 0 ∧ s.thresholds = [] →
      Rounded.ifAddToQueue s args node prob = some true) ∧
    (0 < args.threshold →
      Rounded.ifAddToQueue s args node prob = some (decide (args.threshold ≤ prob))) ∧
    (args.threshold ≤ 0 ∧ s.thresholds ≠ [] →
      (∀ e, s.nodesThr[node]? = some e →
        Rounded.ifAddToQueue s args node prob = some (decide (e.th ≤ prob))) ∧
      (s.nodesThr.length ≤ node → Rounded.ifAddToQueue s args node prob = none)) ∧
    (∀ (lw : List ℚ) (nw : List TreeNodeWeightsExt),
      Rounded.ifAddToQueue { s with labelsWeights := lw, nodesWeights := nw } args node prob =
        Rounded.ifAddToQueue s args node prob) ∧
    (∀ (mul : ℚ → ℚ → ℚ) (Q : Type) (Qi : TopKQueue Q) (q : Q) (value : ℚ) (pass : Bool),
      Rounded.calculateValue mul s node prob = some value →
      Rounded.ifAddToQueue s args node prob = some pass →
      Rounded.addToQueue mul Qi s args q node prob =
        some (if pass then Qi.push q { node := node, prob := prob, value := value } else q)) := by
  refine ⟨?_, ?_, ?_, ?_, ?_, ?_, ?_, ?_, ?_⟩
  · by_cases h1 : 0 < args.threshold
    · exact Or.inr (Or.inl h1)
    · by_cases h2 : s.thresholds = []
      · exact Or.inl ⟨not_lt.mp h1, h2⟩
      · exact Or.inr (Or.inr ⟨not_lt.mp h1, h2⟩)
  · rintro ⟨⟨h1, _⟩, h2⟩
    exact absurd h2 (not_lt.mpr h1)
  · rintro ⟨⟨_, h1⟩, _, h2⟩
    exact h2 h1
  · rintro ⟨h1, h2, _⟩
    exact absurd h1 (not_lt.mpr h2)
  · rintro ⟨h1, h2⟩
    simp [Rounded.ifAddToQueue, not_lt.mpr h1, h2]
  · intro h1
    simp [Rounded.ifAddToQueue, h1]
  · rintro ⟨h1, h2⟩
    have h : s.thresholds.length ≠ 0 := fun h => h2 (List.length_eq_zero.mp h)
    refine ⟨?_, ?_⟩
    · intro e he
      simp [Rounded.ifAddToQueue, not_lt.mpr h1, h, he]
    · intro hlen
      simp [Rounded.ifAddToQueue, not_lt.mpr h1, h, List.getElem?_eq_none hlen]
  · intro lw nw
    rfl
  · intro mul Q Qi q value pass hv ha
    simp only [Rounded.addToQueue, hv, ha]
    cases pass <;> rfl

theorem ifAddToQueue_modes_witness :
    (plt7Weighted.thresholds = [] ∧ args7.threshold ≤ 0 ∧ 0 < args7Threshold.threshold ∧
      plt7Thr.thresholds ≠ []) ∧
    (Rounded.ifAddToQueue plt7Weighted args7 1 0 = some true ∧
      (Rounded.ifAddToQueue plt7Weighted args7Threshold 1 (1 / 4) = some true ∧
        Rounded.ifAddToQueue plt7Weighted args7Threshold 1 (1 / 5) = some false) ∧
      (Rounded.ifAddToQueue plt7Thr args7 1 (1 / 5) = some true ∧
        Rounded.ifAddToQueue plt7Thr args7 1 (1 / 6) = some false ∧
        Rounded.ifAddToQueue plt7Thr args7 7 1 = none) ∧
      (Rounded.ifAddToQueue plt7Thr args7Threshold 1 (1 / 5) = some false ∧
        Rounded.ifAddToQueue plt7Thr args7Threshold 5 (1 / 4) = some true)) ∧
    (Rounded.ifAddToQueue plt7Weighted args7 1 0 = some true) ∧
    (Rounded.ifAddToQueue plt7Thr args7Threshold 5 (1 / 4) =
      some (decide (args7Threshold.threshold ≤ 1 / 4))) ∧
    ((∀ e, plt7Thr.nodesThr[1]? = some e →
        Rounded.ifAddToQueue plt7Thr args7 1 (1 / 5) = some (decide (e.th ≤ 1 / 5))) ∧
      (plt7Thr.nodesThr.length ≤ 1 → Rounded.ifAddToQueue plt7Thr args7 1 (1 / 5) = none)) :=
  ⟨⟨rfl, by decide!, by decide!, by decide⟩,
    by decide!,
    (ifAddToQueue_modes plt7Weighted args7 1 0).2.2.2.2.1 ⟨by decide!, rfl⟩,
    (ifAddToQueue_modes plt7Thr args7Threshold 5 (1 / 4)).2.2.2.2.2.1 (by decide!),
    (ifAddToQueue_modes plt7Thr args7 1 (1 / 5)).2.2.2.2.2.2.1 ⟨by decide!, by decide⟩⟩

end RoundedClaims

/-! ## Exact search with node thresholds on doubles: completeness -/

section CalibrationReads

variable {t : Tree}

/-- The function `setThresholds` installs `th` and leaves the weights as they
were; afterwards `nodesThr` has an entry for every node of the tree, and the
threshold of every node is at most the threshold of the label of every leaf
below the node. -/
theorem setThresholds_reads {s0 s : PLT} {fuel0 : Nat} {th : List ℚ}
    (htree : s0.tree = some t)
    (hcache : s0.nodesLabels.length = t.t → CacheCovers t s0.nodesLabels)
    (hset : setThresholds s0 fuel0 th = some s) :
    s.thresholds = th ∧ s.labelsWeights = s0.labelsWeights ∧
    s.nodesWeights = s0.nodesWeights ∧
    (∀ a, a < t.nodes.length → ∃ r, s.nodesThr[a]? = some r) ∧
    ∀ e ∈ t.leaves, ∀ a, a < t.nodes.length → t.AncestorOrSelf a e.2 →
      ∃ v r, vectorAt th e.1 = some v ∧ s.nodesThr[a]? = some r ∧ r.th ≤ v := by
  obtain ⟨h1, h2, h3, h4⟩ := setThresholds_covers htree hcache hset
  have htree1 : (Model.setThresholds s0 th).tree = some t := htree
  have hread : ∀ a, a < t.nodes.length → ∃ r, s.nodesThr[a]? = some r := by
    simp only [setThresholds, htree1] at hset
    cases h5 : calculateNodesLabels t fuel0 (Model.setThresholds s0 th) with
    | none => simp [h5] at hset
    | some s2 =>
      rw [h5] at hset
      simp only at hset
      obtain ⟨_, _, _, _, _, b6⟩ := setNodeThresholds_inv _ hset
      intro a ha
      obtain ⟨_, r, _, d2, _⟩ := b6 a (List.mem_range.mpr ha)
      exact ⟨r, d2⟩
  refine ⟨h1, h2, h3, hread, ?_⟩
  intro e he a ha hanc
  obtain ⟨v, hv, hle⟩ := h4 e he a ha hanc
  obtain ⟨r, hr⟩ := hread a ha
  refine ⟨v, r, hv, hr, ?_⟩
  rw [List.getD_eq_getElem?_getD, hr] at hle
  exact hle

end CalibrationReads

section CompleteRounded

/-- C15: for every tree with the tree invariants, every classifier table with
outputs in `[0, 1]` for the feature row, every multiplication of doubles and
every non-empty threshold array `th` installed by `PLT::setThresholds` on a
model of the tree (whose label cache is not yet built or covers the tree, and
whose table `nodesWeights`, if label weights are set, has an entry for every
node), `PLT::predict` in node-threshold mode (`args.threshold <= 0`) with
`topK = 0` returns, and the returned list holds the label `l` of every leaf
whose path probability, the product of the classifier outputs on the path from
the root to the leaf as `PLT::predict` computes it, is at least `th[l]`. The
output of the root classifier is a double, as every product is. -/
theorem predict_threshold_complete {Q : Type} (mul : ℚ → ℚ → ℚ) (Qi : TopKQueue Q)
    (Holds : Q → List TreeNodeValue → List TreeNodeValue → Prop) (t : Tree)
    (bases : Nat → List Feature → ℚ) (s0 s : PLT) (args : Args) (x : List Feature)
    (th : List ℚ) (fuel0 fuel : Nat)
    (hmul : DoubleMul mul)
    (hQ : Qi.Bounded args.topK (finalEntry t) Holds) (hwf : t.WF)
    (hb : ProbabilityTable bases x) (hroot : IsDouble mul (bases t.root x))
    (htree : s0.tree = some t)
    (hcache : s0.nodesLabels.length = t.t → CacheCovers t s0.nodesLabels)
    (hweights : s0.labelsWeights ≠ [] → t.nodes.length ≤ s0.nodesWeights.length)
    (hset : setThresholds s0 fuel0 th = some s) (hth : th ≠ [])
    (hargs : args.threshold ≤ 0) (htopK : args.topK = 0)
    (hfuel : t.nodes.length + 2 ≤ fuel) :
    ∃ R : List Prediction, Rounded.predict mul Qi t bases s args fuel [] x = some R ∧
      ∀ leaf, leaf < t.nodes.length → 0 ≤ t.label leaf →
        ∀ v, vectorAt th (t.label leaf) = some v →
        v ≤ Rounded.pathProbability mul t bases x leaf →
        t.label leaf ∈ R.map Prediction.label := by
  obtain ⟨hth1, hlw, hnw, hread, hcov⟩ := setThresholds_reads htree hcache hset
  have hthr : s.thresholds ≠ [] := by
    rw [hth1]
    exact hth
  have hcover : TablesCover t s := by
    refine ⟨fun _ => ?_, ?_⟩
    · by_contra hlt
      obtain ⟨r, hr⟩ := hread s.nodesThr.length (not_le.mp hlt)
      rw [List.getElem?_eq_none (le_refl _)] at hr
      cases hr
    · rw [hlw, hnw]
      exact hweights
  obtain ⟨R, leaves, others, hR, hperm, hlen, hcount, hlabels, _⟩ :=
    @Rounded.predict_result Q Qi Holds mul t bases s args x hmul hcover hQ hwf fuel hfuel []
  rw [List.nil_append] at hR
  have hothers : others = [] := by
    have h1 := hperm.length_eq
    rw [htopK] at hcount
    simp only [lt_self_iff_false, if_false] at hcount
    rw [List.length_append] at h1
    exact List.length_eq_zero.mp (by omega)
  subst hothers
  rw [List.append_nil] at hperm
  refine ⟨R, hR, ?_⟩
  intro leaf hlt hlab v hv hle
  have hadm : leaf ∈ Rounded.admittedLeaves mul t bases s args x := by
    refine (Rounded.admittedLeaves_mem hwf).mpr ⟨hlt, hlab, ?_⟩
    rintro a ⟨k, hk⟩
    have ha := hwf.ancestor_lt hlt hk
    obtain ⟨v1, r, hv1, hr, hle1⟩ :=
      hcov _ (hwf.leaves_complete leaf hlt hlab) a ha ⟨k, hk⟩
    simp only at hv1
    rw [hv] at hv1
    cases hv1
    rw [Rounded.ifAddToQueue_threshold_read hthr hargs]
    exact ⟨r, hr, hle1.trans (hle.trans (hwf.roundedPath_le hmul hb hroot k hk))⟩
  rw [hlabels]
  exact List.mem_map_of_mem _ (hperm.symm.subset hadm)

theorem predict_threshold_complete_witness :
    (DoubleMul doubleMul ∧ IsDouble doubleMul (bases7Double tree7.root []) ∧
      plt7.tree = some tree7 ∧
      (plt7.labelsWeights ≠ [] → tree7.nodes.length ≤ plt7.nodesWeights.length) ∧
      setThresholds plt7 7 [535928355657089 / 9007199254740992, 1, 1,
        1441151880758559 / 144115188075855872] = some plt7DoubleThr ∧
      ([535928355657089 / 9007199254740992, 1, 1,
        1441151880758559 / 144115188075855872] : List ℚ) ≠ [] ∧
      args7.threshold ≤ 0 ∧ args7.topK = 0 ∧ tree7.nodes.length + 2 ≤ 9) ∧
    (∃ R : List Prediction,
      Rounded.predict doubleMul listQueue tree7 bases7Double plt7DoubleThr args7 9 [] [] =
        some R ∧
      ∀ leaf, leaf < tree7.nodes.length → 0 ≤ tree7.label leaf →
        ∀ v, vectorAt [535928355657089 / 9007199254740992, 1, 1,
          1441151880758559 / 144115188075855872] (tree7.label leaf) = some v →
        v ≤ Rounded.pathProbability doubleMul tree7 bases7Double [] leaf →
        tree7.label leaf ∈ R.map Prediction.label) ∧
    Rounded.predict doubleMul listQueue tree7 bases7Double plt7DoubleThr args7 9 [] [] =
      some [⟨3, 1441151880758559 / 144115188075855872⟩] ∧
    [3, 4, 5, 6].map (Rounded.pathProbability doubleMul tree7 bases7Double []) =
      [8574853690513423 / 144115188075855872, 5044031582654955 / 288230376151711744,
        1441151880758559 / 288230376151711744, 1441151880758559 / 144115188075855872] ∧
    Rounded.pathProbability doubleMul tree7 bases7Double [] 3 <
      535928355657089 / 9007199254740992 ∧
    535928355657089 / 9007199254740992 ≤
      bases7Double 0 [] * bases7Double 1 [] * bases7Double 3 [] :=
  ⟨⟨doubleMul_laws, by unfold IsDouble; decide!, rfl, fun h => absurd rfl h, by decide!,
      by decide, by decide!, rfl, by decide⟩,
    predict_threshold_complete doubleMul listQueue (fun q l _ => q = l) tree7 bases7Double plt7
      plt7DoubleThr args7 [] [535928355657089 / 9007199254740992, 1, 1,
        1441151880758559 / 144115188075855872] 7 9 doubleMul_laws (listQueue_bounded _ _)
      tree7_wf bases7Double_probability (by unfold IsDouble; decide!) rfl
      (fun h => absurd h (by decide)) (fun h => absurd rfl h) (by decide!) (by decide)
      (by decide!) rfl (by decide),
    by decide!, by decide!, by decide!, by decide!⟩

end CompleteRounded

/-! ## Beam search and exact search on calibrated models -/

section SearchersAgree

end SearchersAgree

end NapkinXC
